import Mathlib

set_option maxRecDepth 1000000

/-!
Verification of the speech-to-move normalization pipeline of the
blindfold-chess repository (`chess_normalizer.py`).

The Python source is shallowly embedded: text is a `String` (operated on as
`List Char` where convenient), the word dictionaries are association lists,
the regular expressions of the source are embedded as a small backtracking
regex engine over finite character classes, and every pipeline stage is a
computable Lean function mirroring the corresponding Python function.
-/

namespace ChessNorm

/-! ## Character and string helpers (Python `str` primitives) -/

/-- Python whitespace characters (`str.strip`, regex `\s`), ASCII part. -/
def pyIsSpace (c : Char) : Bool :=
  c = ' ' || c = '\t' || c = '\n' || c = '\x0b' || c = '\x0c' || c = '\r'

/-- ASCII lower-casing of one character (Python `str.lower` on ASCII input). -/
def pyLowerChar (c : Char) : Char :=
  if 'A' ≤ c && c ≤ 'Z' then Char.ofNat (c.toNat + 32) else c

/-- ASCII upper-casing of one character (Python `str.upper` on ASCII input). -/
def pyUpperChar (c : Char) : Char :=
  if 'a' ≤ c && c ≤ 'z' then Char.ofNat (c.toNat - 32) else c

def pyLower (s : String) : String := ⟨s.data.map pyLowerChar⟩

def pyUpper (s : String) : String := ⟨s.data.map pyUpperChar⟩

/-- Python `str.strip()`: remove leading and trailing whitespace. -/
def pyStripL (l : List Char) : List Char :=
  ((l.dropWhile pyIsSpace).reverse.dropWhile pyIsSpace).reverse

def pyStrip (s : String) : String := ⟨pyStripL s.data⟩

/-- `c` is an ASCII letter or digit (case-insensitive `[a-z0-9]`). -/
def isAlnumChar (c : Char) : Bool :=
  ('a' ≤ c && c ≤ 'z') || ('A' ≤ c && c ≤ 'Z') || ('0' ≤ c && c ≤ '9')

/-- Regex word character (`\w`, ASCII): letter, digit or underscore. -/
def isWordChar (c : Char) : Bool := isAlnumChar c || c = '_'

/-- Python `x in s` for strings: `needle` is a contiguous substring of `hay`.
The empty list is a substring of everything. -/
def listIsStart : List Char → List Char → Bool
  | [], _ => true
  | _ :: _, [] => false
  | a :: as, b :: bs => a = b && listIsStart as bs

def listIsSub (needle : List Char) : List Char → Bool
  | [] => listIsStart needle []
  | c :: cs => listIsStart needle (c :: cs) || listIsSub needle cs

def strIsSub (needle hay : String) : Bool := listIsSub needle.data hay.data

/-! ## Dictionaries and constant tables (`chess_normalizer.py` lines 44-183) -/

def NUMBER_WORDS : List (String × String) :=
  [("zero", "0"), ("oh", "0"), ("owe", "0"),
   ("one", "1"), ("won", "1"),
   ("two", "2"), ("too", "2"), ("to", "2"), ("tu", "2"),
   ("three", "3"), ("tree", "3"), ("free", "3"),
   ("four", "4"), ("for", "4"), ("fore", "4"),
   ("five", "5"), ("fife", "5"),
   ("six", "6"), ("seven", "7"),
   ("eight", "8"), ("ate", "8"), ("ait", "8")]

def LETTER_WORDS : List (String × String) :=
  [("a", "a"), ("ay", "a"), ("hey", "a"),
   ("b", "b"), ("bee", "b"), ("be", "b"),
   ("c", "c"), ("cee", "c"), ("see", "c"), ("sea", "c"),
   ("d", "d"), ("dee", "d"),
   ("e", "e"), ("ee", "e"), ("eee", "e"),
   ("f", "f"), ("ef", "f"), ("eff", "f"),
   ("g", "g"), ("gee", "g"), ("jee", "g"),
   ("h", "h"), ("aitch", "h"), ("etch", "h"), ("edge", "h")]

def PIECE_WORDS : List (String × String) :=
  [("pawn", ""), ("prawn", ""),
   ("knight", "N"), ("night", "N"), ("nite", "N"), ("k night", "N"),
   ("bishop", "B"), ("biship", "B"), ("beshop", "B"), ("bshop", "B"),
   ("rook", "R"), ("rock", "R"), ("ruke", "R"),
   ("queen", "Q"), ("quin", "Q"),
   ("king", "K"), ("keying", "K")]

def ACTION_WORDS : List (String × String) :=
  [("take", "x"), ("takes", "x"), ("taking", "x"), ("takesu", "x"),
   ("capture", "x"), ("captures", "x"), ("captured", "x"), ("capturing", "x"),
   ("by", "x"), ("x", "x"), ("ex", "x")]

def CHECK_WORDS : List (String × String) :=
  [("check", "+"), ("plus", "+"),
   ("checkmate", "#"), ("mate", "#"), ("hashtag", "#"), ("pound", "#")]

def PROMOTION_PIECES : List (String × String) :=
  [("queen", "Q"), ("q", "Q"), ("rook", "R"), ("r", "R"),
   ("bishop", "B"), ("b", "B"), ("knight", "N"), ("night", "N"), ("n", "N")]

def PROMOTION_CUES : List String :=
  ["promote", "promotion", "promotes", "promoted", "equals", "equal", "=", "becomes"]

def FILLER_WORDS : List String :=
  ["to", "into", "towards", "toward", "on", "and", "then", "than", "the",
   "a", "an", "move", "my", "your", "their", "this", "that", "with", "from",
   "at", "is", "was", "are", "please", "just"]

def SHOP_VARIANTS : List String := ["shop", "shup", "sharp", "shock", "soup", "sop", "sub"]

def SIDE_VARIANTS : List String := ["side", "sigh", "sign"]

/-- Python `token in SOME_DICT.values()`. -/
def inValues (d : List (String × String)) (t : String) : Bool :=
  (d.map Prod.snd).contains t

/-- Python `SOME_DICT[key]` preceded by a `key in SOME_DICT` test.
The dictionaries have no duplicate keys, so association-list lookup agrees. -/
def dictGet (d : List (String × String)) (k : String) : Option String :=
  d.lookup k

/-- `SQUARE_REGEX = ^[a-h][1-8]$` (the IGNORECASE flag admits `A`-`H`). -/
def squareMatch (t : String) : Bool :=
  match t.data with
  | [f, r] => (('a' ≤ f && f ≤ 'h') || ('A' ≤ f && f ≤ 'H')) && ('1' ≤ r && r ≤ '8')
  | _ => false

/-- `PIECE_REGEX = ^[nbrqk]$` (no IGNORECASE flag: lowercase only). -/
def pieceMatch (t : String) : Bool :=
  match t.data with
  | [c] => c = 'n' || c = 'b' || c = 'r' || c = 'q' || c = 'k'
  | _ => false

/-! ## Token merger: `_combine_letter_digit_tokens` (lines 248-276) -/

/-- First merge pass (`_combine_letter_digit_tokens`), written with a fuel
argument so that the kernel can evaluate it; every loop step consumes at
least one token, so any fuel above the list length gives the loop's value.
The pass drops `""`/`" "` tokens, upper-cases literal `o-o`/`o-o-o`, fuses
`o o o` / `o o` runs into castle glyphs, and fuses a file letter followed by
a digit into a square token. -/
def combineLetterDigitF : Nat → List String → List String
  | 0, _ => []
  | _ + 1, [] => []
  | fuel + 1, t :: rest =>
    if t = "" || t = " " then combineLetterDigitF fuel rest
    else if t = "o-o" || t = "o-o-o" then pyUpper t :: combineLetterDigitF fuel rest
    else if t = "o" || t = "0" then
      match rest with
      | "o" :: "o" :: rest2 => "O-O-O" :: combineLetterDigitF fuel rest2
      | "o" :: rest2 => "O-O" :: combineLetterDigitF fuel rest2
      | r => t :: combineLetterDigitF fuel r
    else if inValues LETTER_WORDS t then
      match rest with
      | d :: rest2 =>
        if inValues NUMBER_WORDS d then (t ++ d) :: combineLetterDigitF fuel rest2
        else t :: combineLetterDigitF fuel (d :: rest2)
      | [] => [t]
    else t :: combineLetterDigitF fuel rest

def combineLetterDigit (l : List String) : List String :=
  combineLetterDigitF (l.length + 1) l

/-- Second merge pass (`_merge_square_tokens`), fueled like the first:
upper-cases bare piece letters and fuses a file letter with a following
token that is a substring of `"12345678"` (Python's
`tokens[i+1] in "12345678"` is a substring test). -/
def mergeSquareTokensF : Nat → List String → List String
  | 0, _ => []
  | _ + 1, [] => []
  | fuel + 1, t :: rest =>
    if pieceMatch t then pyUpper t :: mergeSquareTokensF fuel rest
    else if inValues LETTER_WORDS t then
      match rest with
      | d :: rest2 =>
        if strIsSub d "12345678" then (t ++ d) :: mergeSquareTokensF fuel rest2
        else t :: mergeSquareTokensF fuel (d :: rest2)
      | [] => [t]
    else t :: mergeSquareTokensF fuel rest

def mergeSquareTokens (l : List String) : List String :=
  mergeSquareTokensF (l.length + 1) l

/-- No rule of the first merge pass fires anywhere in the token sequence:
such a sequence is a fixed point of `combineLetterDigit`. -/
def noFire1 : List String → Prop
  | [] => True
  | t :: rest =>
    t ≠ "" ∧ t ≠ " " ∧ t ≠ "o-o" ∧ t ≠ "o-o-o" ∧
    ((t = "o" ∨ t = "0") → rest.head? ≠ some "o") ∧
    (inValues LETTER_WORDS t = true →
      ∀ d, rest.head? = some d → inValues NUMBER_WORDS d = false) ∧
    noFire1 rest

/-- No rule of the second merge pass fires anywhere in the token sequence:
such a sequence is a fixed point of `mergeSquareTokens`. -/
def noFire2 : List String → Prop
  | [] => True
  | t :: rest =>
    pieceMatch t = false ∧
    (inValues LETTER_WORDS t = true →
      ∀ d, rest.head? = some d → strIsSub d "12345678" = false) ∧
    noFire2 rest

/-! ## A small regex engine for the source's `re` patterns

Every pattern in the source uses only: literal characters, finite character
classes, `\s`, `\b`, alternation, `?`, `*`, `+` and (non-)capturing groups
(whose captures are never used).  `Rx` embeds exactly that fragment; the
backtracking matcher `Rx.runk` implements the leftmost / greedy / first-
alternative preference order of Python's `re` engine via a success
continuation, with a fuel argument for termination. -/

inductive Rx where
  | eps
  | cls (cs : List Char)
  | seq (a b : Rx)
  | alt (a b : Rx)
  | opt (a : Rx)
  | star (a : Rx)
  | wordB
deriving Repr

def isWordOpt : Option Char → Bool
  | none => false
  | some c => isWordChar c

def headIsWord : List Char → Bool
  | [] => false
  | c :: _ => isWordChar c

/-- Backtracking matcher.  `prev` is the character just before the current
position (for `\b`); the continuation `k` receives the updated `prev` and the
unconsumed remainder.  Alternatives are tried left first, quantifiers
greedily, exactly as in Python's `re`. -/
def Rx.runk {α : Type} : Nat → Rx → Option Char → List Char → (Option Char → List Char → Option α) → Option α
  | 0, _, _, _, _ => none
  | _ + 1, .eps, prev, s, k => k prev s
  | _ + 1, .cls cs, _, s, k =>
    match s with
    | [] => none
    | c :: t => if cs.contains c then k (some c) t else none
  | _ + 1, .wordB, prev, s, k =>
    if isWordOpt prev != headIsWord s then k prev s else none
  | fuel + 1, .seq a b, prev, s, k =>
    Rx.runk fuel a prev s (fun p' s' => Rx.runk fuel b p' s' k)
  | fuel + 1, .alt a b, prev, s, k =>
    (Rx.runk fuel a prev s k).orElse (fun _ => Rx.runk fuel b prev s k)
  | fuel + 1, .opt a, prev, s, k =>
    (Rx.runk fuel a prev s k).orElse (fun _ => k prev s)
  | fuel + 1, .star a, prev, s, k =>
    (Rx.runk fuel a prev s (fun p' s' => Rx.runk fuel (.star a) p' s' k)).orElse
      (fun _ => k prev s)

/-- Single-character literal. -/
def chrRx (c : Char) : Rx := .cls [c]

/-- Character class given as a string. -/
def clsS (s : String) : Rx := .cls s.data

def Rx.cat (rs : List Rx) : Rx := rs.foldr .seq .eps

/-- Case-sensitive string literal. -/
def strRx (s : String) : Rx := .cat (s.data.map chrRx)

/-- Python `\s` (ASCII part). -/
def wsChars : List Char := [' ', '\t', '\n', '\x0b', '\x0c', '\r']

/-- `\s*` -/
def ws0 : Rx := .star (.cls wsChars)

/-- `\s+` -/
def ws1 : Rx := .seq (.cls wsChars) (.star (.cls wsChars))

/-- Fuel that is always sufficient for the source's patterns: every `star`
iteration consumes at least one character and no pattern nests deeper
than 100 constructors. -/
def rxFuel (s : List Char) : Nat := s.length + 100

/-- `pattern.match(s)` for a pattern anchored with `^...$`: does the whole
string belong to the pattern's language? -/
def rxFullMatch (r : Rx) (s : String) : Bool :=
  (Rx.runk (rxFuel s.data) r none s.data
    (fun _ rest => if rest.isEmpty then some () else none)).isSome

/-- One step of `re.subn` scanning: try to match at the current position
(Python preference order); on success replace, else copy one character and
continue.  None of the source's patterns matches the empty string, so the
zero-width fallback (copy one character, no replacement) is never taken. -/
def rsubGo (r : Rx) (repl : List Char) : Nat → Option Char → List Char → Nat × List Char
  | 0, _, s => (0, s)
  | fuel + 1, prev, s =>
    match Rx.runk (rxFuel s) r prev s (fun p' rest => some (p', rest)) with
    | some (p', rest) =>
      if rest.length < s.length then
        let (n, out) := rsubGo r repl fuel p' rest
        (n + 1, repl ++ out)
      else
        match s with
        | [] => (0, [])
        | c :: t =>
          let (n, out) := rsubGo r repl fuel (some c) t
          (n, c :: out)
    | none =>
      match s with
      | [] => (0, [])
      | c :: t =>
        let (n, out) := rsubGo r repl fuel (some c) t
        (n, c :: out)

/-- `re.subn(pattern, repl, s)`: replace all non-overlapping matches left to
right, returning the new string and the number of replacements. -/
def pyRegexSubn (r : Rx) (repl : String) (s : String) : Nat × String :=
  let (n, out) := rsubGo r repl.data (s.length + 1) none s.data
  (n, ⟨out⟩)

/-! ## The source's regexes (lines 187-229) -/

/-- `SAN_MOVE_PATTERN` (IGNORECASE):
`^(?:[KQRBN]?[a-h]?[1-8]?x?[a-h][1-8](?:=[QRBN])?[+#]?|[a-h][1-8](?:=[QRBN])?[+#]?)$` -/
def sanMoveRx : Rx :=
  .alt
    (.cat [.opt (clsS "KQRBNkqrbn"), .opt (clsS "abcdefghABCDEFGH"),
           .opt (clsS "12345678"), .opt (clsS "xX"),
           clsS "abcdefghABCDEFGH", clsS "12345678",
           .opt (.cat [chrRx '=', clsS "QRBNqrbn"]), .opt (clsS "+#")])
    (.cat [clsS "abcdefghABCDEFGH", clsS "12345678",
           .opt (.cat [chrRx '=', clsS "QRBNqrbn"]), .opt (clsS "+#")])

/-- `CASTLE_SAN_PATTERN` (IGNORECASE):
`^(?:[O0](?:-?[O0])(?:-?[O0])?)(?:[+#])?$` -/
def castleSanRx : Rx :=
  .cat [clsS "Oo0",
        .cat [.opt (chrRx '-'), clsS "Oo0"],
        .opt (.cat [.opt (chrRx '-'), clsS "Oo0"]),
        .opt (clsS "+#")]

/-- `UCI_MOVE_PATTERN` (IGNORECASE): `^[a-h][1-8][a-h][1-8][qrbn]?$` -/
def uciMoveRx : Rx :=
  .cat [clsS "abcdefghABCDEFGH", clsS "12345678",
        clsS "abcdefghABCDEFGH", clsS "12345678",
        .opt (clsS "qrbnQRBN")]

/-- `CASTLING_PATTERNS` (lines 197-209): (pattern, replacement, rule name). -/
def CASTLING_PATTERNS : List (Rx × String × String) :=
  [(Rx.cat [.wordB, strRx "castle", ws1, .alt (strRx "king") (strRx "short"), ws0,
            .opt (strRx "side"), .wordB], "o o", "castle king-side"),
   (Rx.cat [.wordB, strRx "castle", ws1, .alt (strRx "queen") (strRx "long"), ws0,
            .opt (strRx "side"), .wordB], "o o o", "castle queen-side"),
   (Rx.cat [.wordB, strRx "king", ws1, strRx "castle", .wordB], "o o", "king castle"),
   (Rx.cat [.wordB, strRx "queen", ws1, strRx "castle", .wordB], "o o o", "queen castle"),
   (Rx.cat [.wordB, strRx "short", ws1, strRx "castle", .wordB], "o o", "short castle"),
   (Rx.cat [.wordB, strRx "long", ws1, strRx "castle", .wordB], "o o o", "long castle"),
   (Rx.cat [.wordB, chrRx 'o', ws0, chrRx '-', ws0, chrRx 'o', ws0, chrRx '-', ws0,
            chrRx 'o', .wordB], "o o o", "spoken o-o-o"),
   (Rx.cat [.wordB, chrRx 'o', ws0, chrRx '-', ws0, chrRx 'o', .wordB], "o o", "spoken o-o"),
   (Rx.cat [.wordB, .alt (strRx "oh") (strRx "zero"), ws1, chrRx 'o', ws1, chrRx 'o',
            .wordB], "o o", "spoken oh o o"),
   (Rx.cat [.wordB, .alt (strRx "oh") (strRx "zero"), ws1, chrRx 'o', ws1, chrRx 'o',
            ws1, chrRx 'o', .wordB], "o o o", "spoken oh o o o"),
   (Rx.cat [.wordB, strRx "castle", .wordB], "o o", "castle alone")]

/-- `MULTIWORD_REPLACEMENTS` (lines 211-225). -/
def MULTIWORD_REPLACEMENTS : List (Rx × String × String) :=
  [(Rx.cat [.wordB, chrRx 'b', ws0, chrRx '-', ws0, strRx "shop", .wordB], "bishop",
    "b-shop -> bishop"),
   (Rx.cat [.wordB, strRx "be", ws0, strRx "shop", .wordB], "bishop", "be shop -> bishop"),
   (Rx.cat [.wordB, strRx "bee", ws0, strRx "shop", .wordB], "bishop", "bee shop -> bishop"),
   (Rx.cat [.wordB, chrRx 'b', ws1, strRx "sharp", .wordB], "bishop", "b sharp -> bishop"),
   (Rx.cat [.wordB, strRx "bsop", .wordB], "bishop", "bsop -> bishop"),
   (Rx.cat [.wordB, chrRx 'b', ws1, strRx "soup", .wordB], "bishop", "b soup -> bishop"),
   (Rx.cat [.wordB, chrRx 'b', ws1, strRx "sub", .wordB], "bishop", "b sub -> bishop"),
   (Rx.cat [.wordB, strRx "eshop", .wordB], "bishop", "eshop -> bishop"),
   (Rx.cat [.wordB, strRx "knite", .wordB], "knight", "knite -> knight"),
   (Rx.cat [.wordB, strRx "nite", .wordB], "knight", "nite -> knight"),
   (Rx.cat [.wordB, strRx "night", .wordB], "knight", "night -> knight"),
   (Rx.cat [.wordB, strRx "rock", .wordB], "rook", "rock -> rook"),
   (Rx.cat [.wordB, strRx "quin", .wordB], "queen", "quin -> queen")]

/-- `_apply_replacements` (lines 232-239). -/
def applyReplacements (text : String) (repls : List (Rx × String × String))
    (rules : List String) : String × List String :=
  repls.foldl
    (fun (st : String × List String) r =>
      let (count, newText) := pyRegexSubn r.1 r.2.1 st.1
      if count ≠ 0 then (newText, st.2 ++ [r.2.2]) else st)
    (text, rules)

/-! ## Tokenizer: `_tokenize` (lines 242-245) -/

def isOUpperLower (c : Char) : Bool := c = 'O' || c = 'o'

/-- `re.findall(r"[a-z0-9]+|[+#=]|O-O-O|O-O", text, re.IGNORECASE)`: scan left
to right; at each position try, in order, a maximal alphanumeric run, a
standalone `+`/`#`/`=`, a literal `O-O-O`, a literal `O-O` (case-insensitive);
otherwise skip one character.  (The castle alternatives are unreachable:
`o`/`O` is alphanumeric, so the first alternative always wins there, exactly
as in the Python source.) -/
def tokenizeGoF : Nat → List Char → List (List Char)
  | 0, _ => []
  | _ + 1, [] => []
  | fuel + 1, c :: t =>
    if isAlnumChar c then
      (c :: t.takeWhile isAlnumChar) :: tokenizeGoF fuel (t.dropWhile isAlnumChar)
    else if c = '+' || c = '#' || c = '=' then
      [c] :: tokenizeGoF fuel t
    else if isOUpperLower c then
      match t with
      | '-' :: d :: '-' :: e :: rest =>
        if isOUpperLower d && isOUpperLower e then
          [c, '-', d, '-', e] :: tokenizeGoF fuel rest
        else if isOUpperLower d then [c, '-', d] :: tokenizeGoF fuel ('-' :: e :: rest)
        else tokenizeGoF fuel ('-' :: d :: '-' :: e :: rest)
      | '-' :: d :: rest =>
        if isOUpperLower d then [c, '-', d] :: tokenizeGoF fuel rest
        else tokenizeGoF fuel ('-' :: d :: rest)
      | r => tokenizeGoF fuel r
    else tokenizeGoF fuel t

/-- `_tokenize`: findall, then `[t.lower() for t in tokens if t.strip()]`. -/
def pyTokenize (text : String) : List String :=
  ((tokenizeGoF (text.data.length + 1) text.data).filter (fun l => pyStripL l ≠ [])).map
    (fun l => (⟨l.map pyLowerChar⟩ : String))

/-! ## Token mapper: `_map_tokens` (lines 352-449) -/

/-- An ASCII single quote, used to build the trace strings of the source. -/
def sq : String := String.mk [Char.ofNat 39]

def quoted (s : String) : String := sq ++ s ++ sq

/-- The forward scan of the promotion-cue rule (lines 366-378): starting
after the cue, skip fillers, stop at the first word that is a promotion
piece or a non-pawn piece word (returning its letter and the tokens after
it); any other word is also stepped over. -/
def promoScan : List String → Option (String × List String)
  | [] => none
  | c :: rest =>
    if FILLER_WORDS.contains c then promoScan rest
    else
      match dictGet PROMOTION_PIECES c with
      | some p => some (p, rest)
      | none =>
        match dictGet PIECE_WORDS c with
        | some p => if p ≠ "" then some (p, rest) else promoScan rest
        | none => promoScan rest

/-- Claimed variant of the promotion scan, following the claim's words
("scan forward skipping only filler words for the first promotion-piece word
or non-pawn piece word"): a token that is neither a filler nor such a piece
word stops the scan.  It exists only to be compared with `promoScan`, which
is translated from the source and steps over any token. -/
def promoScanClaimed : List String → Option (String × List String)
  | [] => none
  | c :: rest =>
    if FILLER_WORDS.contains c then promoScanClaimed rest
    else
      match dictGet PROMOTION_PIECES c with
      | some p => some (p, rest)
      | none =>
        match dictGet PIECE_WORDS c with
        | some p => if p ≠ "" then some (p, rest) else none
        | none => none

/-- A token at which the source's promotion scan stops: a promotion-piece
word or a non-pawn piece word. -/
def isPromoTarget (t : String) : Bool :=
  (dictGet PROMOTION_PIECES t).isSome ||
  (match dictGet PIECE_WORDS t with
   | some p => p ≠ ""
   | none => false)

/-- The piece letter the promotion scan extracts at a stopping token. -/
def promoLetterOf (t : String) : String :=
  match dictGet PROMOTION_PIECES t with
  | some p => p
  | none => (dictGet PIECE_WORDS t).getD ""

def optContains (l : List String) : Option String → Bool
  | some t => l.contains t
  | none => false

/-- `_map_tokens`: rewrite the token stream left to right, appending one
trace entry per firing rule, with the rule order of the source.  Fueled:
every loop step consumes at least one token (the promotion rule may consume
several), so any fuel above the list length computes the loop. -/
def mapTokensF : Nat → List String → List String → List String × List String
  | 0, _, rules => ([], rules)
  | _ + 1, [], rules => ([], rules)
  | fuel + 1, t :: rest, rules =>
    if FILLER_WORDS.contains t then
      mapTokensF fuel rest (rules ++ ["removed filler " ++ quoted t])
    else if PROMOTION_CUES.contains t then
      match promoScan rest with
      | some (p, rest2) =>
        let next := mapTokensF fuel rest2 (rules ++ ["promotion to " ++ pyUpper p])
        (("=" ++ pyUpper p) :: next.1, next.2)
      | none =>
        let next := mapTokensF fuel rest (rules ++ ["promotion cue without piece"])
        ("=" :: next.1, next.2)
    else if (dictGet CHECK_WORDS t).isSome then
      let v := (dictGet CHECK_WORDS t).getD ""
      let next := mapTokensF fuel rest (rules ++ ["mapped " ++ quoted t ++ " -> " ++ quoted v])
      (v :: next.1, next.2)
    else if (dictGet ACTION_WORDS t).isSome then
      let next := mapTokensF fuel rest (rules ++ ["mapped " ++ quoted t ++ " -> " ++ quoted "x"])
      ("x" :: next.1, next.2)
    else if (t = "b" || t = "be" || t = "bee") && optContains SHOP_VARIANTS rest.head? then
      let next := mapTokensF fuel rest.tail (rules ++ ["b + shop -> " ++ quoted "B"])
      ("B" :: next.1, next.2)
    else if (t = "king" || t = "queen") && optContains SIDE_VARIANTS rest.head? then
      let next := mapTokensF fuel rest.tail (rules ++ [t ++ " side collapsed"])
      ((t ++ "side") :: next.1, next.2)
    else if t = "kingside" || t = "shortside" then
      let next := mapTokensF fuel rest (rules ++ [t ++ " -> O-O"])
      ("O-O" :: next.1, next.2)
    else if t = "queenside" || t = "longside" then
      let next := mapTokensF fuel rest (rules ++ [t ++ " -> O-O-O"])
      ("O-O-O" :: next.1, next.2)
    else if (dictGet PIECE_WORDS t).isSome then
      let piece := (dictGet PIECE_WORDS t).getD ""
      if piece ≠ "" then
        let next := mapTokensF fuel rest
          (rules ++ ["piece " ++ quoted t ++ " -> " ++ quoted (pyUpper piece)])
        (pyUpper piece :: next.1, next.2)
      else
        mapTokensF fuel rest (rules ++ ["dropped pawn token " ++ quoted t])
    else if (dictGet NUMBER_WORDS t).isSome then
      let v := (dictGet NUMBER_WORDS t).getD ""
      let next := mapTokensF fuel rest
        (rules ++ ["number word " ++ quoted t ++ " -> " ++ quoted v])
      (v :: next.1, next.2)
    else if (dictGet LETTER_WORDS t).isSome then
      let v := (dictGet LETTER_WORDS t).getD ""
      let next := mapTokensF fuel rest
        (rules ++ ["letter word " ++ quoted t ++ " -> " ++ quoted v])
      (v :: next.1, next.2)
    else
      let next := mapTokensF fuel rest rules
      (t :: next.1, next.2)

def mapTokens (tokens : List String) (rules : List String) : List String × List String :=
  mapTokensF (tokens.length + 1) tokens rules

/-! ## Candidate generator: `_format_token`, `_generate_candidates` (452-512) -/

def startsWithEq (t : String) : Bool := listIsStart ['='] t.data

def headChar (s : String) : Char :=
  match s.data with
  | c :: _ => c
  | [] => ' '

def lowerFirst (s : String) : String :=
  match s.data with
  | c :: t => ⟨pyLowerChar c :: t⟩
  | [] => s

def upperFirst (s : String) : String :=
  match s.data with
  | c :: t => ⟨pyUpperChar c :: t⟩
  | [] => s

def isUpperChar (c : Char) : Bool := 'A' ≤ c && c ≤ 'Z'

def isLowerChar (c : Char) : Bool := 'a' ≤ c && c ≤ 'z'

/-- `_format_token` (lines 452-463). -/
def formatToken (t : String) : String :=
  if t = "O-O" || t = "O-O-O" || t = "+" || t = "#" then t
  else if startsWithEq t then pyUpper t
  else if t = "x" then "x"
  else if squareMatch t then pyLower t
  else if pieceMatch (pyUpper t) then pyUpper t
  else t

/-- Python `list.insert(n, x)` (clamps `n` to the length). -/
def pyInsertIdx (l : List String) (n : Nat) (x : String) : List String :=
  l.take n ++ x :: l.drop n

/-- The `insert_at` computed by lines 475-478: index of the last square
token, scanning left to right (`-1` becomes `none`). -/
def lastSquareIdx (l : List String) : Option Nat :=
  l.enum.foldl (fun acc p => if squareMatch p.2 then some p.1 else acc) none

/-- Lines 479-484: splice every promotion token right after the last square
token, or append them all at the end when there is no square token. -/
def splicePromos (np promos : List String) : List String :=
  match lastSquareIdx np with
  | some k =>
    (promos.foldl
      (fun (st : List String × Nat) p => (pyInsertIdx st.1 (st.2 + 1) p, st.2 + 1))
      (np, k)).1
  | none => np ++ promos

/-- The `add_candidate` closure (lines 489-491). -/
def addCandGen (acc : List String) (v : String) : List String :=
  if v ≠ "" && !acc.contains v then acc ++ [v] else acc

/-- Lines 500-504: first promotion token of length 2 gives the lowercased
UCI promotion suffix. -/
def promoSuffix : List String → String
  | [] => ""
  | t :: rest =>
    if t.length = 2 then
      match t.data with
      | [_, c] => ⟨[pyLowerChar c]⟩
      | _ => ""
    else promoSuffix rest

/-- `_generate_candidates` (lines 466-512). -/
def generateCandidates (tokens : List String) (rules : List String) :
    List String × List String :=
  if tokens.isEmpty then ([], rules)
  else
    let formatted := (tokens.filter (fun t => t ≠ "")).map formatToken
    let promos := formatted.filter (fun t => startsWithEq t)
    let nonPromo := formatted.filter (fun t => !startsWithEq t)
    let spliced := if !promos.isEmpty then splicePromos nonPromo promos else nonPromo
    let base := String.join spliced
    let c1 := addCandGen [] base
    let c2 :=
      if base ≠ "" && isUpperChar (headChar base) && base.length ≥ 2 &&
          headChar base ≠ 'O' then
        addCandGen c1 (lowerFirst base)
      else c1
    let squares := (spliced.filter (fun t => squareMatch t)).map pyLower
    let step3 :=
      match squares with
      | s0 :: s1 :: _ =>
        let uci := s0 ++ s1 ++ promoSuffix promos
        (addCandGen c2 uci, rules ++ ["generated UCI candidate " ++ quoted uci])
      | _ => (c2, rules)
    let c4 :=
      if base ≠ "" && isLowerChar (headChar base) then addCandGen step3.1 (pyLower base)
      else step3.1
    (c4, step3.2)

/-! ## Direct matcher: `_generate_direct_candidates` (lines 299-349) -/

/-- The `add` closure (lines 310-313): strip, skip empties and duplicates. -/
def addDirect (acc : List String) (v : String) : List String :=
  let val := pyStrip v
  if val ≠ "" && !acc.contains val then acc ++ [val] else acc

/-- Final dedup-preserving-order rebuild (lines 341-347). -/
def dedupKeepFirst (l : List String) : List String :=
  l.foldl (fun acc c => if !acc.contains c then acc ++ [c] else acc) []

/-- The `compact` string of lines 303-306: strip, remove all whitespace,
normalize Unicode dashes to `-`. -/
def compactOf (rawText : String) : String :=
  ⟨((pyStripL rawText.data).filter (fun c => !pyIsSpace c)).map
    (fun c => if c = '–' || c = '—' || c = '−' then '-' else c)⟩

/-- The castle canonicalization of lines 318-323: uppercase, `0`→`O`, and a
dash-free string of length 2 or 3 becomes `O-O` / `O-O-O`. -/
def canonCastle (compact : String) : String :=
  let n0 : String := ⟨(pyUpper compact).data.map (fun c => if c = '0' then 'O' else c)⟩
  if !n0.data.contains '-' then
    if n0.length = 2 then "O-O"
    else if n0.length = 3 then "O-O-O"
    else n0
  else n0

/-- State threaded through the three matching branches:
(candidates, matched_direct, applied_rules). -/
def DirectState := List String × Bool × List String

/-- Lines 317-326: the castling branch. -/
def castleStepD (compact : String) (rules : List String) : DirectState :=
  if rxFullMatch castleSanRx compact then
    (addDirect [] (canonCastle compact), true,
     rules ++ ["direct castle candidate " ++ quoted (canonCastle compact)])
  else ([], false, rules)

/-- Lines 328-333: the SAN branch (only tried when castling did not match). -/
def sanStepD (compact : String) (st : DirectState) : DirectState :=
  if !st.2.1 && rxFullMatch sanMoveRx compact then
    let a1 := addDirect st.1 compact
    let a2 :=
      if compact ≠ "" && "kqrbn".data.contains (headChar compact) then
        addDirect a1 (upperFirst compact)
      else a1
    (a2, true, st.2.2 ++ ["direct SAN candidate " ++ quoted compact])
  else st

/-- Lines 335-339: the UCI branch (tried regardless of earlier matches). -/
def uciStepD (compact : String) (st : DirectState) : DirectState :=
  if rxFullMatch uciMoveRx compact then
    (addDirect st.1 (pyLower compact), true,
     st.2.2 ++ ["direct UCI candidate " ++ quoted (pyLower compact)])
  else st

/-- `_generate_direct_candidates`. -/
def generateDirectCandidates (rawText : String) (rules : List String) :
    List String × List String :=
  if rawText = "" then ([], rules)
  else
    let compact0 : List Char := (pyStripL rawText.data).filter (fun c => !pyIsSpace c)
    if compact0.isEmpty then ([], rules)
    else
      let final :=
        uciStepD (compactOf rawText)
          (sanStepD (compactOf rawText) (castleStepD (compactOf rawText) rules))
      (if final.2.1 && final.1.length > 1 then dedupKeepFirst final.1 else final.1,
       final.2.2)

/-! ## Result assembly: `normalize_transcription` (lines 515-558) -/

structure NormalizationResult where
  raw_text : String
  cleaned_text : String
  tokens : List String
  merged_tokens : List String
  candidates : List String
  direct_candidates : List String
  applied_rules : List String
deriving Repr, DecidableEq

/-- The dedup loop of lines 544-548. -/
def addCombined (acc : List String) (c : String) : List String :=
  if c ≠ "" && !acc.contains c then acc ++ [c] else acc

def combineSources (sources : List (List String)) : List String :=
  sources.foldl (fun acc src => src.foldl addCombined acc) []

/-- `re.sub(r"\s+", " ", text)`: collapse every whitespace run to one space
(fueled; every step consumes at least one character). -/
def collapseWsF : Nat → List Char → List Char
  | 0, _ => []
  | _ + 1, [] => []
  | fuel + 1, c :: t =>
    if pyIsSpace c then ' ' :: collapseWsF fuel (t.dropWhile pyIsSpace)
    else c :: collapseWsF fuel t

def collapseWs (l : List Char) : List Char := collapseWsF (l.length + 1) l

/-- `normalize_transcription` (lines 515-558).  Absent input is `none`. -/
def normalize_transcription (rawText : Option String) : NormalizationResult :=
  let rawStr := rawText.getD ""
  if rawStr = "" then
    { raw_text := "", cleaned_text := "", tokens := [], merged_tokens := [],
      candidates := [], direct_candidates := [], applied_rules := ["empty input"] }
  else
    let direct := generateDirectCandidates rawStr []
    let cleaned1 := pyStrip (pyLower rawStr)
    let cleaned2 : String :=
      ⟨cleaned1.data.map (fun c => if c = Char.ofNat 8217 then Char.ofNat 39 else c)⟩
    let cleaned3 : String := ⟨cleaned2.data.map (fun c => if c = '-' then ' ' else c)⟩
    let step4 := applyReplacements cleaned3 MULTIWORD_REPLACEMENTS direct.2
    let step5 := applyReplacements step4.1 CASTLING_PATTERNS step4.2
    let cleaned6 : String :=
      ⟨step5.1.data.map (fun c =>
        if ('a' ≤ c && c ≤ 'z') || ('0' ≤ c && c ≤ '9') || pyIsSpace c ||
            c = '+' || c = '#' || c = '=' then c else ' ')⟩
    let cleaned7 : String := pyStrip ⟨collapseWs cleaned6.data⟩
    let tokens := pyTokenize cleaned7
    let mapStep := mapTokens tokens step5.2
    let merged := mergeSquareTokens (combineLetterDigit mapStep.1)
    let genStep := generateCandidates merged mapStep.2
    let combined := combineSources [direct.1, genStep.1]
    { raw_text := rawStr, cleaned_text := cleaned7, tokens := tokens,
      merged_tokens := merged, candidates := combined,
      direct_candidates := direct.1, applied_rules := genStep.2 }

/-! ## Checked embedding of the pipeline (claim C9)

The source's only partial operations are list indexing (`tokens[i]`,
`tokens[i + 1]`, `tokens[i + 2]`, `tokens[j]`), string indexing
(`compact[0]`, `base[0]`, `tok[1]`) and dictionary subscription; every one
sits behind a guard.  The checked variants below re-run the pipeline with
each such access modelled by `List.get?` / `lookup`, propagating `none`
exactly where Python would raise `IndexError`/`KeyError`, and with the
index-based `while` loops of the source (fueled: each iteration advances
`i` by at least one, so any fuel above the list length computes the loop).
Python's short-circuit `and` chains are modelled by `Option Bool`
conditions that only perform an access when the guards before it hold. -/

/-- Condition of line 260: `token in {"o","0"} and i + 2 < len(tokens) and
tokens[i+1] == "o" and tokens[i+2] == "o"`. -/
def cond3C (tokens : List String) (i : Nat) (token : String) : Option Bool :=
  if (token = "o" || token = "0") && decide (i + 2 < tokens.length) then
    match tokens.get? (i + 1), tokens.get? (i + 2) with
    | some t1, some t2 => some (t1 = "o" && t2 = "o")
    | _, _ => none
  else some false

/-- Condition of line 265: `token in {"o","0"} and i + 1 < len(tokens) and
tokens[i+1] == "o"`. -/
def cond4C (tokens : List String) (i : Nat) (token : String) : Option Bool :=
  if (token = "o" || token = "0") && decide (i + 1 < tokens.length) then
    match tokens.get? (i + 1) with
    | some t1 => some (t1 = "o")
    | none => none
  else some false

/-- Condition of line 270: `token in LETTER_WORDS.values() and
i + 1 < len(tokens) and tokens[i+1] in NUMBER_WORDS.values()`. -/
def cond5C (tokens : List String) (i : Nat) (token : String) : Option Bool :=
  if inValues LETTER_WORDS token && decide (i + 1 < tokens.length) then
    match tokens.get? (i + 1) with
    | some t1 => some (inValues NUMBER_WORDS t1)
    | none => none
  else some false

/-- The `while` loop of `_combine_letter_digit_tokens` (lines 250-276),
index-based and checked. -/
def combineCGo : Nat → List String → Nat → Option (List String)
  | 0, _, _ => none
  | fuel + 1, tokens, i =>
    if i < tokens.length then
      match tokens.get? i with
      | none => none
      | some token =>
        if token = "" || token = " " then combineCGo fuel tokens (i + 1)
        else if token = "o-o" || token = "o-o-o" then
          (combineCGo fuel tokens (i + 1)).map (fun r => pyUpper token :: r)
        else
          match cond3C tokens i token with
          | none => none
          | some true => (combineCGo fuel tokens (i + 3)).map (fun r => "O-O-O" :: r)
          | some false =>
            match cond4C tokens i token with
            | none => none
            | some true => (combineCGo fuel tokens (i + 2)).map (fun r => "O-O" :: r)
            | some false =>
              match cond5C tokens i token with
              | none => none
              | some true =>
                match tokens.get? (i + 1) with
                | none => none
                | some t1 =>
                  (combineCGo fuel tokens (i + 2)).map (fun r => (token ++ t1) :: r)
              | some false => (combineCGo fuel tokens (i + 1)).map (fun r => token :: r)
    else some []

def combineC (tokens : List String) : Option (List String) :=
  combineCGo (tokens.length + 1) tokens 0

/-- Condition of line 290: `token in LETTER_WORDS.values() and
i + 1 < len(tokens) and tokens[i+1] in "12345678"`. -/
def condMergeC (tokens : List String) (i : Nat) (token : String) : Option Bool :=
  if inValues LETTER_WORDS token && decide (i + 1 < tokens.length) then
    match tokens.get? (i + 1) with
    | some t1 => some (strIsSub t1 "12345678")
    | none => none
  else some false

/-- The `while` loop of `_merge_square_tokens` (lines 282-296), index-based
and checked. -/
def mergeCGo : Nat → List String → Nat → Option (List String)
  | 0, _, _ => none
  | fuel + 1, tokens, i =>
    if i < tokens.length then
      match tokens.get? i with
      | none => none
      | some token =>
        if pieceMatch token then
          (mergeCGo fuel tokens (i + 1)).map (fun r => pyUpper token :: r)
        else
          match condMergeC tokens i token with
          | none => none
          | some true =>
            match tokens.get? (i + 1) with
            | none => none
            | some t1 => (mergeCGo fuel tokens (i + 2)).map (fun r => (token ++ t1) :: r)
          | some false => (mergeCGo fuel tokens (i + 1)).map (fun r => token :: r)
    else some []

def mergeC (tokens : List String) : Option (List String) :=
  mergeCGo (tokens.length + 1) tokens 0

/-- Line 357: `next_token = tokens[i + 1] if i + 1 < len(tokens) else None`. -/
def nextTokC (tokens : List String) (i : Nat) : Option (Option String) :=
  if i + 1 < tokens.length then
    match tokens.get? (i + 1) with
    | some t => some (some t)
    | none => none
  else some none

/-- The inner promotion scan of lines 366-378, index-based and checked:
`some (some (p, j))` stops at index `j` with piece letter `p`,
`some none` is the loop running off the end. -/
def promoScanCGo : Nat → List String → Nat → Option (Option (String × Nat))
  | 0, _, _ => none
  | fuel + 1, tokens, j =>
    if j < tokens.length then
      match tokens.get? j with
      | none => none
      | some cand =>
        if FILLER_WORDS.contains cand then promoScanCGo fuel tokens (j + 1)
        else
          match dictGet PROMOTION_PIECES cand with
          | some p => some (some (p, j))
          | none =>
            match dictGet PIECE_WORDS cand with
            | some p =>
              if p ≠ "" then some (some (p, j)) else promoScanCGo fuel tokens (j + 1)
            | none => promoScanCGo fuel tokens (j + 1)
    else some none

/-- The `while` loop of `_map_tokens` (lines 355-448), index-based and
checked. -/
def mapTokensCGo : Nat → List String → Nat → List String →
    Option (List String × List String)
  | 0, _, _, _ => none
  | fuel + 1, tokens, i, rules =>
    if i < tokens.length then
      match tokens.get? i with
      | none => none
      | some token =>
        match nextTokC tokens i with
        | none => none
        | some next_token =>
          if FILLER_WORDS.contains token then
            mapTokensCGo fuel tokens (i + 1) (rules ++ ["removed filler " ++ quoted token])
          else if PROMOTION_CUES.contains token then
            match promoScanCGo (tokens.length + 1) tokens (i + 1) with
            | none => none
            | some (some (p, j2)) =>
              (mapTokensCGo fuel tokens (j2 + 1)
                (rules ++ ["promotion to " ++ pyUpper p])).map
                (fun nx => (("=" ++ pyUpper p) :: nx.1, nx.2))
            | some none =>
              (mapTokensCGo fuel tokens (i + 1)
                (rules ++ ["promotion cue without piece"])).map
                (fun nx => ("=" :: nx.1, nx.2))
          else if (dictGet CHECK_WORDS token).isSome then
            match dictGet CHECK_WORDS token with
            | none => none
            | some v =>
              (mapTokensCGo fuel tokens (i + 1)
                (rules ++ ["mapped " ++ quoted token ++ " -> " ++ quoted v])).map
                (fun nx => (v :: nx.1, nx.2))
          else if (dictGet ACTION_WORDS token).isSome then
            (mapTokensCGo fuel tokens (i + 1)
              (rules ++ ["mapped " ++ quoted token ++ " -> " ++ quoted "x"])).map
              (fun nx => ("x" :: nx.1, nx.2))
          else if (token = "b" || token = "be" || token = "bee") &&
              optContains SHOP_VARIANTS next_token then
            (mapTokensCGo fuel tokens (i + 2) (rules ++ ["b + shop -> " ++ quoted "B"])).map
              (fun nx => ("B" :: nx.1, nx.2))
          else if (token = "king" || token = "queen") &&
              optContains SIDE_VARIANTS next_token then
            (mapTokensCGo fuel tokens (i + 2) (rules ++ [token ++ " side collapsed"])).map
              (fun nx => ((token ++ "side") :: nx.1, nx.2))
          else if token = "kingside" || token = "shortside" then
            (mapTokensCGo fuel tokens (i + 1) (rules ++ [token ++ " -> O-O"])).map
              (fun nx => ("O-O" :: nx.1, nx.2))
          else if token = "queenside" || token = "longside" then
            (mapTokensCGo fuel tokens (i + 1) (rules ++ [token ++ " -> O-O-O"])).map
              (fun nx => ("O-O-O" :: nx.1, nx.2))
          else if (dictGet PIECE_WORDS token).isSome then
            match dictGet PIECE_WORDS token with
            | none => none
            | some piece =>
              if piece ≠ "" then
                (mapTokensCGo fuel tokens (i + 1)
                  (rules ++ ["piece " ++ quoted token ++ " -> " ++
                    quoted (pyUpper piece)])).map
                  (fun nx => (pyUpper piece :: nx.1, nx.2))
              else
                mapTokensCGo fuel tokens (i + 1)
                  (rules ++ ["dropped pawn token " ++ quoted token])
          else if (dictGet NUMBER_WORDS token).isSome then
            match dictGet NUMBER_WORDS token with
            | none => none
            | some v =>
              (mapTokensCGo fuel tokens (i + 1)
                (rules ++ ["number word " ++ quoted token ++ " -> " ++ quoted v])).map
                (fun nx => (v :: nx.1, nx.2))
          else if (dictGet LETTER_WORDS token).isSome then
            match dictGet LETTER_WORDS token with
            | none => none
            | some v =>
              (mapTokensCGo fuel tokens (i + 1)
                (rules ++ ["letter word " ++ quoted token ++ " -> " ++ quoted v])).map
                (fun nx => (v :: nx.1, nx.2))
          else
            (mapTokensCGo fuel tokens (i + 1) rules).map (fun nx => (token :: nx.1, nx.2))
    else some ([], rules)

def mapTokensC (tokens : List String) (rules : List String) :
    Option (List String × List String) :=
  mapTokensCGo (tokens.length + 1) tokens 0 rules

/-- Line 330's guard `compact and compact[0] in "kqrbn"`, checked. -/
def sanCondC (compact : String) : Option Bool :=
  if compact ≠ "" then
    match compact.data.get? 0 with
    | none => none
    | some c0 => some ("kqrbn".data.contains c0)
  else some false

/-- Line 331's value `compact[0].upper() + compact[1:]`, checked. -/
def sanVariantC (compact : String) : Option String :=
  match compact.data.get? 0 with
  | none => none
  | some c0 => some ⟨pyUpperChar c0 :: compact.data.drop 1⟩

/-- Lines 328-333 (the SAN branch) with the string indexing checked. -/
def sanStepDC (compact : String) (st : DirectState) : Option DirectState :=
  if !st.2.1 && rxFullMatch sanMoveRx compact then
    let a1 := addDirect st.1 compact
    match sanCondC compact with
    | none => none
    | some cond =>
      if cond then
        match sanVariantC compact with
        | none => none
        | some v =>
          some (addDirect a1 v, true, st.2.2 ++ ["direct SAN candidate " ++ quoted compact])
      else some (a1, true, st.2.2 ++ ["direct SAN candidate " ++ quoted compact])
  else some st

/-- `_generate_direct_candidates`, checked. -/
def generateDirectCandidatesC (rawText : String) (rules : List String) :
    Option (List String × List String) :=
  if rawText = "" then some ([], rules)
  else
    let compact0 : List Char := (pyStripL rawText.data).filter (fun c => !pyIsSpace c)
    if compact0.isEmpty then some ([], rules)
    else
      match sanStepDC (compactOf rawText) (castleStepD (compactOf rawText) rules) with
      | none => none
      | some st2 =>
        let final := uciStepD (compactOf rawText) st2
        some (if final.2.1 && final.1.length > 1 then dedupKeepFirst final.1 else final.1,
          final.2.2)

/-- Line 495's guard `base and base[0].isupper() and len(base) >= 2 and
base[0] != "O"`, checked. -/
def upperCondC (base : String) : Option Bool :=
  if base ≠ "" then
    match base.data.get? 0 with
    | none => none
    | some c0 =>
      some (isUpperChar c0 && decide (base.length ≥ 2) && decide (c0 ≠ 'O'))
  else some false

/-- Line 496's value `base[0].lower() + base[1:]`, checked. -/
def lowerFirstC (base : String) : Option String :=
  match base.data.get? 0 with
  | none => none
  | some c0 => some ⟨pyLowerChar c0 :: base.data.drop 1⟩

/-- Line 509's guard `base and base[0].islower()`, checked. -/
def lowerCondC (base : String) : Option Bool :=
  if base ≠ "" then
    match base.data.get? 0 with
    | none => none
    | some c0 => some (isLowerChar c0)
  else some false

/-- Lines 500-504's promotion-suffix scan with `tok[1]` checked. -/
def promoSuffixC : List String → Option String
  | [] => some ""
  | t :: rest =>
    if t.length = 2 then
      match t.data.get? 1 with
      | none => none
      | some c => some ⟨[pyLowerChar c]⟩
    else promoSuffixC rest

/-- `_generate_candidates`, checked. -/
def generateCandidatesC (tokens : List String) (rules : List String) :
    Option (List String × List String) :=
  if tokens.isEmpty then some ([], rules)
  else
    let formatted := (tokens.filter (fun t => t ≠ "")).map formatToken
    let promos := formatted.filter (fun t => startsWithEq t)
    let nonPromo := formatted.filter (fun t => !startsWithEq t)
    let spliced := if !promos.isEmpty then splicePromos nonPromo promos else nonPromo
    let base := String.join spliced
    let c1 := addCandGen [] base
    match upperCondC base with
    | none => none
    | some bu =>
      match (if bu then (lowerFirstC base).map (addCandGen c1) else some c1 :
          Option (List String)) with
      | none => none
      | some c2 =>
        let squares := (spliced.filter (fun t => squareMatch t)).map pyLower
        match (match squares with
          | s0 :: s1 :: _ =>
            (promoSuffixC promos).map (fun suf =>
              (addCandGen c2 (s0 ++ s1 ++ suf),
               rules ++ ["generated UCI candidate " ++ quoted (s0 ++ s1 ++ suf)]))
          | _ => some (c2, rules) : Option (List String × List String)) with
        | none => none
        | some step3 =>
          match lowerCondC base with
          | none => none
          | some bl =>
            some ((if bl then addCandGen step3.1 (pyLower base) else step3.1), step3.2)

/-- `normalize_transcription`, checked: `none` wherever any guarded access
of the source would fault. -/
def normalizeC (rawText : Option String) : Option NormalizationResult :=
  let rawStr := rawText.getD ""
  if rawStr = "" then
    some
      { raw_text := "", cleaned_text := "", tokens := [], merged_tokens := [],
        candidates := [], direct_candidates := [], applied_rules := ["empty input"] }
  else
    match generateDirectCandidatesC rawStr [] with
    | none => none
    | some direct =>
      let cleaned1 := pyStrip (pyLower rawStr)
      let cleaned2 : String :=
        ⟨cleaned1.data.map (fun c => if c = Char.ofNat 8217 then Char.ofNat 39 else c)⟩
      let cleaned3 : String := ⟨cleaned2.data.map (fun c => if c = '-' then ' ' else c)⟩
      let step4 := applyReplacements cleaned3 MULTIWORD_REPLACEMENTS direct.2
      let step5 := applyReplacements step4.1 CASTLING_PATTERNS step4.2
      let cleaned6 : String :=
        ⟨step5.1.data.map (fun c =>
          if ('a' ≤ c && c ≤ 'z') || ('0' ≤ c && c ≤ '9') || pyIsSpace c ||
              c = '+' || c = '#' || c = '=' then c else ' ')⟩
      let cleaned7 : String := pyStrip ⟨collapseWs cleaned6.data⟩
      let tokens := pyTokenize cleaned7
      match mapTokensC tokens step5.2 with
      | none => none
      | some mapStep =>
        match combineC mapStep.1 with
        | none => none
        | some comb =>
          match mergeC comb with
          | none => none
          | some merged =>
            match generateCandidatesC merged mapStep.2 with
            | none => none
            | some genStep =>
              some
                { raw_text := rawStr, cleaned_text := cleaned7, tokens := tokens,
                  merged_tokens := merged,
                  candidates := combineSources [direct.1, genStep.1],
                  direct_candidates := direct.1, applied_rules := genStep.2 }

/-! ## Declarative semantics of the regex fragment

`RxSem r prev s p' s'` holds when, in left context `prev`, the pattern `r`
matches some prefix of `s`, leaving the remainder `s'` with new left context
`p'`.  It is the specification against which the backtracking matcher
`Rx.runk` is proved sound, which in turn lets us reason about which strings
the source's grammars can accept. -/

inductive RxSem : Rx → Option Char → List Char → Option Char → List Char → Prop where
  | eps {prev s} : RxSem .eps prev s prev s
  | cls {cs c t prev} (h : cs.contains c = true) : RxSem (.cls cs) prev (c :: t) (some c) t
  | wordB {prev s} (h : (isWordOpt prev != headIsWord s) = true) : RxSem .wordB prev s prev s
  | seq {a b prev s p1 m p2 r} (h1 : RxSem a prev s p1 m) (h2 : RxSem b p1 m p2 r) :
      RxSem (.seq a b) prev s p2 r
  | altL {a b prev s p r} (h : RxSem a prev s p r) : RxSem (.alt a b) prev s p r
  | altR {a b prev s p r} (h : RxSem b prev s p r) : RxSem (.alt a b) prev s p r
  | optSome {a prev s p r} (h : RxSem a prev s p r) : RxSem (.opt a) prev s p r
  | optNone {a prev s} : RxSem (.opt a) prev s prev s
  | starNil {a prev s} : RxSem (.star a) prev s prev s
  | starCons {a prev s p1 m p2 r} (h1 : RxSem a prev s p1 m)
      (h2 : RxSem (.star a) p1 m p2 r) : RxSem (.star a) prev s p2 r

/-- Every character class of `r` only accepts characters from `allowed`. -/
def rxClassesSub (allowed : List Char) : Rx → Bool
  | .eps => true
  | .wordB => true
  | .cls cs => cs.all (fun c => allowed.contains c)
  | .seq a b => rxClassesSub allowed a && rxClassesSub allowed b
  | .alt a b => rxClassesSub allowed a && rxClassesSub allowed b
  | .opt a => rxClassesSub allowed a
  | .star a => rxClassesSub allowed a

/-- Every successful match of `r` must consume at least one character from
`good` (conservative syntactic criterion). -/
def rxMust (good : List Char) : Rx → Bool
  | .eps => false
  | .wordB => false
  | .cls cs => !cs.isEmpty && cs.all (fun c => good.contains c)
  | .seq a b => rxMust good a || rxMust good b
  | .alt a b => rxMust good a && rxMust good b
  | .opt _ => false
  | .star _ => false

/-! # Lemmas about the result assembler -/

theorem addCombined_nodup (acc : List String) (c : String) (h : acc.Nodup) :
    (addCombined acc c).Nodup := by
  unfold addCombined
  split
  · rename_i hc
    simp only [Bool.and_eq_true, Bool.not_eq_true', decide_eq_true_eq] at hc
    have hcmem : c ∉ acc := by
      intro hmem
      have hin := List.elem_eq_true_of_mem hmem
      have hfalse : acc.elem c = false := hc.2
      rw [hin] at hfalse
      exact Bool.noConfusion hfalse
    simp [List.nodup_append, h, hcmem]
  · exact h

theorem foldl_addCombined_nodup (src : List String) :
    ∀ acc : List String, acc.Nodup → (src.foldl addCombined acc).Nodup := by
  induction src with
  | nil => intro acc h; simpa using h
  | cons c t ih =>
    intro acc h
    simp only [List.foldl_cons]
    exact ih _ (addCombined_nodup _ _ h)

theorem combineSources_nodup (ss : List (List String)) : (combineSources ss).Nodup := by
  unfold combineSources
  have general : ∀ (l : List (List String)) (acc : List String), acc.Nodup →
      (l.foldl (fun a src => src.foldl addCombined a) acc).Nodup := by
    intro l
    induction l with
    | nil => intro acc h; simpa using h
    | cons s t ih =>
      intro acc h
      simp only [List.foldl_cons]
      exact ih _ (foldl_addCombined_nodup _ _ h)
  exact general ss [] List.nodup_nil

theorem addCombined_ne (acc : List String) (c y : String)
    (h : ∀ z ∈ acc, z ≠ "") (hy : y ∈ addCombined acc c) : y ≠ "" := by
  unfold addCombined at hy
  split at hy
  · rename_i hc
    simp only [Bool.and_eq_true, decide_eq_true_eq] at hc
    rcases List.mem_append.mp hy with h1 | h2
    · exact h _ h1
    · simp only [List.mem_singleton] at h2
      subst h2
      exact hc.1
  · exact h _ hy

theorem foldl_addCombined_ne (src : List String) :
    ∀ acc : List String, (∀ z ∈ acc, z ≠ "") →
      ∀ y ∈ src.foldl addCombined acc, y ≠ "" := by
  induction src with
  | nil => intro acc h; simpa using h
  | cons c t ih =>
    intro acc h
    simp only [List.foldl_cons]
    exact ih _ (fun y hy => addCombined_ne _ _ _ h hy)

theorem combineSources_ne (ss : List (List String)) :
    ∀ y ∈ combineSources ss, y ≠ "" := by
  unfold combineSources
  have general : ∀ (l : List (List String)) (acc : List String), (∀ z ∈ acc, z ≠ "") →
      ∀ y ∈ l.foldl (fun a src => src.foldl addCombined a) acc, y ≠ "" := by
    intro l
    induction l with
    | nil => intro acc h; simpa using h
    | cons s t ih =>
      intro acc h
      simp only [List.foldl_cons]
      exact ih _ (fun y hy => foldl_addCombined_ne _ _ h y hy)
  exact general ss [] (by simp)

/-! # Lemmas about the direct matcher's candidate list -/

theorem addDirect_ne (acc : List String) (v y : String)
    (h : ∀ z ∈ acc, z ≠ "") (hy : y ∈ addDirect acc v) : y ≠ "" := by
  unfold addDirect at hy
  dsimp only at hy
  split at hy
  · rename_i hc
    simp only [Bool.and_eq_true, decide_eq_true_eq] at hc
    rcases List.mem_append.mp hy with h1 | h2
    · exact h _ h1
    · simp only [List.mem_singleton] at h2
      subst h2
      exact hc.1
  · exact h _ hy

theorem dedupKeepFirst_subset (l : List String) :
    ∀ y ∈ dedupKeepFirst l, y ∈ l := by
  unfold dedupKeepFirst
  have general : ∀ (m acc : List String) (y : String),
      y ∈ m.foldl (fun a c => if !a.contains c then a ++ [c] else a) acc →
      y ∈ acc ∨ y ∈ m := by
    intro m
    induction m with
    | nil => intro acc y hy; exact Or.inl (by simpa using hy)
    | cons c t ih =>
      intro acc y hy
      simp only [List.foldl_cons] at hy
      rcases ih _ y hy with h1 | h2
      · split at h1
        · rcases List.mem_append.mp h1 with ha | hb
          · exact Or.inl ha
          · simp only [List.mem_singleton] at hb
            subst hb
            exact Or.inr (List.mem_cons_self _ _)
        · exact Or.inl h1
      · exact Or.inr (List.mem_cons_of_mem _ h2)
  intro y hy
  rcases general l [] y hy with h1 | h2
  · simp at h1
  · exact h2

theorem castleStepD_ne (c : String) (r : List String) :
    ∀ y ∈ (castleStepD c r).1, y ≠ "" := by
  unfold castleStepD
  split
  · intro y hy
    exact addDirect_ne _ _ _ (by simp) hy
  · simp

theorem sanStepD_ne (c : String) (st : DirectState)
    (h : ∀ z ∈ st.1, z ≠ "") : ∀ y ∈ (sanStepD c st).1, y ≠ "" := by
  unfold sanStepD
  split
  · intro y hy
    dsimp only at hy
    split at hy
    · exact addDirect_ne _ _ _ (fun z hz => addDirect_ne _ _ _ h hz) hy
    · exact addDirect_ne _ _ _ h hy
  · exact h

theorem uciStepD_ne (c : String) (st : DirectState)
    (h : ∀ z ∈ st.1, z ≠ "") : ∀ y ∈ (uciStepD c st).1, y ≠ "" := by
  unfold uciStepD
  split
  · intro y hy
    exact addDirect_ne _ _ _ h hy
  · exact h

theorem generateDirect_ne (s : String) (rules : List String) :
    ∀ y ∈ (generateDirectCandidates s rules).1, y ≠ "" := by
  intro y hy
  unfold generateDirectCandidates at hy
  split at hy
  · simp at hy
  · dsimp only at hy
    split at hy
    · simp at hy
    · have hall : ∀ z ∈ (uciStepD (compactOf s)
          (sanStepD (compactOf s) (castleStepD (compactOf s) rules))).1, z ≠ "" :=
        uciStepD_ne _ _ (sanStepD_ne _ _ (castleStepD_ne _ _))
      split at hy
      · exact hall _ (dedupKeepFirst_subset _ _ hy)
      · exact hall _ hy

/-! # Soundness of the regex matcher against the declarative semantics -/

theorem orElse_cases {α : Type} (x : Option α) (f : Unit → Option α) (v : α)
    (h : x.orElse f = some v) : x = some v ∨ (x = none ∧ f () = some v) := by
  cases x with
  | none => right; exact ⟨rfl, h⟩
  | some a => left; simpa [Option.orElse] using h

theorem runk_sound {α : Type} :
    ∀ (fuel : Nat) (r : Rx) (prev : Option Char) (s : List Char)
      (k : Option Char → List Char → Option α) (v : α),
      Rx.runk fuel r prev s k = some v →
      ∃ p' s', RxSem r prev s p' s' ∧ k p' s' = some v := by
  intro fuel
  induction fuel with
  | zero => intro r prev s k v h; simp [Rx.runk] at h
  | succ fuel ih =>
    intro r prev s k v h
    cases r with
    | eps => exact ⟨prev, s, RxSem.eps, h⟩
    | cls cs =>
      cases s with
      | nil => simp [Rx.runk] at h
      | cons c t =>
        simp only [Rx.runk] at h
        split at h
        · exact ⟨some c, t, RxSem.cls (by assumption), h⟩
        · exact absurd h (by simp)
    | wordB =>
      simp only [Rx.runk] at h
      split at h
      · exact ⟨prev, s, RxSem.wordB (by assumption), h⟩
      · exact absurd h (by simp)
    | seq a b =>
      simp only [Rx.runk] at h
      obtain ⟨p1, m, hsa, hk⟩ := ih a prev s _ v h
      obtain ⟨p2, r2, hsb, hk2⟩ := ih b p1 m k v hk
      exact ⟨p2, r2, RxSem.seq hsa hsb, hk2⟩
    | alt a b =>
      simp only [Rx.runk] at h
      rcases orElse_cases _ _ _ h with h1 | ⟨-, h2⟩
      · obtain ⟨p', s', hs, hk⟩ := ih a prev s k v h1
        exact ⟨p', s', RxSem.altL hs, hk⟩
      · obtain ⟨p', s', hs, hk⟩ := ih b prev s k v h2
        exact ⟨p', s', RxSem.altR hs, hk⟩
    | opt a =>
      simp only [Rx.runk] at h
      rcases orElse_cases _ _ _ h with h1 | ⟨-, h2⟩
      · obtain ⟨p', s', hs, hk⟩ := ih a prev s k v h1
        exact ⟨p', s', RxSem.optSome hs, hk⟩
      · exact ⟨prev, s, RxSem.optNone, h2⟩
    | star a =>
      simp only [Rx.runk] at h
      rcases orElse_cases _ _ _ h with h1 | ⟨-, h2⟩
      · obtain ⟨p1, m, hsa, hk⟩ := ih a prev s _ v h1
        obtain ⟨p2, r2, hstar, hk2⟩ := ih (.star a) p1 m k v hk
        exact ⟨p2, r2, RxSem.starCons hsa hstar, hk2⟩
      · exact ⟨prev, s, RxSem.starNil, h2⟩

theorem rxSem_suffix {r : Rx} {prev : Option Char} {s : List Char} {p' : Option Char}
    {s' : List Char} (h : RxSem r prev s p' s') : ∃ pre, s = pre ++ s' := by
  induction h with
  | eps => exact ⟨[], rfl⟩
  | cls h => exact ⟨[_], rfl⟩
  | wordB h => exact ⟨[], rfl⟩
  | seq h1 h2 ih1 ih2 =>
    obtain ⟨p1, e1⟩ := ih1
    obtain ⟨p2, e2⟩ := ih2
    exact ⟨p1 ++ p2, by rw [e1, e2, List.append_assoc]⟩
  | altL h ih => exact ih
  | altR h ih => exact ih
  | optSome h ih => exact ih
  | optNone => exact ⟨[], rfl⟩
  | starNil => exact ⟨[], rfl⟩
  | starCons h1 h2 ih1 ih2 =>
    obtain ⟨p1, e1⟩ := ih1
    obtain ⟨p2, e2⟩ := ih2
    exact ⟨p1 ++ p2, by rw [e1, e2, List.append_assoc]⟩

theorem rxSem_chars {allowed : List Char} {r : Rx} {prev : Option Char} {s : List Char}
    {p' : Option Char} {s' : List Char} (h : RxSem r prev s p' s')
    (hok : rxClassesSub allowed r = true) :
    ∃ pre, s = pre ++ s' ∧ ∀ c ∈ pre, allowed.contains c = true := by
  induction h with
  | eps => exact ⟨[], rfl, by simp⟩
  | cls hc =>
    rename_i cs c t prev2
    refine ⟨[c], rfl, ?_⟩
    intro d hd
    simp only [List.mem_singleton] at hd
    subst hd
    simp only [rxClassesSub, List.all_eq_true] at hok
    exact hok d (by simpa using hc)
  | wordB h => exact ⟨[], rfl, by simp⟩
  | seq h1 h2 ih1 ih2 =>
    simp only [rxClassesSub, Bool.and_eq_true] at hok
    obtain ⟨p1, e1, a1⟩ := ih1 hok.1
    obtain ⟨p2, e2, a2⟩ := ih2 hok.2
    refine ⟨p1 ++ p2, by rw [e1, e2, List.append_assoc], ?_⟩
    intro c hc
    rcases List.mem_append.mp hc with h | h
    · exact a1 c h
    · exact a2 c h
  | altL h ih =>
    simp only [rxClassesSub, Bool.and_eq_true] at hok
    exact ih hok.1
  | altR h ih =>
    simp only [rxClassesSub, Bool.and_eq_true] at hok
    exact ih hok.2
  | optSome h ih => exact ih hok
  | optNone => exact ⟨[], rfl, by simp⟩
  | starNil => exact ⟨[], rfl, by simp⟩
  | starCons h1 h2 ih1 ih2 =>
    obtain ⟨p1, e1, a1⟩ := ih1 hok
    obtain ⟨p2, e2, a2⟩ := ih2 hok
    refine ⟨p1 ++ p2, by rw [e1, e2, List.append_assoc], ?_⟩
    intro c hc
    rcases List.mem_append.mp hc with h | h
    · exact a1 c h
    · exact a2 c h

theorem rxSem_must {good : List Char} {r : Rx} {prev : Option Char} {s : List Char}
    {p' : Option Char} {s' : List Char} (h : RxSem r prev s p' s')
    (hm : rxMust good r = true) : ∃ c, c ∈ s ∧ good.contains c = true := by
  induction h with
  | eps => simp [rxMust] at hm
  | cls hc =>
    rename_i cs c t prev2
    refine ⟨c, List.mem_cons_self _ _, ?_⟩
    simp only [rxMust, Bool.and_eq_true, List.all_eq_true] at hm
    exact hm.2 c (by simpa using hc)
  | wordB h => simp [rxMust] at hm
  | seq h1 h2 ih1 ih2 =>
    simp only [rxMust, Bool.or_eq_true] at hm
    rcases hm with hma | hmb
    · exact ih1 hma
    · obtain ⟨c, hc, hg⟩ := ih2 hmb
      obtain ⟨pre, e⟩ := rxSem_suffix h1
      exact ⟨c, by rw [e]; exact List.mem_append_right _ hc, hg⟩
  | altL h ih =>
    simp only [rxMust, Bool.and_eq_true] at hm
    exact ih hm.1
  | altR h ih =>
    simp only [rxMust, Bool.and_eq_true] at hm
    exact ih hm.2
  | optSome h ih => simp [rxMust] at hm
  | optNone => simp [rxMust] at hm
  | starNil => simp [rxMust] at hm
  | starCons h1 h2 ih1 ih2 => simp [rxMust] at hm

theorem fullMatch_sem (r : Rx) (s : String) (h : rxFullMatch r s = true) :
    ∃ p', RxSem r none s.data p' [] := by
  unfold rxFullMatch at h
  rw [Option.isSome_iff_exists] at h
  obtain ⟨v, hv⟩ := h
  obtain ⟨p', s', hsem, hk⟩ := runk_sound _ _ _ _ _ _ hv
  have hs' : s' = [] := by
    by_cases he : s'.isEmpty
    · exact List.isEmpty_iff.mp he
    · simp [he] at hk
  subst hs'
  exact ⟨p', hsem⟩

theorem fullMatch_chars (allowed : List Char) (r : Rx) (hok : rxClassesSub allowed r = true)
    (s : String) (h : rxFullMatch r s = true) :
    ∀ c ∈ s.data, allowed.contains c = true := by
  obtain ⟨p', hsem⟩ := fullMatch_sem r s h
  obtain ⟨pre, e, hall⟩ := rxSem_chars hsem hok
  intro c hc
  rw [e, List.append_nil] at hc
  exact hall c hc

theorem fullMatch_must (good : List Char) (r : Rx) (hm : rxMust good r = true)
    (s : String) (h : rxFullMatch r s = true) :
    ∃ c, c ∈ s.data ∧ good.contains c = true := by
  obtain ⟨p', hsem⟩ := fullMatch_sem r s h
  exact rxSem_must hsem hm

/-- The castling grammar only accepts strings over `O o 0 - + #`. -/
theorem castle_chars (s : String) (h : rxFullMatch castleSanRx s = true) :
    ∀ c ∈ s.data, ("Oo0-+#".data).contains c = true :=
  fullMatch_chars _ _ (by decide) s h

/-- Every SAN match contains a file letter. -/
theorem san_has_file (s : String) (h : rxFullMatch sanMoveRx s = true) :
    ∃ c, c ∈ s.data ∧ ("abcdefghABCDEFGH".data).contains c = true :=
  fullMatch_must _ _ (by decide) s h

/-- Every castling match contains an `O`/`o`/`0` (so the match is nonempty). -/
theorem castle_nonempty_char (s : String) (h : rxFullMatch castleSanRx s = true) :
    ∃ c, c ∈ s.data ∧ ("Oo0".data).contains c = true :=
  fullMatch_must _ _ (by decide) s h

/-- No string matches both the castling grammar and the SAN grammar: castling
matches use only `O o 0 - + #`, while SAN matches contain a file letter. -/
theorem castle_san_disjoint (s : String) (h1 : rxFullMatch castleSanRx s = true)
    (h2 : rxFullMatch sanMoveRx s = true) : False := by
  obtain ⟨c, hc, hfile⟩ := san_has_file s h2
  have hcastle := castle_chars s h1 c hc
  have hmem1 := List.mem_of_elem_eq_true hcastle
  have hmem2 := List.mem_of_elem_eq_true hfile
  simp only [List.mem_cons, List.not_mem_nil, or_false] at hmem1 hmem2
  rcases hmem1 with h | h | h | h | h | h <;> subst h <;> simp at hmem2

/-! # The direct matcher on castling inputs (claim C6) -/

theorem dropWhile_eq_self_of_all {α : Type} (p : α → Bool) (l : List α)
    (h : ∀ c ∈ l, p c = false) : l.dropWhile p = l := by
  cases l with
  | nil => rfl
  | cons a t =>
    have := h a (List.mem_cons_self _ _)
    simp [List.dropWhile, this]

theorem pyStripL_eq_self (l : List Char) (h : ∀ c ∈ l, pyIsSpace c = false) :
    pyStripL l = l := by
  unfold pyStripL
  rw [dropWhile_eq_self_of_all _ _ h]
  rw [dropWhile_eq_self_of_all _ _ (fun c hc => h c (List.mem_reverse.mp hc))]
  exact List.reverse_reverse l

theorem pyStrip_eq_self (v : String) (h : ∀ c ∈ v.data, pyIsSpace c = false) :
    pyStrip v = v := by
  unfold pyStrip
  rw [pyStripL_eq_self _ h]

theorem compactOf_nonspace (s : String) :
    ∀ c ∈ (compactOf s).data, pyIsSpace c = false := by
  intro c hc
  unfold compactOf at hc
  rw [show (String.mk (((pyStripL s.data).filter (fun c => !pyIsSpace c)).map
      (fun c => if c = '–' || c = '—' || c = '−' then '-' else c))).data =
      ((pyStripL s.data).filter (fun c => !pyIsSpace c)).map
      (fun c => if c = '–' || c = '—' || c = '−' then '-' else c) from rfl] at hc
  rw [List.mem_map] at hc
  obtain ⟨a, ha, rfl⟩ := hc
  rw [List.mem_filter] at ha
  have hns : pyIsSpace a = false := by simpa using ha.2
  by_cases hd : (a = '–' || a = '—' || a = '−') = true
  · rw [if_pos hd]
    decide
  · simp only [Bool.not_eq_true] at hd
    simp [hd, hns]

theorem castleSet_nonspace (c : Char) (h : ("Oo0-+#".data).contains c = true) :
    pyIsSpace c = false := by
  have hm := List.mem_of_elem_eq_true h
  simp only [List.mem_cons, List.not_mem_nil, or_false] at hm
  rcases hm with h | h | h | h | h | h <;> subst h <;> decide

theorem canonCastle_chars (compact : String)
    (h : ∀ c ∈ compact.data, ("Oo0-+#".data).contains c = true) :
    ∀ c ∈ (canonCastle compact).data, pyIsSpace c = false := by
  unfold canonCastle
  dsimp only
  have hn0 : ∀ c ∈ ((pyUpper compact).data.map
      (fun c => if c = '0' then 'O' else c)), pyIsSpace c = false := by
    intro c hc
    rw [List.mem_map] at hc
    obtain ⟨a, ha, rfl⟩ := hc
    have ha2 : a ∈ compact.data.map pyUpperChar := by
      simpa [pyUpper] using ha
    rw [List.mem_map] at ha2
    obtain ⟨b, hb, rfl⟩ := ha2
    have hbs := h b hb
    have hm := List.mem_of_elem_eq_true hbs
    simp only [List.mem_cons, List.not_mem_nil, or_false] at hm
    rcases hm with h' | h' | h' | h' | h' | h' <;> subst h' <;> decide
  split
  · split
    · decide
    · split
      · decide
      · exact hn0
  · exact hn0

theorem canonCastle_nonempty (compact : String) (hne : compact.data ≠ []) :
    canonCastle compact ≠ "" := by
  unfold canonCastle
  dsimp only
  split
  · split
    · decide
    · split
      · decide
      · intro habs
        have hdata : ((pyUpper compact).data.map (fun c => if c = '0' then 'O' else c)) = [] := by
          have := congrArg String.data habs
          simpa using this
        rw [List.map_eq_nil_iff] at hdata
        have : compact.data = [] := by simpa [pyUpper] using hdata
        exact hne this
  · intro habs
    have hdata : ((pyUpper compact).data.map (fun c => if c = '0' then 'O' else c)) = [] := by
      have := congrArg String.data habs
      simpa using this
    rw [List.map_eq_nil_iff] at hdata
    have : compact.data = [] := by simpa [pyUpper] using hdata
    exact hne this

theorem addDirect_nil_eq (v : String) (hns : ∀ c ∈ v.data, pyIsSpace c = false)
    (hne : v ≠ "") : addDirect [] v = [v] := by
  unfold addDirect
  rw [pyStrip_eq_self v hns]
  simp [hne]

theorem addDirect_head (acc : List String) (v : String) (a : String) (t : List String)
    (hacc : acc = a :: t) : (addDirect acc v).head? = some a := by
  subst hacc
  unfold addDirect
  dsimp only
  split
  · rfl
  · rfl

theorem foldl_dedup_extends (m : List String) :
    ∀ acc : List String,
      ∃ tail, m.foldl (fun a c => if !a.contains c then a ++ [c] else a) acc = acc ++ tail := by
  induction m with
  | nil => intro acc; exact ⟨[], by simp⟩
  | cons c t ih =>
    intro acc
    simp only [List.foldl_cons]
    by_cases hc : (!acc.contains c) = true
    · obtain ⟨tail, htail⟩ := ih (acc ++ [c])
      rw [hc]
      simp only [if_true] at htail ⊢
      exact ⟨[c] ++ tail, by rw [htail, List.append_assoc]⟩
    · rw [Bool.not_eq_true] at hc
      obtain ⟨tail, htail⟩ := ih acc
      simp only [hc] at htail ⊢
      exact ⟨tail, by simpa using htail⟩

theorem dedupKeepFirst_head (l : List String) (a : String) (t : List String)
    (hl : l = a :: t) : (dedupKeepFirst l).head? = some a := by
  subst hl
  unfold dedupKeepFirst
  simp only [List.foldl_cons]
  have hstep : (if !([] : List String).contains a then ([] : List String) ++ [a] else []) = [a] := by
    simp
  rw [hstep]
  obtain ⟨tail, htail⟩ := foldl_dedup_extends t [a]
  rw [htail]
  rfl

theorem compactOf_empty : compactOf "" = "" := by decide

/-- Counterexample to claim C6 as stated: "o-o+" matches the castling grammar
with two `O`-segments, but the emitted direct candidate is "O-O+", not
"O-O" (and not "O-O-O"). -/
theorem claim_C6_counterexample :
    rxFullMatch castleSanRx (compactOf "o-o+") = true ∧
    (generateDirectCandidates "o-o+" []).1 = ["O-O+"] ∧
    (generateDirectCandidates "o-o+" []).1 ≠ ["O-O"] ∧
    (generateDirectCandidates "o-o+" []).1 ≠ ["O-O-O"] := by
  decide

/-- Claim C6 (amended): for every input whose whitespace-stripped,
dash-normalized form matches the castling grammar, the first emitted direct
candidate is the canonicalization performed by the code: uppercase the match
and replace '0' by 'O'; if the result contains no dash, rewrite it to "O-O"
when its length is exactly 2 and to "O-O-O" when its length is exactly 3
(the length counts any trailing check/mate marker); otherwise emit it
unchanged (so "o-o+" yields "O-O+" and "oo+" yields "O-O-O"). -/
theorem claim_C6_castle_direct (s : String) (rules : List String)
    (h : rxFullMatch castleSanRx (compactOf s) = true) :
    (generateDirectCandidates s rules).1.head? = some (canonCastle (compactOf s)) := by
  have hcompact_ne : (compactOf s).data ≠ [] := by
    intro habs
    obtain ⟨c, hc, -⟩ := castle_nonempty_char _ h
    rw [habs] at hc
    exact List.not_mem_nil _ hc
  have hs_ne : s ≠ "" := by
    intro habs
    subst habs
    rw [compactOf_empty] at h
    exact absurd h (by decide)
  have hchars := castle_chars _ h
  have hcanon_ns := canonCastle_chars _ hchars
  have hcanon_ne := canonCastle_nonempty _ hcompact_ne
  have hcastle : castleStepD (compactOf s) rules =
      ([canonCastle (compactOf s)], true,
       rules ++ ["direct castle candidate " ++ quoted (canonCastle (compactOf s))]) := by
    unfold castleStepD
    rw [if_pos h, addDirect_nil_eq _ hcanon_ns hcanon_ne]
  have hsan : sanStepD (compactOf s) (castleStepD (compactOf s) rules) =
      castleStepD (compactOf s) rules := by
    rw [hcastle]
    unfold sanStepD
    simp
  have hcompact0_ne : ¬((pyStripL s.data).filter (fun c => !pyIsSpace c)).isEmpty = true := by
    intro habs
    apply hcompact_ne
    have : ((pyStripL s.data).filter (fun c => !pyIsSpace c)) = [] :=
      List.isEmpty_iff.mp habs
    show (compactOf s).data = []
    unfold compactOf
    rw [show (String.mk (((pyStripL s.data).filter (fun c => !pyIsSpace c)).map
        (fun c => if c = '–' || c = '—' || c = '−' then '-' else c))).data =
        ((pyStripL s.data).filter (fun c => !pyIsSpace c)).map
        (fun c => if c = '–' || c = '—' || c = '−' then '-' else c) from rfl]
    rw [this]
    rfl
  unfold generateDirectCandidates
  rw [if_neg hs_ne]
  dsimp only
  rw [if_neg hcompact0_ne]
  rw [hsan, hcastle]
  unfold uciStepD
  split
  · dsimp only
    split
    · cases haddd : addDirect [canonCastle (compactOf s)] (pyLower (compactOf s)) with
      | nil =>
        have hh := addDirect_head [canonCastle (compactOf s)] (pyLower (compactOf s))
          (canonCastle (compactOf s)) [] rfl
        rw [haddd] at hh
        exact absurd hh (by simp)
      | cons x xs =>
        have hh := addDirect_head [canonCastle (compactOf s)] (pyLower (compactOf s))
          (canonCastle (compactOf s)) [] rfl
        rw [haddd] at hh
        have hx : x = canonCastle (compactOf s) := by simpa using hh
        rw [dedupKeepFirst_head (x :: xs) x xs rfl, hx]
    · exact addDirect_head _ _ _ _ rfl
  · dsimp only
    split
    · rename_i hfalse
      simp at hfalse
    · rfl

/-- Witness for the amended C6 at the concrete input "0-0". -/
theorem claim_C6_castle_direct_witness :
    (generateDirectCandidates "0-0" []).1.head? = some (canonCastle (compactOf "0-0")) :=
  claim_C6_castle_direct "0-0" [] (by decide)

/-! # The direct matcher on SAN inputs (claim C5) -/

theorem not_mem_of_contains_false {l : List String} {a : String}
    (h : l.contains a = false) : a ∉ l := by
  intro hmem
  have htrue := List.elem_eq_true_of_mem hmem
  have h2 : l.elem a = false := h
  rw [htrue] at h2
  exact Bool.noConfusion h2

theorem addDirect_mem_mono (acc : List String) (v y : String) (hy : y ∈ acc) :
    y ∈ addDirect acc v := by
  unfold addDirect
  dsimp only
  split
  · exact List.mem_append_left _ hy
  · exact hy

theorem addDirect_mem_self (acc : List String) (v : String)
    (hstrip : pyStrip v = v) (hne : v ≠ "") : v ∈ addDirect acc v := by
  unfold addDirect
  dsimp only
  rw [hstrip]
  by_cases hc : acc.contains v = true
  · have hmem := List.mem_of_elem_eq_true hc
    split
    · exact List.mem_append_left _ hmem
    · exact hmem
  · rw [Bool.not_eq_true] at hc
    rw [if_pos (by simp [hne, not_mem_of_contains_false hc])]
    exact List.mem_append_right _ (List.mem_singleton_self _)

theorem uciStepD_mem (c : String) (st : DirectState) (y : String) (hy : y ∈ st.1) :
    y ∈ (uciStepD c st).1 := by
  unfold uciStepD
  split
  · exact addDirect_mem_mono _ _ _ hy
  · exact hy

theorem dedupKeepFirst_mem (l : List String) (y : String) (hy : y ∈ l) :
    y ∈ dedupKeepFirst l := by
  unfold dedupKeepFirst
  have general : ∀ (m acc : List String) (y : String), y ∈ acc ∨ y ∈ m →
      y ∈ m.foldl (fun a c => if !a.contains c then a ++ [c] else a) acc := by
    intro m
    induction m with
    | nil => intro acc y hy; simpa using hy.resolve_right (by simp)
    | cons c t ih =>
      intro acc y hy
      simp only [List.foldl_cons]
      apply ih
      rcases hy with hacc | hm
      · left
        split
        · exact List.mem_append_left _ hacc
        · exact hacc
      · rcases List.mem_cons.mp hm with rfl | ht
        · left
          by_cases hc : acc.contains y = true
          · have hmem := List.mem_of_elem_eq_true hc
            split
            · exact List.mem_append_left _ hmem
            · exact hmem
          · rw [Bool.not_eq_true] at hc
            rw [if_pos (by simp [not_mem_of_contains_false hc])]
            exact List.mem_append_right _ (List.mem_singleton_self _)
        · right; exact ht
  exact general l [] y (Or.inr hy)

theorem compactOf_data_ne (s : String) (c : Char) (hc : c ∈ (compactOf s).data) :
    (compactOf s).data ≠ [] := by
  intro habs
  rw [habs] at hc
  exact List.not_mem_nil _ hc

theorem sanMatch_compact_shape (s : String)
    (h : rxFullMatch sanMoveRx (compactOf s) = true) :
    s ≠ "" ∧ (compactOf s).data ≠ [] ∧ compactOf s ≠ "" := by
  obtain ⟨c, hc, -⟩ := san_has_file _ h
  have hne := compactOf_data_ne s c hc
  refine ⟨?_, hne, ?_⟩
  · intro habs
    subst habs
    rw [compactOf_empty] at h
    exact absurd h (by decide)
  · intro habs
    apply hne
    rw [habs]

/-- Counterexample to claim C5 as stated: "Nf6" matches the SAN grammar and
begins with an uppercase piece letter, but the direct matcher emits only
["Nf6"]; no lowercase-first variant "nf6" is produced.  (The source checks
`compact[0] in "kqrbn"`, i.e. a lowercase first letter, and then emits the
uppercase variant.) -/
theorem claim_C5_counterexample :
    rxFullMatch sanMoveRx (compactOf "Nf6") = true ∧
    (generateDirectCandidates "Nf6" []).1 = ["Nf6"] ∧
    "nf6" ∉ (generateDirectCandidates "Nf6" []).1 := by
  decide

/-- Claim C5 (amended): for every input whose whitespace-stripped,
dash-normalized form matches the strict SAN grammar, the match is emitted
verbatim as the first direct candidate, and if the match begins with a
lowercase piece letter (k, q, r, b, n) an uppercase-first-letter variant of
it is also emitted. -/
theorem claim_C5_san_direct (s : String) (rules : List String)
    (h : rxFullMatch sanMoveRx (compactOf s) = true) :
    (generateDirectCandidates s rules).1.head? = some (compactOf s) ∧
    (("kqrbn".data).contains (headChar (compactOf s)) = true →
      upperFirst (compactOf s) ∈ (generateDirectCandidates s rules).1) := by
  obtain ⟨hs_ne, hdata_ne, hcompact_ne⟩ := sanMatch_compact_shape s h
  have hns := compactOf_nonspace s
  have hnotcastle : rxFullMatch castleSanRx (compactOf s) = false := by
    cases hcs : rxFullMatch castleSanRx (compactOf s) with
    | false => rfl
    | true => exact absurd (castle_san_disjoint _ hcs h) not_false
  have hcastle : castleStepD (compactOf s) rules = ([], false, rules) := by
    unfold castleStepD
    rw [if_neg (by simp [hnotcastle])]
  obtain ⟨c0, t0, hdata⟩ : ∃ c0 t0, (compactOf s).data = c0 :: t0 := by
    cases hd : (compactOf s).data with
    | nil => exact absurd hd hdata_ne
    | cons a b => exact ⟨a, b, rfl⟩
  have hcompact0_ne : ¬((pyStripL s.data).filter (fun c => !pyIsSpace c)).isEmpty = true := by
    intro habs
    apply hdata_ne
    have hnil : ((pyStripL s.data).filter (fun c => !pyIsSpace c)) = [] :=
      List.isEmpty_iff.mp habs
    show (compactOf s).data = []
    unfold compactOf
    rw [show (String.mk (((pyStripL s.data).filter (fun c => !pyIsSpace c)).map
        (fun c => if c = '–' || c = '—' || c = '−' then '-' else c))).data =
        ((pyStripL s.data).filter (fun c => !pyIsSpace c)).map
        (fun c => if c = '–' || c = '—' || c = '−' then '-' else c) from rfl]
    rw [hnil]
    rfl
  have ha1 : addDirect [] (compactOf s) = [compactOf s] := addDirect_nil_eq _ hns hcompact_ne
  have hsanstep : sanStepD (compactOf s) ([], false, rules) =
      ((if (compactOf s ≠ "" && ("kqrbn".data).contains (headChar (compactOf s))) = true
        then addDirect [compactOf s] (upperFirst (compactOf s)) else [compactOf s]),
       true, rules ++ ["direct SAN candidate " ++ quoted (compactOf s)]) := by
    unfold sanStepD
    rw [if_pos (by simp [h])]
    dsimp only
    rw [ha1]
  unfold generateDirectCandidates
  rw [if_neg hs_ne]
  dsimp only
  rw [if_neg hcompact0_ne]
  rw [hcastle, hsanstep]
  constructor
  · -- head is the verbatim compact string
    set a2 := if (compactOf s ≠ "" && ("kqrbn".data).contains (headChar (compactOf s))) = true
      then addDirect [compactOf s] (upperFirst (compactOf s)) else [compactOf s] with ha2def
    have ha2head : a2.head? = some (compactOf s) := by
      rw [ha2def]
      split
      · exact addDirect_head _ _ _ _ rfl
      · rfl
    obtain ⟨x, xs, hx⟩ : ∃ x xs, a2 = x :: xs := by
      cases hc : a2 with
      | nil => rw [hc] at ha2head; exact absurd ha2head (by simp)
      | cons u us => exact ⟨u, us, rfl⟩
    have hxval : x = compactOf s := by
      rw [hx] at ha2head
      simpa using ha2head
    unfold uciStepD
    split
    · dsimp only
      split
      · cases haddd : addDirect a2 (pyLower (compactOf s)) with
        | nil =>
          have hh := addDirect_head a2 (pyLower (compactOf s)) x xs hx
          rw [haddd] at hh
          exact absurd hh (by simp)
        | cons u us =>
          have hh := addDirect_head a2 (pyLower (compactOf s)) x xs hx
          rw [haddd] at hh
          have hu : u = x := by simpa using hh
          rw [dedupKeepFirst_head (u :: us) u us rfl, hu, hxval]
      · rw [addDirect_head a2 (pyLower (compactOf s)) x xs hx, hxval]
    · dsimp only
      split
      · rw [dedupKeepFirst_head a2 x xs hx, hxval]
      · rw [hx, hxval]
        rfl
  · -- the uppercase-first variant
    intro hpiece
    have hupns : (∀ d ∈ (upperFirst (compactOf s)).data, pyIsSpace d = false) ∧
        upperFirst (compactOf s) ≠ "" := by
      have hc0 : headChar (compactOf s) = c0 := by
        unfold headChar
        rw [hdata]
      rw [hc0] at hpiece
      have hm := List.mem_of_elem_eq_true hpiece
      simp only [List.mem_cons, List.not_mem_nil, or_false] at hm
      constructor
      · intro d hd
        have hupdata : (upperFirst (compactOf s)).data = pyUpperChar c0 :: t0 := by
          unfold upperFirst
          rw [hdata]
        rw [hupdata] at hd
        rcases List.mem_cons.mp hd with rfl | ht
        · rcases hm with h' | h' | h' | h' | h' <;> subst h' <;> decide
        · exact hns d (by rw [hdata]; exact List.mem_cons_of_mem _ ht)
      · intro habs
        have := congrArg String.data habs
        unfold upperFirst at this
        rw [hdata] at this
        simp at this
    have hcond : (compactOf s ≠ "" && ("kqrbn".data).contains (headChar (compactOf s))) = true := by
      have hm := List.mem_of_elem_eq_true hpiece
      simp only [List.mem_cons, List.not_mem_nil, or_false] at hm
      simp [hcompact_ne, hm]
    rw [if_pos hcond]
    have hmem2 : upperFirst (compactOf s) ∈
        addDirect [compactOf s] (upperFirst (compactOf s)) :=
      addDirect_mem_self _ _ (pyStrip_eq_self _ hupns.1) hupns.2
    have hmem3 := uciStepD_mem (compactOf s)
      (addDirect [compactOf s] (upperFirst (compactOf s)),
       true, rules ++ ["direct SAN candidate " ++ quoted (compactOf s)])
      _ hmem2
    dsimp only
    split
    · exact dedupKeepFirst_mem _ _ hmem3
    · exact hmem3

/-- Witness for the amended C5 at the concrete input "nf6" (lowercase piece
letter, so both "nf6" and "Nf6" are emitted). -/
theorem claim_C5_san_direct_witness :
    (generateDirectCandidates "nf6" []).1.head? = some (compactOf "nf6") ∧
    upperFirst (compactOf "nf6") ∈ (generateDirectCandidates "nf6" []).1 :=
  ⟨(claim_C5_san_direct "nf6" [] (by decide)).1,
   (claim_C5_san_direct "nf6" [] (by decide)).2 (by decide)⟩

/-! # The token mapper's promotion scan (claim C7) -/

theorem lookup_some_mem_keys (d : List (String × String)) (t p : String)
    (h : d.lookup t = some p) : t ∈ d.map Prod.fst := by
  induction d with
  | nil => simp [List.lookup] at h
  | cons a rest ih =>
    simp only [List.lookup] at h
    split at h
    · rename_i heq
      simp only [List.map_cons, List.mem_cons]
      left
      exact (by simpa using heq)
    · simp only [List.map_cons, List.mem_cons]
      right
      exact ih h

theorem promoTarget_not_filler (t : String) (h : isPromoTarget t = true) :
    FILLER_WORDS.contains t = false := by
  unfold isPromoTarget at h
  rw [Bool.or_eq_true] at h
  rcases h with h | h
  · rw [Option.isSome_iff_exists] at h
    obtain ⟨p, hp⟩ := h
    have hk := lookup_some_mem_keys _ _ _ hp
    simp only [PROMOTION_PIECES, List.map_cons, List.map_nil, List.mem_cons,
      List.not_mem_nil, or_false] at hk
    rcases hk with h | h | h | h | h | h | h | h | h <;> subst h <;> decide
  · cases hpw : dictGet PIECE_WORDS t with
    | none => rw [hpw] at h; simp at h
    | some p =>
      have hk := lookup_some_mem_keys _ _ _ hpw
      simp only [PIECE_WORDS, List.map_cons, List.map_nil, List.mem_cons,
        List.not_mem_nil, or_false] at hk
      rcases hk with h' | h' | h' | h' | h' | h' | h' | h' | h' | h' | h' | h' | h' | h' |
        h' | h' | h' <;> subst h' <;> decide

theorem cue_not_filler (t : String) (h : PROMOTION_CUES.contains t = true) :
    FILLER_WORDS.contains t = false := by
  have hm := List.mem_of_elem_eq_true h
  simp only [PROMOTION_CUES, List.mem_cons, List.not_mem_nil, or_false] at hm
  rcases hm with h' | h' | h' | h' | h' | h' | h' | h' <;> subst h' <;> decide

theorem promoScan_length_lt : ∀ (l : List String) (p : String) (r : List String),
    promoScan l = some (p, r) → r.length < l.length := by
  intro l
  induction l with
  | nil => intro p r h; simp [promoScan] at h
  | cons c rest ih =>
    intro p r h
    simp only [promoScan] at h
    split at h
    · exact Nat.lt_succ_of_lt (ih p r h)
    · split at h
      · have := Option.some.inj h
        have hr : rest = r := congrArg Prod.snd this
        subst hr
        simp
      · split at h
        · split at h
          · have := Option.some.inj h
            have hr : rest = r := congrArg Prod.snd this
            subst hr
            simp
          · exact Nat.lt_succ_of_lt (ih p r h)
        · exact Nat.lt_succ_of_lt (ih p r h)

theorem promoScan_found (pre : List String) (t : String) (post : List String)
    (hpre : ∀ u ∈ pre, isPromoTarget u = false)
    (ht : isPromoTarget t = true) :
    promoScan (pre ++ t :: post) = some (promoLetterOf t, post) := by
  induction pre with
  | nil =>
    simp only [List.nil_append, promoScan]
    rw [if_neg (by rw [promoTarget_not_filler t ht]; simp)]
    unfold isPromoTarget at ht
    unfold promoLetterOf
    cases hpp : dictGet PROMOTION_PIECES t with
    | some p => simp [hpp]
    | none =>
      rw [hpp] at ht
      cases hpw : dictGet PIECE_WORDS t with
      | some p =>
        rw [hpw] at ht
        simp only [Option.isSome_none, Bool.false_or, decide_eq_true_eq] at ht
        simp [hpp, hpw, ht]
      | none =>
        rw [hpw] at ht
        simp at ht
  | cons u pre' ih =>
    have hu := hpre u (List.mem_cons_self _ _)
    simp only [List.cons_append, promoScan]
    by_cases hf : FILLER_WORDS.contains u = true
    · rw [if_pos hf]
      exact ih (fun v hv => hpre v (List.mem_cons_of_mem _ hv))
    · rw [if_neg hf]
      unfold isPromoTarget at hu
      cases hpp : dictGet PROMOTION_PIECES u with
      | some p => rw [hpp] at hu; simp at hu
      | none =>
        rw [hpp] at hu
        cases hpw : dictGet PIECE_WORDS u with
        | some p =>
          rw [hpw] at hu
          have hp : p = "" := by simpa using hu
          simp only [hpw]
          rw [if_neg (by simp [hp])]
          exact ih (fun v hv => hpre v (List.mem_cons_of_mem _ hv))
        | none =>
          simp only [hpw]
          exact ih (fun v hv => hpre v (List.mem_cons_of_mem _ hv))

theorem promoScan_none (l : List String) (hl : ∀ u ∈ l, isPromoTarget u = false) :
    promoScan l = none := by
  induction l with
  | nil => rfl
  | cons u rest ih =>
    have hu := hl u (List.mem_cons_self _ _)
    simp only [promoScan]
    by_cases hf : FILLER_WORDS.contains u = true
    · rw [if_pos hf]
      exact ih (fun v hv => hl v (List.mem_cons_of_mem _ hv))
    · rw [if_neg hf]
      unfold isPromoTarget at hu
      cases hpp : dictGet PROMOTION_PIECES u with
      | some p => rw [hpp] at hu; simp at hu
      | none =>
        rw [hpp] at hu
        cases hpw : dictGet PIECE_WORDS u with
        | some p =>
          rw [hpw] at hu
          have hp : p = "" := by simpa using hu
          simp only [hpw]
          rw [if_neg (by simp [hp])]
          exact ih (fun v hv => hl v (List.mem_cons_of_mem _ hv))
        | none =>
          simp only [hpw]
          exact ih (fun v hv => hl v (List.mem_cons_of_mem _ hv))

set_option maxHeartbeats 4000000 in
theorem mapTokensF_fuel :
    ∀ (fuel1 fuel2 : Nat) (l : List String) (rules : List String),
      l.length < fuel1 → l.length < fuel2 →
      mapTokensF fuel1 l rules = mapTokensF fuel2 l rules := by
  intro fuel1
  induction fuel1 with
  | zero => intro fuel2 l rules h1 h2; omega
  | succ f ih =>
    intro fuel2 l rules h1 h2
    cases l with
    | nil =>
      cases fuel2 with
      | zero => omega
      | succ g => simp [mapTokensF]
    | cons t rest =>
      cases fuel2 with
      | zero => omega
      | succ g =>
        have hrf : rest.length < f := by
          simp only [List.length_cons] at h1
          omega
        have hrg : rest.length < g := by
          simp only [List.length_cons] at h2
          omega
        have htf : rest.tail.length < f :=
          Nat.lt_of_le_of_lt (by cases rest <;> simp) hrf
        have htg : rest.tail.length < g :=
          Nat.lt_of_le_of_lt (by cases rest <;> simp) hrg
        have e1 : ∀ R, mapTokensF f rest R = mapTokensF g rest R :=
          fun R => ih g rest R hrf hrg
        have e2 : ∀ R, mapTokensF f rest.tail R = mapTokensF g rest.tail R :=
          fun R => ih g rest.tail R htf htg
        simp only [mapTokensF]
        by_cases hb1 : FILLER_WORDS.contains t = true
        · simp only [if_pos hb1]
          exact e1 _
        · simp only [if_neg hb1]
          by_cases hb2 : PROMOTION_CUES.contains t = true
          · simp only [if_pos hb2]
            cases hps : promoScan rest with
            | none =>
              rw [e1]
            | some pr =>
              obtain ⟨p, rest2⟩ := pr
              have hlt := promoScan_length_lt rest p rest2 hps
              have e3 : ∀ R, mapTokensF f rest2 R = mapTokensF g rest2 R :=
                fun R => ih g rest2 R (Nat.lt_trans hlt hrf) (Nat.lt_trans hlt hrg)
              dsimp only
              rw [e3]
          · simp only [if_neg hb2]
            by_cases hb3 : (dictGet CHECK_WORDS t).isSome = true
            · simp only [if_pos hb3]
              rw [e1]
            · simp only [if_neg hb3]
              by_cases hb4 : (dictGet ACTION_WORDS t).isSome = true
              · simp only [if_pos hb4]
                rw [e1]
              · simp only [if_neg hb4]
                by_cases hb5 :
                    ((t = "b" || t = "be" || t = "bee") &&
                      optContains SHOP_VARIANTS rest.head?) = true
                · simp only [if_pos hb5]
                  rw [e2]
                · simp only [if_neg hb5]
                  by_cases hb6 :
                      ((t = "king" || t = "queen") &&
                        optContains SIDE_VARIANTS rest.head?) = true
                  · simp only [if_pos hb6]
                    rw [e2]
                  · simp only [if_neg hb6]
                    by_cases hb7 : (t = "kingside" || t = "shortside") = true
                    · simp only [if_pos hb7]
                      rw [e1]
                    · simp only [if_neg hb7]
                      by_cases hb8 : (t = "queenside" || t = "longside") = true
                      · simp only [if_pos hb8]
                        rw [e1]
                      · simp only [if_neg hb8]
                        by_cases hb9 : (dictGet PIECE_WORDS t).isSome = true
                        · simp only [if_pos hb9]
                          by_cases hb9i : (dictGet PIECE_WORDS t).getD "" ≠ ""
                          · simp only [if_pos hb9i]
                            rw [e1]
                          · simp only [if_neg hb9i]
                            rw [e1]
                        · simp only [if_neg hb9]
                          by_cases hb10 : (dictGet NUMBER_WORDS t).isSome = true
                          · simp only [if_pos hb10]
                            rw [e1]
                          · simp only [if_neg hb10]
                            by_cases hb11 : (dictGet LETTER_WORDS t).isSome = true
                            · simp only [if_pos hb11]
                              rw [e1]
                            · simp only [if_neg hb11]
                              rw [e1]

theorem mapTokensF_eq_wrapper (fuel : Nat) (l : List String) (rules : List String)
    (h : l.length < fuel) : mapTokensF fuel l rules = mapTokens l rules :=
  mapTokensF_fuel fuel (l.length + 1) l rules h (Nat.lt_succ_self _)

/-- Unfolds the wrapper `mapTokens` one step on a promotion cue whose scan
finds a piece at token `t`, discarding everything up to and including `t`. -/
theorem mapTokens_cue_found (cue : String) (pre : List String) (t : String)
    (post : List String) (rules : List String)
    (hcue : PROMOTION_CUES.contains cue = true)
    (hpre : ∀ u ∈ pre, isPromoTarget u = false)
    (ht : isPromoTarget t = true) :
    (mapTokens (cue :: (pre ++ t :: post)) rules).1 =
      ("=" ++ pyUpper (promoLetterOf t)) ::
        (mapTokens post (rules ++ ["promotion to " ++ pyUpper (promoLetterOf t)])).1 := by
  have hnf : ¬(FILLER_WORDS.contains cue = true) := by
    rw [cue_not_filler cue hcue]
    simp
  conv_lhs => rw [mapTokens]
  simp only [mapTokensF]
  rw [if_neg hnf, if_pos hcue]
  rw [promoScan_found pre t post hpre ht]
  dsimp only
  rw [mapTokensF_eq_wrapper _ post _ (by simp [List.length_append]; omega)]

/-- Unfolds the wrapper `mapTokens` one step on a promotion cue whose scan
finds no piece: a bare "=" is emitted and mapping resumes right after the
cue. -/
theorem mapTokens_cue_none (cue : String) (l : List String) (rules : List String)
    (hcue : PROMOTION_CUES.contains cue = true)
    (hl : ∀ u ∈ l, isPromoTarget u = false) :
    (mapTokens (cue :: l) rules).1 =
      "=" :: (mapTokens l (rules ++ ["promotion cue without piece"])).1 := by
  have hnf : ¬(FILLER_WORDS.contains cue = true) := by
    rw [cue_not_filler cue hcue]
    simp
  conv_lhs => rw [mapTokens]
  simp only [mapTokensF]
  rw [if_neg hnf, if_pos hcue]
  rw [promoScan_none l hl]
  dsimp only
  rw [mapTokensF_eq_wrapper _ l _ (by simp)]

/-- Counterexample to claim C7 as stated: in ["promote", "e4", "queen"] the
token "e4" after the cue is neither a filler word nor a piece word, yet the
scan steps over it, finds "queen", and discards "e4": the mapped output is
["=Q"].  The claimed scan (skipping only fillers, `promoScanClaimed`) stops
at "e4" and finds nothing. -/
theorem claim_C7_counterexample :
    FILLER_WORDS.contains "e4" = false ∧
    isPromoTarget "e4" = false ∧
    promoScanClaimed ["e4", "queen"] = none ∧
    promoScan ["e4", "queen"] = some ("Q", []) ∧
    (mapTokens ["promote", "e4", "queen"] []).1 = ["=Q"] := by
  decide

/-- Claim C7 (amended): when the current token is a promotion-cue word, the
mapper scans forward for the first token that is a promotion-piece word or a
non-pawn piece word, stepping over every other token (fillers and arbitrary
words alike; the stepped-over tokens are discarded): if such a token is
found, "=<PIECE>" is emitted (uppercase) and the cursor advances past the
found word; if none is found before the input ends, a bare "=" is emitted
and the cursor advances by one. -/
theorem claim_C7_promotion_cue (cue : String) (pre : List String) (t : String)
    (post : List String) (l : List String) (rules : List String)
    (hcue : PROMOTION_CUES.contains cue = true) :
    ((∀ u ∈ pre, isPromoTarget u = false) → isPromoTarget t = true →
      (mapTokens (cue :: (pre ++ t :: post)) rules).1 =
        ("=" ++ pyUpper (promoLetterOf t)) ::
          (mapTokens post (rules ++ ["promotion to " ++ pyUpper (promoLetterOf t)])).1) ∧
    ((∀ u ∈ l, isPromoTarget u = false) →
      (mapTokens (cue :: l) rules).1 =
        "=" :: (mapTokens l (rules ++ ["promotion cue without piece"])).1) :=
  ⟨fun hpre ht => mapTokens_cue_found cue pre t post rules hcue hpre ht,
   fun hl => mapTokens_cue_none cue l rules hcue hl⟩

/-- Witness for the amended C7 at concrete inputs: scanning over the
non-filler "e4" finds "queen" (so "=Q" is emitted and "e4" is discarded),
and a scan over only non-piece words emits a bare "=". -/
theorem claim_C7_promotion_cue_witness :
    (mapTokens ["promote", "e4", "queen"] []).1 =
      ("=" ++ pyUpper (promoLetterOf "queen")) ::
        (mapTokens [] (["promotion to " ++ pyUpper (promoLetterOf "queen")])).1 ∧
    (mapTokens ["promote", "e4"] []).1 =
      "=" :: (mapTokens ["e4"] (["promotion cue without piece"])).1 := by
  constructor
  · have := (claim_C7_promotion_cue "promote" ["e4"] "queen" [] [] []
      (by decide)).1 (by decide) (by decide)
    simpa using this
  · have := (claim_C7_promotion_cue "promote" [] "" [] ["e4"] []
      (by decide)).2 (by decide)
    simpa using this

/-! # The side-compound rule and the merge passes (claim C4) -/

theorem combine_side_compound (w : String) (l : List String)
    (hw : w = "kingside" ∨ w = "queenside") :
    combineLetterDigit (w :: l) = w :: combineLetterDigit l := by
  rcases hw with rfl | rfl <;> rfl

theorem merge_side_compound (w : String) (l : List String)
    (hw : w = "kingside" ∨ w = "queenside") :
    mergeSquareTokens (w :: l) = w :: mergeSquareTokens l := by
  rcases hw with rfl | rfl <;> rfl

theorem mapTokens_side_step (t s : String) (l : List String) (rules : List String)
    (ht : t = "king" ∨ t = "queen") (hs : SIDE_VARIANTS.contains s = true) :
    (mapTokens (t :: s :: l) rules).1 =
      (t ++ "side") :: (mapTokens l (rules ++ [t ++ " side collapsed"])).1 := by
  rcases ht with rfl | rfl <;>
  · conv_lhs => rw [mapTokens]
    simp only [mapTokensF]
    rw [if_neg (by decide), if_neg (by decide), if_neg (by decide), if_neg (by decide),
      if_neg (by simp),
      if_pos (by simp [optContains]; exact List.mem_of_elem_eq_true hs)]
    dsimp only [List.tail_cons]
    rw [mapTokensF_eq_wrapper _ _ _ (by simp; omega)]

/-- Counterexample to claim C4 as stated: with tokens ["queen", "side"] the
side-compound rule fires and emits the single token "queenside", but no
later pass maps that emitted compound token to a castle glyph: after mapping
and both merge passes the token sequence is ["queenside"], which contains
neither "O-O-O" nor "O-O". -/
theorem claim_C4_counterexample :
    (mapTokens ["queen", "side"] []).1 = ["queenside"] ∧
    mergeSquareTokens (combineLetterDigit (mapTokens ["queen", "side"] []).1) =
      ["queenside"] ∧
    "O-O-O" ∉ mergeSquareTokens (combineLetterDigit (mapTokens ["queen", "side"] []).1) ∧
    "O-O" ∉ mergeSquareTokens (combineLetterDigit (mapTokens ["queen", "side"] []).1) := by
  decide

/-- Claim C4 (amended): whenever a token in {"king","queen"} is immediately
followed by a token in the side-like set, both tokens are consumed and the
single compound token "kingside"/"queenside" is emitted; the two merge
passes leave the emitted compound unchanged, so after mapping and merging
the token sequence contains "kingside"/"queenside" in its place — not a
castle glyph.  (The kingside→"O-O" / queenside→"O-O-O" mapping rule of the
token mapper applies only to compound tokens already present in the input
stream, never to tokens emitted by the side-compound rule.) -/
theorem claim_C4_side_compound (t s : String) (l : List String) (rules : List String)
    (ht : t = "king" ∨ t = "queen") (hs : SIDE_VARIANTS.contains s = true) :
    ((mapTokens (t :: s :: l) rules).1 =
      (t ++ "side") :: (mapTokens l (rules ++ [t ++ " side collapsed"])).1) ∧
    (∀ m : List String,
      combineLetterDigit ((t ++ "side") :: m) = (t ++ "side") :: combineLetterDigit m) ∧
    (∀ m : List String,
      mergeSquareTokens ((t ++ "side") :: m) = (t ++ "side") :: mergeSquareTokens m) := by
  refine ⟨mapTokens_side_step t s l rules ht hs, ?_, ?_⟩
  · intro m
    apply combine_side_compound
    rcases ht with rfl | rfl
    · left; rfl
    · right; rfl
  · intro m
    apply merge_side_compound
    rcases ht with rfl | rfl
    · left; rfl
    · right; rfl

/-- Witness for the amended C4 at concrete input ["queen", "side", "takes"]. -/
theorem claim_C4_side_compound_witness :
    (mapTokens ["queen", "side", "takes"] []).1 =
      ("queen" ++ "side") :: (mapTokens ["takes"] (["queen side collapsed"])).1 ∧
    combineLetterDigit (("queen" ++ "side") :: ["x"]) =
      ("queen" ++ "side") :: combineLetterDigit ["x"] ∧
    mergeSquareTokens (("queen" ++ "side") :: ["x"]) =
      ("queen" ++ "side") :: mergeSquareTokens ["x"] := by
  have h := claim_C4_side_compound "queen" "side" ["takes"] []
    (Or.inr rfl) (by decide)
  exact ⟨by simpa using h.1, h.2.1 ["x"], h.2.2 ["x"]⟩

/-! # Fixed points of the first merge pass (claim C3) -/

theorem combineF_nil (f : Nat) : combineLetterDigitF f [] = [] := by
  cases f <;> rfl

theorem letters_cases (t : String) (h : inValues LETTER_WORDS t = true) :
    t = "a" ∨ t = "b" ∨ t = "c" ∨ t = "d" ∨ t = "e" ∨ t = "f" ∨ t = "g" ∨ t = "h" := by
  have hm := List.mem_of_elem_eq_true h
  simp only [LETTER_WORDS, List.map_cons, List.map_nil, List.mem_cons,
    List.not_mem_nil, or_false] at hm
  tauto

theorem digits_cases (t : String) (h : inValues NUMBER_WORDS t = true) :
    t = "0" ∨ t = "1" ∨ t = "2" ∨ t = "3" ∨ t = "4" ∨ t = "5" ∨ t = "6" ∨ t = "7" ∨
      t = "8" := by
  have hm := List.mem_of_elem_eq_true h
  simp only [NUMBER_WORDS, List.map_cons, List.map_nil, List.mem_cons,
    List.not_mem_nil, or_false] at hm
  tauto

/-- A sequence on which no rule fires is a fixed point of the first pass. -/
theorem noFire1_fixed : ∀ (l : List String) (fuel : Nat), l.length < fuel → noFire1 l →
    combineLetterDigitF fuel l = l := by
  intro l
  induction l with
  | nil => intro fuel _ _; exact combineF_nil fuel
  | cons t rest ih =>
    intro fuel hlen hnf
    cases fuel with
    | zero => omega
    | succ f =>
      obtain ⟨h1, h2, h3, h4, h5, h6, hrest⟩ := hnf
      have hlenr : rest.length < f := by
        simp only [List.length_cons] at hlen
        omega
      simp only [combineLetterDigitF]
      rw [if_neg (by simp [h1, h2]), if_neg (by simp [h3, h4])]
      by_cases ho : (t = "o" || t = "0") = true
      · rw [if_pos ho]
        have hho : rest.head? ≠ some "o" := h5 (by simpa using ho)
        cases rest with
        | nil =>
          show t :: combineLetterDigitF f [] = [t]
          rw [combineF_nil]
        | cons r1 rest' =>
          have hr1 : r1 ≠ "o" := fun h => hho (by rw [h]; rfl)
          split
          · rename_i rest2 heq
            exfalso
            injection heq with ha _
            exact hr1 ha
          · rename_i rest2 heq
            exfalso
            injection heq with ha _
            exact hr1 ha
          · exact congrArg (List.cons t) (ih f hlenr hrest)
      · rw [if_neg ho]
        by_cases hl : inValues LETTER_WORDS t = true
        · rw [if_pos hl]
          cases rest with
          | nil => rfl
          | cons d rest' =>
            have hd := h6 hl d rfl
            show (if inValues NUMBER_WORDS d = true then
                (t ++ d) :: combineLetterDigitF f rest'
              else t :: combineLetterDigitF f (d :: rest')) = t :: d :: rest'
            rw [if_neg (by simp [hd])]
            exact congrArg (List.cons t) (ih f hlenr hrest)
        · rw [if_neg hl]
          exact congrArg (List.cons t) (ih f hlenr hrest)

/-- Inversion on the head of the first pass's output: an `o`-token or a digit
token at the head can only be a passed-through input head. -/
theorem combineF_head_inv (l : List String) (fuel : Nat) (x : String) (m : List String)
    (h1 : "" ∉ l) (h2 : " " ∉ l)
    (heq : combineLetterDigitF fuel l = x :: m) :
    (x = "o" → l.head? = some "o") ∧
    (inValues NUMBER_WORDS x = true → l.head? = some x) := by
  cases fuel with
  | zero => exact absurd heq (by simp [combineLetterDigitF])
  | succ f =>
    cases l with
    | nil => exact absurd heq (by simp [combineLetterDigitF])
    | cons t rest =>
      have ht1 : t ≠ "" := fun h => h1 (h ▸ List.mem_cons_self _ _)
      have ht2 : t ≠ " " := fun h => h2 (h ▸ List.mem_cons_self _ _)
      simp only [combineLetterDigitF] at heq
      rw [if_neg (by simp [ht1, ht2])] at heq
      by_cases hg : (t = "o-o" || t = "o-o-o") = true
      · rw [if_pos hg] at heq
        obtain ⟨hx, -⟩ := List.cons.inj heq
        rcases (by simpa using hg : t = "o-o" ∨ t = "o-o-o") with rfl | rfl
        · constructor
          · intro hc; rw [← hx] at hc; exact absurd hc (by decide)
          · intro hc; rw [← hx] at hc; exact absurd hc (by decide)
        · constructor
          · intro hc; rw [← hx] at hc; exact absurd hc (by decide)
          · intro hc; rw [← hx] at hc; exact absurd hc (by decide)
      · rw [if_neg hg] at heq
        by_cases ho : (t = "o" || t = "0") = true
        · rw [if_pos ho] at heq
          split at heq
          · obtain ⟨hx, -⟩ := List.cons.inj heq
            constructor
            · intro hc; rw [← hx] at hc; exact absurd hc (by decide)
            · intro hc; rw [← hx] at hc; exact absurd hc (by decide)
          · obtain ⟨hx, -⟩ := List.cons.inj heq
            constructor
            · intro hc; rw [← hx] at hc; exact absurd hc (by decide)
            · intro hc; rw [← hx] at hc; exact absurd hc (by decide)
          · obtain ⟨hx, -⟩ := List.cons.inj heq
            constructor
            · intro hc; rw [List.head?_cons, hx, hc]
            · intro _; rw [List.head?_cons, hx]
        · rw [if_neg ho] at heq
          by_cases hl : inValues LETTER_WORDS t = true
          · rw [if_pos hl] at heq
            cases rest with
            | nil =>
              obtain ⟨hx, -⟩ := List.cons.inj heq
              constructor
              · intro hc; rw [List.head?_cons, hx, hc]
              · intro _; rw [List.head?_cons, hx]
            | cons d rest' =>
              change (if inValues NUMBER_WORDS d = true then
                  (t ++ d) :: combineLetterDigitF f rest'
                else t :: combineLetterDigitF f (d :: rest')) = x :: m at heq
              by_cases hd : inValues NUMBER_WORDS d = true
              · rw [if_pos hd] at heq
                obtain ⟨hx, -⟩ := List.cons.inj heq
                constructor
                · intro hc
                  exfalso
                  rw [← hx] at hc
                  rcases letters_cases t hl with rfl | rfl | rfl | rfl | rfl | rfl | rfl |
                    rfl <;>
                    rcases digits_cases d hd with rfl | rfl | rfl | rfl | rfl | rfl | rfl |
                      rfl | rfl <;>
                    exact absurd hc (by decide)
                · intro hc
                  exfalso
                  rw [← hx] at hc
                  rcases letters_cases t hl with rfl | rfl | rfl | rfl | rfl | rfl | rfl |
                    rfl <;>
                    rcases digits_cases d hd with rfl | rfl | rfl | rfl | rfl | rfl | rfl |
                      rfl | rfl <;>
                    exact absurd hc (by decide)
              · rw [if_neg hd] at heq
                obtain ⟨hx, -⟩ := List.cons.inj heq
                constructor
                · intro hc; rw [List.head?_cons, hx, hc]
                · intro _; rw [List.head?_cons, hx]
          · rw [if_neg hl] at heq
            obtain ⟨hx, -⟩ := List.cons.inj heq
            constructor
            · intro hc; rw [List.head?_cons, hx, hc]
            · intro _; rw [List.head?_cons, hx]

/-- On sequences without `""`/`" "` tokens, the first pass's output admits no
further rule firing. -/
theorem combineF_noFire : ∀ (fuel : Nat) (l : List String), "" ∉ l → " " ∉ l →
    l.length < fuel → noFire1 (combineLetterDigitF fuel l) := by
  intro fuel
  induction fuel with
  | zero => intro l _ _ h; omega
  | succ f ih =>
    intro l h1 h2 hlen
    cases l with
    | nil =>
      show noFire1 []
      trivial
    | cons t rest =>
      have ht1 : t ≠ "" := fun h => h1 (h ▸ List.mem_cons_self _ _)
      have ht2 : t ≠ " " := fun h => h2 (h ▸ List.mem_cons_self _ _)
      have hr1 : "" ∉ rest := fun h => h1 (List.mem_cons_of_mem _ h)
      have hr2 : " " ∉ rest := fun h => h2 (List.mem_cons_of_mem _ h)
      have hlr : rest.length < f := by
        simp only [List.length_cons] at hlen
        omega
      simp only [combineLetterDigitF]
      rw [if_neg (by simp [ht1, ht2])]
      by_cases hg : (t = "o-o" || t = "o-o-o") = true
      · rw [if_pos hg]
        rcases (by simpa using hg : t = "o-o" ∨ t = "o-o-o") with rfl | rfl <;>
          exact ⟨by decide, by decide, by decide, by decide,
            fun hc => absurd hc (by decide), fun hlv => absurd hlv (by decide),
            ih rest hr1 hr2 hlr⟩
      · rw [if_neg hg]
        by_cases ho : (t = "o" || t = "0") = true
        · rw [if_pos ho]
          cases rest with
          | nil =>
            show noFire1 (t :: combineLetterDigitF f [])
            rw [combineF_nil]
            rcases (by simpa using ho : t = "o" ∨ t = "0") with rfl | rfl <;>
              exact ⟨by decide, by decide, by decide, by decide, fun _ => by simp,
                fun hlv => absurd hlv (by decide), trivial⟩
          | cons r1 rest' =>
            split
            · rename_i rest2 heq
              injection heq with ha hb
              subst ha
              subst hb
              have hrr1 : "" ∉ rest2 := fun h =>
                hr1 (List.mem_cons_of_mem _ (List.mem_cons_of_mem _ h))
              have hrr2 : " " ∉ rest2 := fun h =>
                hr2 (List.mem_cons_of_mem _ (List.mem_cons_of_mem _ h))
              have hlr2 : rest2.length < f := by
                simp only [List.length_cons] at hlr
                omega
              exact ⟨by decide, by decide, by decide, by decide,
                fun hc => absurd hc (by decide), fun hlv => absurd hlv (by decide),
                ih rest2 hrr1 hrr2 hlr2⟩
            · rename_i rest2 heq
              injection heq with ha hb
              subst ha
              rw [← hb]
              have hrr1 : "" ∉ rest' := fun h => hr1 (List.mem_cons_of_mem _ h)
              have hrr2 : " " ∉ rest' := fun h => hr2 (List.mem_cons_of_mem _ h)
              have hlr2 : rest'.length < f := by
                simp only [List.length_cons] at hlr
                omega
              exact ⟨by decide, by decide, by decide, by decide,
                fun hc => absurd hc (by decide), fun hlv => absurd hlv (by decide),
                ih rest' hrr1 hrr2 hlr2⟩
            · rename_i hne1 hne2
              have hr1o : r1 ≠ "o" := by
                intro habs
                subst habs
                exact hne2 rest' rfl
              refine ⟨?_, ?_, ?_, ?_, ?_, ?_, ih (r1 :: rest') hr1 hr2 hlr⟩
              · rcases (by simpa using ho : t = "o" ∨ t = "0") with rfl | rfl <;> decide
              · rcases (by simpa using ho : t = "o" ∨ t = "0") with rfl | rfl <;> decide
              · rcases (by simpa using ho : t = "o" ∨ t = "0") with rfl | rfl <;> decide
              · rcases (by simpa using ho : t = "o" ∨ t = "0") with rfl | rfl <;> decide
              · intro _ habs
                cases hC : combineLetterDigitF f (r1 :: rest') with
                | nil => rw [hC] at habs; exact absurd habs (by simp)
                | cons x xs =>
                  rw [hC] at habs
                  have hx : x = "o" := by simpa using habs
                  subst hx
                  have hinv := (combineF_head_inv (r1 :: rest') f "o" xs hr1 hr2 hC).1 rfl
                  have : r1 = "o" := by simpa using hinv
                  exact hr1o this
              · intro hlv
                rcases (by simpa using ho : t = "o" ∨ t = "0") with rfl | rfl <;>
                  exact absurd hlv (by decide)
        · rw [if_neg ho]
          by_cases hl : inValues LETTER_WORDS t = true
          · rw [if_pos hl]
            cases rest with
            | nil =>
              rcases letters_cases t hl with rfl | rfl | rfl | rfl | rfl | rfl | rfl |
                rfl <;>
                exact ⟨by decide, by decide, by decide, by decide,
                  fun hc => absurd hc (by decide), fun _ => by simp, trivial⟩
            | cons d rest' =>
              show noFire1 (if inValues NUMBER_WORDS d = true then
                  (t ++ d) :: combineLetterDigitF f rest'
                else t :: combineLetterDigitF f (d :: rest'))
              by_cases hd : inValues NUMBER_WORDS d = true
              · rw [if_pos hd]
                have hrr1 : "" ∉ rest' := fun h => hr1 (List.mem_cons_of_mem _ h)
                have hrr2 : " " ∉ rest' := fun h => hr2 (List.mem_cons_of_mem _ h)
                have hlr2 : rest'.length < f := by
                  simp only [List.length_cons] at hlr
                  omega
                rcases letters_cases t hl with rfl | rfl | rfl | rfl | rfl | rfl | rfl |
                  rfl <;>
                  rcases digits_cases d hd with rfl | rfl | rfl | rfl | rfl | rfl | rfl |
                    rfl | rfl <;>
                  exact ⟨by decide, by decide, by decide, by decide,
                    fun hc => absurd hc (by decide), fun hlv => absurd hlv (by decide),
                    ih rest' hrr1 hrr2 hlr2⟩
              · rw [if_neg hd]
                refine ⟨ht1, ht2, ?_, ?_, ?_, ?_, ih (d :: rest') hr1 hr2 hlr⟩
                · rcases letters_cases t hl with rfl | rfl | rfl | rfl | rfl | rfl | rfl |
                    rfl <;> decide
                · rcases letters_cases t hl with rfl | rfl | rfl | rfl | rfl | rfl | rfl |
                    rfl <;> decide
                · intro hc
                  rcases letters_cases t hl with rfl | rfl | rfl | rfl | rfl | rfl | rfl |
                    rfl <;> exact absurd hc (by decide)
                · intro _ d' hd'
                  cases hdig : inValues NUMBER_WORDS d' with
                  | false => rfl
                  | true =>
                    exfalso
                    cases hC : combineLetterDigitF f (d :: rest') with
                    | nil => rw [hC] at hd'; exact absurd hd' (by simp)
                    | cons x xs =>
                      rw [hC] at hd'
                      have hx : x = d' := by simpa using hd'
                      subst hx
                      have hinv := (combineF_head_inv (d :: rest') f x xs hr1 hr2 hC).2 hdig
                      have hdx : d = x := by simpa using hinv
                      subst hdx
                      exact absurd hdig hd
          · rw [if_neg hl]
            refine ⟨ht1, ht2, ?_, ?_, ?_, ?_, ih rest hr1 hr2 hlr⟩
            · intro habs
              apply hg
              simp [habs]
            · intro habs
              apply hg
              simp [habs]
            · intro habs
              exfalso
              apply ho
              rcases habs with rfl | rfl <;> simp
            · intro habs
              exact absurd habs hl

/-! # Fixed points of the second merge pass (claim C3) -/

theorem mergeF_nil (f : Nat) : mergeSquareTokensF f [] = [] := by
  cases f <;> rfl

theorem pieceMatch_cases (t : String) (h : pieceMatch t = true) :
    t = "n" ∨ t = "b" ∨ t = "r" ∨ t = "q" ∨ t = "k" := by
  obtain ⟨data⟩ := t
  cases data with
  | nil => exact absurd h (by decide)
  | cons c cs =>
    cases cs with
    | nil =>
      have h2 : (decide (c = Char.ofNat 110) || decide (c = Char.ofNat 98) ||
          decide (c = Char.ofNat 114) || decide (c = Char.ofNat 113) ||
          decide (c = Char.ofNat 107)) = true := h
      have hc : c = Char.ofNat 110 ∨ c = Char.ofNat 98 ∨ c = Char.ofNat 114 ∨
          c = Char.ofNat 113 ∨ c = Char.ofNat 107 := by
        have h3 := h2
        simp only [Bool.or_eq_true, decide_eq_true_eq] at h3
        tauto
      rcases hc with rfl | rfl | rfl | rfl | rfl
      · exact Or.inl (by decide)
      · exact Or.inr (Or.inl (by decide))
      · exact Or.inr (Or.inr (Or.inl (by decide)))
      · exact Or.inr (Or.inr (Or.inr (Or.inl (by decide))))
      · exact Or.inr (Or.inr (Or.inr (Or.inr (by decide))))
    | cons c2 cs2 =>
      have h2 : (false : Bool) = true := h
      exact absurd h2 (by decide)

theorem pieceMatch_eq_false_of_len (s : String) (h : s.data.length ≠ 1) :
    pieceMatch s = false := by
  obtain ⟨data⟩ := s
  cases data with
  | nil => rfl
  | cons c cs =>
    cases cs with
    | nil => exact absurd (by simp) h
    | cons c2 cs2 => rfl

theorem listIsStart_mem : ∀ (n h : List Char), listIsStart n h = true → ∀ c ∈ n, c ∈ h := by
  intro n
  induction n with
  | nil => intro h _ c hc; exact absurd hc (by simp)
  | cons a as ih =>
    intro h hs c hc
    cases h with
    | nil => exact absurd hs (by simp [listIsStart])
    | cons b bs =>
      simp only [listIsStart, Bool.and_eq_true, decide_eq_true_eq] at hs
      obtain ⟨hab, hrest⟩ := hs
      rcases List.mem_cons.mp hc with rfl | hc2
      · rw [hab]
        exact List.mem_cons_self _ _
      · exact List.mem_cons_of_mem _ (ih bs hrest c hc2)

theorem listIsSub_mem : ∀ (h n : List Char), listIsSub n h = true → ∀ c ∈ n, c ∈ h := by
  intro h
  induction h with
  | nil =>
    intro n hs c hc
    cases n with
    | nil => exact absurd hc (by simp)
    | cons a as => exact absurd hs (by simp [listIsSub, listIsStart])
  | cons b bs ih =>
    intro n hs c hc
    have hs2 : (listIsStart n (b :: bs) || listIsSub n bs) = true := hs
    cases hA : listIsStart n (b :: bs) with
    | true => exact listIsStart_mem n (b :: bs) hA c hc
    | false =>
      rw [hA] at hs2
      simp only [Bool.false_or] at hs2
      exact List.mem_cons_of_mem _ (ih n hs2 c hc)

/-- A sequence on which no rule fires is a fixed point of the second pass. -/
theorem noFire2_fixed : ∀ (l : List String) (fuel : Nat), l.length < fuel → noFire2 l →
    mergeSquareTokensF fuel l = l := by
  intro l
  induction l with
  | nil => intro fuel _ _; exact mergeF_nil fuel
  | cons t rest ih =>
    intro fuel hlen hnf
    cases fuel with
    | zero => omega
    | succ f =>
      obtain ⟨h1, h2, hrest⟩ := hnf
      have hlenr : rest.length < f := by
        simp only [List.length_cons] at hlen
        omega
      simp only [mergeSquareTokensF]
      rw [if_neg (by simp [h1])]
      by_cases hl : inValues LETTER_WORDS t = true
      · rw [if_pos hl]
        cases rest with
        | nil => rfl
        | cons d rest' =>
          have hd := h2 hl d rfl
          show (if strIsSub d "12345678" = true then
              (t ++ d) :: mergeSquareTokensF f rest'
            else t :: mergeSquareTokensF f (d :: rest')) = t :: d :: rest'
          rw [if_neg (by simp [hd])]
          exact congrArg (List.cons t) (ih f hlenr hrest)
      · rw [if_neg hl]
        exact congrArg (List.cons t) (ih f hlenr hrest)

/-- Inversion on the head of the second pass's output: a head that is a
substring of `"12345678"` can only be a passed-through input head. -/
theorem mergeF_head_inv (l : List String) (fuel : Nat) (x : String) (m : List String)
    (heq : mergeSquareTokensF fuel l = x :: m)
    (hx : strIsSub x "12345678" = true) :
    l.head? = some x := by
  cases fuel with
  | zero => exact absurd heq (by simp [mergeSquareTokensF])
  | succ f =>
    cases l with
    | nil => exact absurd heq (by simp [mergeSquareTokensF])
    | cons t rest =>
      simp only [mergeSquareTokensF] at heq
      by_cases hp : pieceMatch t = true
      · rw [if_pos hp] at heq
        obtain ⟨hhead, -⟩ := List.cons.inj heq
        exfalso
        rw [← hhead] at hx
        rcases pieceMatch_cases t hp with rfl | rfl | rfl | rfl | rfl <;>
          exact absurd hx (by decide)
      · rw [if_neg hp] at heq
        by_cases hl : inValues LETTER_WORDS t = true
        · rw [if_pos hl] at heq
          cases rest with
          | nil =>
            obtain ⟨hhead, -⟩ := List.cons.inj heq
            rw [List.head?_cons, hhead]
          | cons d rest' =>
            change (if strIsSub d "12345678" = true then
                (t ++ d) :: mergeSquareTokensF f rest'
              else t :: mergeSquareTokensF f (d :: rest')) = x :: m at heq
            by_cases hd : strIsSub d "12345678" = true
            · rw [if_pos hd] at heq
              obtain ⟨hhead, -⟩ := List.cons.inj heq
              exfalso
              rw [← hhead] at hx
              rcases letters_cases t hl with rfl | rfl | rfl | rfl | rfl | rfl | rfl | rfl
              · exact absurd (listIsSub_mem _ _ hx (Char.ofNat 97)
                  (by simp [String.data_append])) (by decide)
              · exact absurd (listIsSub_mem _ _ hx (Char.ofNat 98)
                  (by simp [String.data_append])) (by decide)
              · exact absurd (listIsSub_mem _ _ hx (Char.ofNat 99)
                  (by simp [String.data_append])) (by decide)
              · exact absurd (listIsSub_mem _ _ hx (Char.ofNat 100)
                  (by simp [String.data_append])) (by decide)
              · exact absurd (listIsSub_mem _ _ hx (Char.ofNat 101)
                  (by simp [String.data_append])) (by decide)
              · exact absurd (listIsSub_mem _ _ hx (Char.ofNat 102)
                  (by simp [String.data_append])) (by decide)
              · exact absurd (listIsSub_mem _ _ hx (Char.ofNat 103)
                  (by simp [String.data_append])) (by decide)
              · exact absurd (listIsSub_mem _ _ hx (Char.ofNat 104)
                  (by simp [String.data_append])) (by decide)
            · rw [if_neg hd] at heq
              obtain ⟨hhead, -⟩ := List.cons.inj heq
              rw [List.head?_cons, hhead]
        · rw [if_neg hl] at heq
          obtain ⟨hhead, -⟩ := List.cons.inj heq
          rw [List.head?_cons, hhead]

/-- On sequences without `""` tokens, the second pass's output admits no
further rule firing. -/
theorem mergeF_noFire : ∀ (fuel : Nat) (l : List String), "" ∉ l →
    l.length < fuel → noFire2 (mergeSquareTokensF fuel l) := by
  intro fuel
  induction fuel with
  | zero => intro l _ h; omega
  | succ f ih =>
    intro l h1 hlen
    cases l with
    | nil =>
      show noFire2 []
      trivial
    | cons t rest =>
      have hr1 : "" ∉ rest := fun h => h1 (List.mem_cons_of_mem _ h)
      have hlr : rest.length < f := by
        simp only [List.length_cons] at hlen
        omega
      simp only [mergeSquareTokensF]
      by_cases hp : pieceMatch t = true
      · rw [if_pos hp]
        refine ⟨?_, ?_, ih rest hr1 hlr⟩
        · rcases pieceMatch_cases t hp with rfl | rfl | rfl | rfl | rfl <;> decide
        · intro hlv
          exfalso
          rcases pieceMatch_cases t hp with rfl | rfl | rfl | rfl | rfl <;>
            exact absurd hlv (by decide)
      · rw [if_neg hp]
        by_cases hl : inValues LETTER_WORDS t = true
        · rw [if_pos hl]
          cases rest with
          | nil =>
            show noFire2 [t]
            refine ⟨by simpa using hp, ?_, trivial⟩
            intro _ d hd
            exact absurd hd (by simp)
          | cons d rest' =>
            show noFire2 (if strIsSub d "12345678" = true then
                (t ++ d) :: mergeSquareTokensF f rest'
              else t :: mergeSquareTokensF f (d :: rest'))
            have hrr1 : "" ∉ rest' := fun h => hr1 (List.mem_cons_of_mem _ h)
            have hd1 : d ≠ "" := fun h => hr1 (h ▸ List.mem_cons_self _ _)
            have hdlen : d.data.length ≠ 0 := by
              intro h0
              exact hd1 (String.ext (by rw [List.length_eq_zero.mp h0]))
            have ht_len : t.data.length = 1 := by
              rcases letters_cases t hl with rfl | rfl | rfl | rfl | rfl | rfl | rfl |
                rfl <;> decide
            have hlr2 : rest'.length < f := by
              simp only [List.length_cons] at hlr
              omega
            by_cases hd : strIsSub d "12345678" = true
            · rw [if_pos hd]
              refine ⟨?_, ?_, ih rest' hrr1 hlr2⟩
              · apply pieceMatch_eq_false_of_len
                rw [String.data_append, List.length_append]
                omega
              · intro hlv
                exfalso
                rcases letters_cases (t ++ d) hlv with h8 | h8 | h8 | h8 | h8 | h8 | h8 |
                  h8 <;>
                  (have hL : (t ++ d).data.length = 1 := by rw [h8]; decide
                   rw [String.data_append, List.length_append] at hL
                   omega)
            · rw [if_neg hd]
              refine ⟨by simpa using hp, ?_, ih (d :: rest') hr1 hlr⟩
              intro _ dd hdd
              cases hdig : strIsSub dd "12345678" with
              | false => rfl
              | true =>
                exfalso
                cases hC : mergeSquareTokensF f (d :: rest') with
                | nil => rw [hC] at hdd; exact absurd hdd (by simp)
                | cons x xs =>
                  rw [hC] at hdd
                  have hx : x = dd := by simpa using hdd
                  subst hx
                  have hinv := mergeF_head_inv (d :: rest') f x xs hC hdig
                  have hdx : d = x := by simpa using hinv
                  subst hdx
                  exact absurd hdig hd
        · rw [if_neg hl]
          refine ⟨by simpa using hp, ?_, ih rest hr1 hlr⟩
          intro hlv
          exact absurd hlv hl

/-- Claim C3, counterexample: neither merge pass is idempotent on arbitrary
token sequences.  The first pass applied to `["o", "", "o"]` drops the empty
token and leaves `["o", "o"]`, which a second run fuses into `["O-O"]`; the
second pass applied to `["a", "", "1"]` fuses `"a"` with the empty token
(every empty string is a substring of `"12345678"`), leaving `["a", "1"]`,
which a second run fuses into `["a1"]`. -/
theorem claim_C3_counterexample :
    combineLetterDigit (combineLetterDigit ["o", "", "o"]) ≠
      combineLetterDigit ["o", "", "o"] ∧
    mergeSquareTokens (mergeSquareTokens ["a", "", "1"]) ≠
      mergeSquareTokens ["a", "", "1"] := by
  decide

/-- Claim C3, amended: each merge pass is idempotent on every token sequence
that contains no `""` token (and, for the first pass, no `" "` token): one
application reaches a fixed point of that pass.  The token streams produced
by `_tokenize` never contain such tokens, so the passes are idempotent on
all pipeline-reachable inputs; on arbitrary sequences idempotence fails
(`claim_C3_counterexample`). -/
theorem claim_C3_merge_idempotent :
    (∀ ts : List String, "" ∉ ts → " " ∉ ts →
      combineLetterDigit (combineLetterDigit ts) = combineLetterDigit ts) ∧
    (∀ ts : List String, "" ∉ ts →
      mergeSquareTokens (mergeSquareTokens ts) = mergeSquareTokens ts) := by
  constructor
  · intro ts h1 h2
    have hnf : noFire1 (combineLetterDigit ts) :=
      combineF_noFire (ts.length + 1) ts h1 h2 (Nat.lt_succ_self _)
    exact noFire1_fixed (combineLetterDigit ts) ((combineLetterDigit ts).length + 1)
      (Nat.lt_succ_self _) hnf
  · intro ts h1
    have hnf : noFire2 (mergeSquareTokens ts) :=
      mergeF_noFire (ts.length + 1) ts h1 (Nat.lt_succ_self _)
    exact noFire2_fixed (mergeSquareTokens ts) ((mergeSquareTokens ts).length + 1)
      (Nat.lt_succ_self _) hnf

theorem claim_C3_merge_idempotent_witness :
    combineLetterDigit (combineLetterDigit ["o", "o", "o"]) =
      combineLetterDigit ["o", "o", "o"] ∧
    mergeSquareTokens (mergeSquareTokens ["n", "f", "6"]) =
      mergeSquareTokens ["n", "f", "6"] :=
  ⟨claim_C3_merge_idempotent.1 ["o", "o", "o"] (by decide) (by decide),
   claim_C3_merge_idempotent.2 ["n", "f", "6"] (by decide)⟩

/-! # The promotion splice of the candidate generator (claim C8) -/

theorem take_pos_singleton (n : Nat) (p : String) (h : 0 < n) : List.take n [p] = [p] := by
  cases n with
  | zero => omega
  | succ m => simp

theorem drop_pos_singleton (n : Nat) (p : String) (h : 0 < n) : List.drop n [p] = [] := by
  cases n with
  | zero => omega
  | succ m => simp

/-- Inserting at position `q` splits the list exactly there. -/
theorem insert_step (l : List String) (q : Nat) (p : String) :
    (pyInsertIdx l q p).take (q + 1) = l.take q ++ [p] ∧
    (pyInsertIdx l q p).drop (q + 1) = l.drop q := by
  unfold pyInsertIdx
  constructor
  · rw [List.take_append_eq_append_take]
    rw [List.take_of_length_le (by rw [List.length_take]; omega)]
    rcases Nat.lt_or_ge l.length q with hlen | hlen
    · have hA : (l.take q).length = l.length := by rw [List.length_take]; omega
      have hB : l.drop q = [] := List.drop_eq_nil_of_le (by omega)
      have hC : l.take q = l := List.take_of_length_le (by omega)
      rw [hB, hA, hC, take_pos_singleton _ _ (by omega)]
    · have hA : (l.take q).length = q := by rw [List.length_take]; omega
      rw [hA, show q + 1 - q = 1 from by omega]
      rfl
  · rw [List.drop_append_eq_append_drop]
    rw [List.drop_eq_nil_of_le (le_trans (by rw [List.length_take]; omega)
      (Nat.le_succ q))]
    simp only [List.nil_append]
    rcases Nat.lt_or_ge l.length q with hlen | hlen
    · have hA : (l.take q).length = l.length := by rw [List.length_take]; omega
      have hB : l.drop q = [] := List.drop_eq_nil_of_le (by omega)
      rw [hB, hA, drop_pos_singleton _ _ (by omega)]
    · have hA : (l.take q).length = q := by rw [List.length_take]; omega
      rw [hA, show q + 1 - q = 1 from by omega]
      rfl

/-- The insertion loop of lines 480-482 places the promotion tokens, in
order, right after position `k`. -/
theorem splice_foldl (promos : List String) :
    ∀ (l : List String) (k : Nat),
      (promos.foldl
        (fun (st : List String × Nat) p => (pyInsertIdx st.1 (st.2 + 1) p, st.2 + 1))
        (l, k)).1 = l.take (k + 1) ++ promos ++ l.drop (k + 1) := by
  induction promos with
  | nil => intro l k; simp [List.take_append_drop]
  | cons p ps ih =>
    intro l k
    rw [List.foldl_cons]
    rw [ih (pyInsertIdx l (k + 1) p) (k + 1)]
    obtain ⟨h1, h2⟩ := insert_step l (k + 1) p
    rw [h1, h2]
    simp [List.append_assoc]

theorem splicePromos_eq_of_some (np promos : List String) (k : Nat)
    (h : lastSquareIdx np = some k) :
    splicePromos np promos = np.take (k + 1) ++ promos ++ np.drop (k + 1) := by
  unfold splicePromos
  rw [h]
  exact splice_foldl promos np k

theorem splicePromos_eq_of_none (np promos : List String)
    (h : lastSquareIdx np = none) : splicePromos np promos = np ++ promos := by
  unfold splicePromos
  rw [h]

theorem enumFold_none : ∀ (l : List String) (i : Nat) (acc : Option Nat),
    ((l.enumFrom i).foldl (fun acc p => if squareMatch p.2 then some p.1 else acc) acc)
      = none →
    acc = none ∧ ∀ t ∈ l, squareMatch t = false := by
  intro l
  induction l with
  | nil => intro i acc h; exact ⟨h, by simp⟩
  | cons t r ih =>
    intro i acc h
    rw [show (t :: r).enumFrom i = (i, t) :: r.enumFrom (i + 1) from rfl,
      List.foldl_cons] at h
    obtain ⟨hacc, hr⟩ := ih (i + 1) _ h
    by_cases hs : squareMatch t = true
    · rw [if_pos hs] at hacc
      exact absurd hacc (by simp)
    · rw [if_neg hs] at hacc
      refine ⟨hacc, ?_⟩
      intro u hu
      rcases List.mem_cons.mp hu with rfl | hu2
      · simpa using hs
      · exact hr u hu2

/-- The enumerate-and-overwrite loop of lines 475-478 returns the index of
the last square token. -/
theorem enumFold_some : ∀ (l : List String) (i : Nat) (acc : Option Nat),
    (∀ k0, acc = some k0 → k0 < i) → ∀ k : Nat,
    ((l.enumFrom i).foldl (fun acc p => if squareMatch p.2 then some p.1 else acc) acc)
      = some k →
    (acc = some k ∧ ∀ t ∈ l, squareMatch t = false) ∨
    (∃ j, ∃ hj : j < l.length, i + j = k ∧ squareMatch (l.get ⟨j, hj⟩) = true ∧
      ∀ j2, ∀ hj2 : j2 < l.length, j < j2 → squareMatch (l.get ⟨j2, hj2⟩) = false) := by
  intro l
  induction l with
  | nil =>
    intro i acc _ k h
    exact Or.inl ⟨h, by simp⟩
  | cons t r ih =>
    intro i acc hacc k h
    rw [show (t :: r).enumFrom i = (i, t) :: r.enumFrom (i + 1) from rfl,
      List.foldl_cons] at h
    by_cases hs : squareMatch t = true
    · rw [if_pos hs] at h
      have hacc2 : ∀ k0, (some i : Option Nat) = some k0 → k0 < i + 1 := by
        intro k0 hk0
        have := Option.some.inj hk0
        omega
      rcases ih (i + 1) (some i) hacc2 k h with ⟨heq, hall⟩ | ⟨j, hj, hij, hsq, hmax⟩
      · have hik : i = k := Option.some.inj heq
        refine Or.inr ⟨0, by simp, by omega, hs, ?_⟩
        intro j2 hj2 h0
        cases j2 with
        | zero => omega
        | succ j2a =>
          have hj2a : j2a < r.length := by simp only [List.length_cons] at hj2; omega
          have hget : (t :: r).get ⟨j2a + 1, hj2⟩ = r.get ⟨j2a, hj2a⟩ := rfl
          rw [hget]
          exact hall _ (r.get_mem _ _)
      · refine Or.inr ⟨j + 1, by simp only [List.length_cons]; omega, by omega, hsq, ?_⟩
        intro j2 hj2 hgt
        cases j2 with
        | zero => omega
        | succ j2a =>
          have hj2a : j2a < r.length := by simp only [List.length_cons] at hj2; omega
          have hget : (t :: r).get ⟨j2a + 1, hj2⟩ = r.get ⟨j2a, hj2a⟩ := rfl
          rw [hget]
          exact hmax j2a hj2a (by omega)
    · rw [if_neg hs] at h
      have hacc2 : ∀ k0, acc = some k0 → k0 < i + 1 := fun k0 hk0 =>
        Nat.lt_succ_of_lt (hacc k0 hk0)
      rcases ih (i + 1) acc hacc2 k h with ⟨heq, hall⟩ | ⟨j, hj, hij, hsq, hmax⟩
      · refine Or.inl ⟨heq, ?_⟩
        intro u hu
        rcases List.mem_cons.mp hu with rfl | hu2
        · simpa using hs
        · exact hall u hu2
      · refine Or.inr ⟨j + 1, by simp only [List.length_cons]; omega, by omega, hsq, ?_⟩
        intro j2 hj2 hgt
        cases j2 with
        | zero => omega
        | succ j2a =>
          have hj2a : j2a < r.length := by simp only [List.length_cons] at hj2; omega
          have hget : (t :: r).get ⟨j2a + 1, hj2⟩ = r.get ⟨j2a, hj2a⟩ := rfl
          rw [hget]
          exact hmax j2a hj2a (by omega)

theorem lastSquareIdx_some_spec (np : List String) (k : Nat)
    (h : lastSquareIdx np = some k) :
    ∃ hk : k < np.length, squareMatch (np.get ⟨k, hk⟩) = true ∧
      ∀ j, ∀ hj : j < np.length, k < j → squareMatch (np.get ⟨j, hj⟩) = false := by
  have h2 : ((np.enumFrom 0).foldl
      (fun acc p => if squareMatch p.2 then some p.1 else acc) none) = some k := h
  rcases enumFold_some np 0 none (fun k0 hk0 => absurd hk0 (by simp)) k h2 with
    ⟨heq, -⟩ | ⟨j, hj, hij, hsq, hmax⟩
  · exact absurd heq (by simp)
  · have hjk : j = k := by omega
    subst hjk
    exact ⟨hj, hsq, hmax⟩

theorem lastSquareIdx_none_spec (np : List String) (h : lastSquareIdx np = none) :
    ∀ t ∈ np, squareMatch t = false := by
  have h2 : ((np.enumFrom 0).foldl
      (fun acc p => if squareMatch p.2 then some p.1 else acc) none) = none := h
  exact (enumFold_none np 0 none h2).2

/-- Claim C8: when the non-promotion token list has a square token, the
promotion tokens are spliced, in order, immediately after the last square
token (the recorded index carries a square, every later position does not,
and the spliced list is `take (k+1) ++ promos ++ drop (k+1)`); when it has
none, they are appended at the end.  Concretely,
`normalize_transcription (some "e eight promote to queen")` produces the
candidate `"e8=Q"`. -/
theorem claim_C8_promotion_splice :
    (∀ (np promos : List String) (k : Nat), lastSquareIdx np = some k →
      ∃ hk : k < np.length, squareMatch (np.get ⟨k, hk⟩) = true ∧
        (∀ j, ∀ hj : j < np.length, k < j → squareMatch (np.get ⟨j, hj⟩) = false) ∧
        splicePromos np promos = np.take (k + 1) ++ promos ++ np.drop (k + 1)) ∧
    (∀ (np promos : List String), lastSquareIdx np = none →
      (∀ t ∈ np, squareMatch t = false) ∧ splicePromos np promos = np ++ promos) ∧
    "e8=Q" ∈ (normalize_transcription (some "e eight promote to queen")).candidates := by
  refine ⟨?_, ?_, ?_⟩
  · intro np promos k h
    obtain ⟨hk, hsq, hmax⟩ := lastSquareIdx_some_spec np k h
    exact ⟨hk, hsq, hmax, splicePromos_eq_of_some np promos k h⟩
  · intro np promos h
    exact ⟨lastSquareIdx_none_spec np h, splicePromos_eq_of_none np promos h⟩
  · decide

theorem claim_C8_promotion_splice_witness :
    splicePromos ["N", "e4"] ["=Q"] = ["N", "e4", "=Q"] ∧
    splicePromos ["x"] ["=Q"] = ["x", "=Q"] := by
  constructor
  · obtain ⟨hk, -, -, hs⟩ :=
      claim_C8_promotion_splice.1 ["N", "e4"] ["=Q"] 1 (by decide)
    rw [hs]
    rfl
  · rw [(claim_C8_promotion_splice.2.1 ["x"] ["=Q"] (by decide)).2]
    rfl

/-! # The checked pipeline agrees with the unchecked one (claim C9) -/

theorem get?_of_drop_cons {tokens : List String} {i : Nat} {t : String} {r : List String}
    (hD : tokens.drop i = t :: r) : tokens.get? i = some t := by
  have h2 := List.get?_drop tokens i 0
  rw [hD] at h2
  simpa using h2.symm

theorem drop_succ_of_drop_cons {tokens : List String} {i : Nat} {t : String}
    {r : List String} (hD : tokens.drop i = t :: r) : tokens.drop (i + 1) = r := by
  have h2 : tokens.drop (i + 1) = (tokens.drop i).tail := (List.tail_drop tokens i).symm
  rw [h2, hD]
  rfl

theorem length_of_drop_cons {tokens : List String} {i : Nat} {t : String}
    {r : List String} (hD : tokens.drop i = t :: r) :
    tokens.length = i + 1 + r.length ∧ i < tokens.length := by
  have h2 := congrArg List.length hD
  rw [List.length_drop] at h2
  simp only [List.length_cons] at h2
  exact ⟨by omega, by omega⟩

theorem get?_succ_of_drop_cons {tokens : List String} {i : Nat} {t : String}
    {r : List String} (hD : tokens.drop i = t :: r) : tokens.get? (i + 1) = r.get? 0 := by
  have h2 := List.get?_drop tokens (i + 1) 0
  rw [drop_succ_of_drop_cons hD] at h2
  simpa using h2.symm

theorem get?_succ2_of_drop_cons {tokens : List String} {i : Nat} {t : String}
    {r : List String} (hD : tokens.drop i = t :: r) : tokens.get? (i + 2) = r.get? 1 := by
  have h2 := List.get?_drop tokens (i + 1) 1
  rw [drop_succ_of_drop_cons hD] at h2
  simpa using h2.symm

theorem cond3C_eval {tokens : List String} {i : Nat} {t : String} {r : List String}
    (hD : tokens.drop i = t :: r) :
    cond3C tokens i t =
      some ((t = "o" || t = "0") &&
        (r.get? 0 = some "o" && r.get? 1 = some "o")) := by
  obtain ⟨hlen, hi⟩ := length_of_drop_cons hD
  have hget1 := get?_succ_of_drop_cons hD
  have hget2 := get?_succ2_of_drop_cons hD
  unfold cond3C
  by_cases hb : (t = "o" || t = "0") = true
  · by_cases hl2 : i + 2 < tokens.length
    · rw [if_pos (by simp [hb]; omega)]
      rw [hget1, hget2]
      have hrlen : 2 ≤ r.length := by omega
      cases r with
      | nil => simp at hrlen
      | cons a rr =>
        cases rr with
        | nil => simp at hrlen
        | cons b rrr => simp [hb]
    · rw [if_neg (by simp [hb]; omega)]
      have hrlen : r.length ≤ 1 := by omega
      cases r with
      | nil => simp
      | cons a rr =>
        cases rr with
        | nil => simp
        | cons b rrr => simp at hrlen
  · rw [if_neg (by simp [hb])]
    have hb2 : (t = "o" || t = "0") = false := by
      cases hval : (t = "o" || t = "0") with
      | true => exact absurd hval hb
      | false => rfl
    rw [hb2]
    simp

theorem cond4C_eval {tokens : List String} {i : Nat} {t : String} {r : List String}
    (hD : tokens.drop i = t :: r) :
    cond4C tokens i t =
      some ((t = "o" || t = "0") && (r.get? 0 = some "o")) := by
  obtain ⟨hlen, hi⟩ := length_of_drop_cons hD
  have hget1 := get?_succ_of_drop_cons hD
  unfold cond4C
  by_cases hb : (t = "o" || t = "0") = true
  · by_cases hl1 : i + 1 < tokens.length
    · rw [if_pos (by simp [hb]; omega)]
      rw [hget1]
      have hrlen : 1 ≤ r.length := by omega
      cases r with
      | nil => simp at hrlen
      | cons a rr => simp [hb]
    · rw [if_neg (by simp [hb]; omega)]
      have hrlen : r.length = 0 := by omega
      cases r with
      | nil => simp
      | cons a rr => simp at hrlen
  · rw [if_neg (by simp [hb])]
    have hb2 : (t = "o" || t = "0") = false := by
      cases hval : (t = "o" || t = "0") with
      | true => exact absurd hval hb
      | false => rfl
    rw [hb2]
    simp

theorem cond5C_eval {tokens : List String} {i : Nat} {t : String} {r : List String}
    (hD : tokens.drop i = t :: r) :
    cond5C tokens i t =
      some (inValues LETTER_WORDS t &&
        ((r.get? 0).map (inValues NUMBER_WORDS)).getD false) := by
  obtain ⟨hlen, hi⟩ := length_of_drop_cons hD
  have hget1 := get?_succ_of_drop_cons hD
  unfold cond5C
  by_cases hb : inValues LETTER_WORDS t = true
  · by_cases hl1 : i + 1 < tokens.length
    · rw [if_pos (by simp [hb]; omega)]
      rw [hget1]
      have hrlen : 1 ≤ r.length := by omega
      cases r with
      | nil => simp at hrlen
      | cons a rr => simp [hb]
    · rw [if_neg (by simp [hb]; omega)]
      have hrlen : r.length = 0 := by omega
      cases r with
      | nil => simp
      | cons a rr => simp at hrlen
  · rw [if_neg (by simp [hb])]
    have hb2 : inValues LETTER_WORDS t = false := by
      cases hval : inValues LETTER_WORDS t with
      | true => exact absurd hval hb
      | false => rfl
    rw [hb2]
    simp

theorem condMergeC_eval {tokens : List String} {i : Nat} {t : String} {r : List String}
    (hD : tokens.drop i = t :: r) :
    condMergeC tokens i t =
      some (inValues LETTER_WORDS t &&
        ((r.get? 0).map (fun a => strIsSub a "12345678")).getD false) := by
  obtain ⟨hlen, hi⟩ := length_of_drop_cons hD
  have hget1 := get?_succ_of_drop_cons hD
  unfold condMergeC
  by_cases hb : inValues LETTER_WORDS t = true
  · by_cases hl1 : i + 1 < tokens.length
    · rw [if_pos (by simp [hb]; omega)]
      rw [hget1]
      have hrlen : 1 ≤ r.length := by omega
      cases r with
      | nil => simp at hrlen
      | cons a rr => simp [hb]
    · rw [if_neg (by simp [hb]; omega)]
      have hrlen : r.length = 0 := by omega
      cases r with
      | nil => simp
      | cons a rr => simp at hrlen
  · rw [if_neg (by simp [hb])]
    have hb2 : inValues LETTER_WORDS t = false := by
      cases hval : inValues LETTER_WORDS t with
      | true => exact absurd hval hb
      | false => rfl
    rw [hb2]
    simp

/-- The checked, index-based `_combine_letter_digit_tokens` loop computes the
structural first pass on the remaining suffix. -/
theorem combineCGo_eq : ∀ (fuel : Nat) (tokens : List String) (i : Nat),
    tokens.length - i < fuel →
    combineCGo fuel tokens i = some (combineLetterDigitF fuel (tokens.drop i)) := by
  intro fuel
  induction fuel with
  | zero => intro tokens i h; omega
  | succ f ih =>
    intro tokens i hfuel
    by_cases hi : i < tokens.length
    case neg =>
      have hD : tokens.drop i = [] := List.drop_eq_nil_of_le (by omega)
      simp only [combineCGo]
      rw [if_neg hi, hD]
      rfl
    case pos =>
      cases hD : tokens.drop i with
      | nil =>
        exfalso
        have h2 := congrArg List.length hD
        rw [List.length_drop] at h2
        simp only [List.length_nil] at h2
        omega
      | cons t r =>
        obtain ⟨hlen, -⟩ := length_of_drop_cons hD
        have hget : tokens.get? i = some t := get?_of_drop_cons hD
        have hget1 : tokens.get? (i + 1) = r.get? 0 := get?_succ_of_drop_cons hD
        have hdrop1 : tokens.drop (i + 1) = r := drop_succ_of_drop_cons hD
        simp only [combineCGo]
        rw [if_pos hi]
        split
        · rename_i hnone
          rw [hget] at hnone
          exact absurd hnone (by simp)
        · rename_i token heq
          rw [hget] at heq
          have htok : t = token := Option.some.inj heq
          subst htok
          by_cases he : (t = "" || t = " ") = true
          · rw [if_pos he]
            have hR : combineLetterDigitF (f + 1) (t :: r) = combineLetterDigitF f r := by
              simp only [combineLetterDigitF]
              rw [if_pos he]
            rw [hR, ih tokens (i + 1) (by omega), hdrop1]
          · rw [if_neg he]
            by_cases hoo : (t = "o-o" || t = "o-o-o") = true
            · rw [if_pos hoo]
              have hR : combineLetterDigitF (f + 1) (t :: r) =
                  pyUpper t :: combineLetterDigitF f r := by
                simp only [combineLetterDigitF]
                rw [if_neg he, if_pos hoo]
              rw [hR, ih tokens (i + 1) (by omega), hdrop1]
              rfl
            · rw [if_neg hoo]
              rw [cond3C_eval hD, cond4C_eval hD, cond5C_eval hD]
              split
              · rename_i heq3
                exact absurd heq3 (by simp)
              · rename_i heq3
                obtain ⟨hb3, hg0, hg1⟩ :
                    (t = "o" ∨ t = "0") ∧ r.get? 0 = some "o" ∧ r.get? 1 = some "o" := by
                  simpa using heq3
                cases r with
                | nil => simp at hg0
                | cons a rr =>
                  have ha : a = "o" := by simpa using hg0
                  subst ha
                  cases rr with
                  | nil => simp at hg1
                  | cons b rrr =>
                    have hbo : b = "o" := by simpa using hg1
                    subst hbo
                    have hd2 : tokens.drop (i + 2) = "o" :: rrr :=
                      drop_succ_of_drop_cons hdrop1
                    have hd3 : tokens.drop (i + 3) = rrr := drop_succ_of_drop_cons hd2
                    rw [ih tokens (i + 3)
                      (by simp only [List.length_cons] at hlen; omega), hd3]
                    have hR : combineLetterDigitF (f + 1) (t :: "o" :: "o" :: rrr) =
                        "O-O-O" :: combineLetterDigitF f rrr := by
                      simp only [combineLetterDigitF]
                      rw [if_neg he, if_neg hoo,
                        if_pos (by rcases hb3 with rfl | rfl <;> simp)]
                    rw [hR]
                    rfl
              · rename_i heq3
                have h3 : ((t = "o" || t = "0") &&
                    (r.get? 0 = some "o" && r.get? 1 = some "o")) = false := by
                  simpa using heq3
                split
                · rename_i heq4
                  exact absurd heq4 (by simp)
                · rename_i heq4
                  obtain ⟨hb4, hg0⟩ : (t = "o" ∨ t = "0") ∧ r.get? 0 = some "o" := by
                    simpa using heq4
                  cases r with
                  | nil => simp at hg0
                  | cons a rr =>
                    have ha : a = "o" := by simpa using hg0
                    subst ha
                    have hd2 : tokens.drop (i + 2) = rr := drop_succ_of_drop_cons hdrop1
                    rw [ih tokens (i + 2)
                      (by simp only [List.length_cons] at hlen; omega), hd2]
                    have hnoto : ¬ rr.get? 0 = some "o" := by
                      intro hcon
                      rw [show (("o" : String) :: rr).get? 0 = some "o" from rfl,
                        show (("o" : String) :: rr).get? 1 = rr.get? 0 from rfl,
                        hcon] at h3
                      rcases hb4 with rfl | rfl <;> simp at h3
                    have hR : combineLetterDigitF (f + 1) (t :: "o" :: rr) =
                        "O-O" :: combineLetterDigitF f rr := by
                      simp only [combineLetterDigitF]
                      rw [if_neg he, if_neg hoo,
                        if_pos (by rcases hb4 with rfl | rfl <;> simp)]
                      split
                      · rename_i rest2 heqm
                        exfalso
                        injection heqm with hm1 hm2
                        apply hnoto
                        rw [hm2]
                        rfl
                      · rename_i rest2 heqm
                        injection heqm with hm1 hm2
                        rw [hm2]
                      · rename_i hne1 hne2
                        exact absurd rfl (hne2 rr)
                    rw [hR]
                    rfl
                · rename_i heq4
                  have h4 : ((t = "o" || t = "0") && (r.get? 0 = some "o")) = false := by
                    simpa using heq4
                  split
                  · rename_i heq5
                    exact absurd heq5 (by simp)
                  · rename_i heq5
                    obtain ⟨hlv, hnum⟩ : inValues LETTER_WORDS t = true ∧
                        ((r.get? 0).map (inValues NUMBER_WORDS)).getD false = true := by
                      simpa using heq5
                    cases r with
                    | nil => simp at hnum
                    | cons d rr =>
                      have hnd : inValues NUMBER_WORDS d = true := by simpa using hnum
                      split
                      · rename_i heqd
                        rw [hget1] at heqd
                        simp at heqd
                      · rename_i t1 heqd
                        rw [hget1] at heqd
                        have ht1 : d = t1 := by
                          have h2 : some d = some t1 := by simpa using heqd
                          exact Option.some.inj h2
                        subst ht1
                        have hd2 : tokens.drop (i + 2) = rr := drop_succ_of_drop_cons hdrop1
                        rw [ih tokens (i + 2)
                          (by simp only [List.length_cons] at hlen; omega), hd2]
                        have hto : (t = "o" || t = "0") = false := by
                          rcases letters_cases t hlv with rfl | rfl | rfl | rfl | rfl |
                            rfl | rfl | rfl <;> decide
                        have hR : combineLetterDigitF (f + 1) (t :: d :: rr) =
                            (t ++ d) :: combineLetterDigitF f rr := by
                          simp only [combineLetterDigitF]
                          rw [if_neg he, if_neg hoo, if_neg (by simp [hto]), if_pos hlv]
                          show (if inValues NUMBER_WORDS d = true then
                              (t ++ d) :: combineLetterDigitF f rr
                            else t :: combineLetterDigitF f (d :: rr)) = _
                          rw [if_pos hnd]
                        rw [hR]
                        rfl
                  · rename_i heq5
                    have h5 : (inValues LETTER_WORDS t &&
                        ((r.get? 0).map (inValues NUMBER_WORDS)).getD false) = false := by
                      simpa using heq5
                    rw [ih tokens (i + 1) (by omega), hdrop1]
                    have hR : combineLetterDigitF (f + 1) (t :: r) =
                        t :: combineLetterDigitF f r := by
                      simp only [combineLetterDigitF]
                      rw [if_neg he, if_neg hoo]
                      by_cases hb : (t = "o" || t = "0") = true
                      · rw [if_pos hb]
                        have hnoto : ¬ r.get? 0 = some "o" := by
                          intro hcon
                          rw [hcon] at h4
                          simp [hb] at h4
                        cases r with
                        | nil => rfl
                        | cons a rr =>
                          have hao : a ≠ "o" := by
                            intro hcon
                            apply hnoto
                            rw [hcon]
                            rfl
                          split
                          · rename_i rest2 heqm
                            exfalso
                            injection heqm with hm1 hm2
                            exact hao hm1
                          · rename_i rest2 heqm
                            exfalso
                            injection heqm with hm1 hm2
                            exact hao hm1
                          · rfl
                      · rw [if_neg hb]
                        by_cases hlv : inValues LETTER_WORDS t = true
                        · rw [if_pos hlv]
                          cases r with
                          | nil =>
                            rw [combineF_nil]
                          | cons d rr =>
                            have hnd : inValues NUMBER_WORDS d = false := by
                              cases hval : inValues NUMBER_WORDS d with
                              | false => rfl
                              | true => simp [hlv, hval] at h5
                            show (if inValues NUMBER_WORDS d = true then
                                (t ++ d) :: combineLetterDigitF f rr
                              else t :: combineLetterDigitF f (d :: rr)) =
                              t :: combineLetterDigitF f (d :: rr)
                            rw [if_neg (by simp [hnd])]
                        · rw [if_neg hlv]
                    rw [hR]
                    rfl

/-- The checked, index-based `_merge_square_tokens` loop computes the
structural second pass on the remaining suffix. -/
theorem mergeCGo_eq : ∀ (fuel : Nat) (tokens : List String) (i : Nat),
    tokens.length - i < fuel →
    mergeCGo fuel tokens i = some (mergeSquareTokensF fuel (tokens.drop i)) := by
  intro fuel
  induction fuel with
  | zero => intro tokens i h; omega
  | succ f ih =>
    intro tokens i hfuel
    by_cases hi : i < tokens.length
    case neg =>
      have hD : tokens.drop i = [] := List.drop_eq_nil_of_le (by omega)
      simp only [mergeCGo]
      rw [if_neg hi, hD]
      rfl
    case pos =>
      cases hD : tokens.drop i with
      | nil =>
        exfalso
        have h2 := congrArg List.length hD
        rw [List.length_drop] at h2
        simp only [List.length_nil] at h2
        omega
      | cons t r =>
        obtain ⟨hlen, -⟩ := length_of_drop_cons hD
        have hget : tokens.get? i = some t := get?_of_drop_cons hD
        have hget1 : tokens.get? (i + 1) = r.get? 0 := get?_succ_of_drop_cons hD
        have hdrop1 : tokens.drop (i + 1) = r := drop_succ_of_drop_cons hD
        simp only [mergeCGo]
        rw [if_pos hi]
        split
        · rename_i hnone
          rw [hget] at hnone
          exact absurd hnone (by simp)
        · rename_i token heq
          rw [hget] at heq
          have htok : t = token := Option.some.inj heq
          subst htok
          by_cases hp : pieceMatch t = true
          · rw [if_pos hp]
            have hR : mergeSquareTokensF (f + 1) (t :: r) =
                pyUpper t :: mergeSquareTokensF f r := by
              simp only [mergeSquareTokensF]
              rw [if_pos hp]
            rw [hR, ih tokens (i + 1) (by omega), hdrop1]
            rfl
          · rw [if_neg hp]
            rw [condMergeC_eval hD]
            split
            · rename_i heqc
              exact absurd heqc (by simp)
            · rename_i heqc
              obtain ⟨hlv, hsub⟩ : inValues LETTER_WORDS t = true ∧
                  ((r.get? 0).map (fun a => strIsSub a "12345678")).getD false = true := by
                simpa using heqc
              cases r with
              | nil => simp at hsub
              | cons d rr =>
                have hsd : strIsSub d "12345678" = true := by simpa using hsub
                split
                · rename_i heqd
                  rw [hget1] at heqd
                  simp at heqd
                · rename_i t1 heqd
                  rw [hget1] at heqd
                  have ht1 : d = t1 := by
                    have h2 : some d = some t1 := by simpa using heqd
                    exact Option.some.inj h2
                  subst ht1
                  have hd2 : tokens.drop (i + 2) = rr := drop_succ_of_drop_cons hdrop1
                  rw [ih tokens (i + 2)
                    (by simp only [List.length_cons] at hlen; omega), hd2]
                  have hR : mergeSquareTokensF (f + 1) (t :: d :: rr) =
                      (t ++ d) :: mergeSquareTokensF f rr := by
                    simp only [mergeSquareTokensF]
                    rw [if_neg hp, if_pos hlv]
                    show (if strIsSub d "12345678" = true then
                        (t ++ d) :: mergeSquareTokensF f rr
                      else t :: mergeSquareTokensF f (d :: rr)) = _
                    rw [if_pos hsd]
                  rw [hR]
                  rfl
            · rename_i heqc
              have hc : (inValues LETTER_WORDS t &&
                  ((r.get? 0).map (fun a => strIsSub a "12345678")).getD false) = false := by
                simpa using heqc
              rw [ih tokens (i + 1) (by omega), hdrop1]
              have hR : mergeSquareTokensF (f + 1) (t :: r) =
                  t :: mergeSquareTokensF f r := by
                simp only [mergeSquareTokensF]
                rw [if_neg hp]
                by_cases hlv : inValues LETTER_WORDS t = true
                · rw [if_pos hlv]
                  cases r with
                  | nil => rw [mergeF_nil]
                  | cons d rr =>
                    have hsd : strIsSub d "12345678" = false := by
                      cases hval : strIsSub d "12345678" with
                      | false => rfl
                      | true => simp [hlv, hval] at hc
                    show (if strIsSub d "12345678" = true then
                        (t ++ d) :: mergeSquareTokensF f rr
                      else t :: mergeSquareTokensF f (d :: rr)) =
                      t :: mergeSquareTokensF f (d :: rr)
                    rw [if_neg (by simp [hsd])]
                · rw [if_neg hlv]
              rw [hR]
              rfl

theorem promoScanCGo_cons (f : Nat) (tokens : List String) (j : Nat) (c : String)
    (hj : j < tokens.length) (hget : tokens.get? j = some c) :
    promoScanCGo (f + 1) tokens j =
      (if FILLER_WORDS.contains c then promoScanCGo f tokens (j + 1)
       else
        match dictGet PROMOTION_PIECES c with
        | some p => some (some (p, j))
        | none =>
          match dictGet PIECE_WORDS c with
          | some p =>
            if p ≠ "" then some (some (p, j)) else promoScanCGo f tokens (j + 1)
          | none => promoScanCGo f tokens (j + 1)) := by
  simp only [promoScanCGo]
  rw [if_pos hj, hget]

/-- The checked, index-based promotion scan agrees with the structural one:
it stops at the same piece letter, and the recorded index points right
before the structural scan's remainder. -/
theorem promoScanCGo_eq : ∀ (fuel : Nat) (tokens : List String) (j : Nat),
    tokens.length - j < fuel →
    (promoScan (tokens.drop j) = none ∧ promoScanCGo fuel tokens j = some none) ∨
    (∃ p j2, promoScanCGo fuel tokens j = some (some (p, j2)) ∧
      promoScan (tokens.drop j) = some (p, tokens.drop (j2 + 1)) ∧ j ≤ j2) := by
  intro fuel
  induction fuel with
  | zero => intro tokens j h; omega
  | succ f ih =>
    intro tokens j hfuel
    by_cases hj : j < tokens.length
    case neg =>
      left
      have hD : tokens.drop j = [] := List.drop_eq_nil_of_le (by omega)
      constructor
      · rw [hD]
        rfl
      · simp only [promoScanCGo]
        rw [if_neg hj]
    case pos =>
      cases hD : tokens.drop j with
      | nil =>
        exfalso
        have h2 := congrArg List.length hD
        rw [List.length_drop] at h2
        simp only [List.length_nil] at h2
        omega
      | cons c rest =>
        have hget : tokens.get? j = some c := get?_of_drop_cons hD
        have hdrop1 : tokens.drop (j + 1) = rest := drop_succ_of_drop_cons hD
        rw [promoScanCGo_cons f tokens j c hj hget]
        have hS : promoScan (c :: rest) =
            (if FILLER_WORDS.contains c then promoScan rest
             else
              match dictGet PROMOTION_PIECES c with
              | some p => some (p, rest)
              | none =>
                match dictGet PIECE_WORDS c with
                | some p => if p ≠ "" then some (p, rest) else promoScan rest
                | none => promoScan rest) := rfl
        by_cases hf : FILLER_WORDS.contains c = true
        · rw [if_pos hf]
          rcases ih tokens (j + 1) (by omega) with ⟨hn, hc⟩ | ⟨p, j2, hc, hs, hle⟩
          · left
            refine ⟨?_, hc⟩
            rw [hS, if_pos hf, ← hdrop1]
            exact hn
          · right
            exact ⟨p, j2, hc, by rw [hS, if_pos hf, ← hdrop1]; exact hs, by omega⟩
        · rw [if_neg hf]
          split
          · rename_i p hpp
            right
            refine ⟨p, j, rfl, ?_, Nat.le_refl j⟩
            rw [hS, if_neg hf, hpp, hdrop1]
          · rename_i hpp
            split
            · rename_i p hpw
              by_cases hpe : p = ""
              · rw [if_neg (by simp [hpe])]
                rcases ih tokens (j + 1) (by omega) with ⟨hn, hc⟩ | ⟨q, j2, hc, hs, hle⟩
                · left
                  refine ⟨?_, hc⟩
                  rw [hS, if_neg hf, hpp, hpw]
                  show (if p ≠ "" then some (p, rest) else promoScan rest) = none
                  rw [if_neg (by simp [hpe]), ← hdrop1]
                  exact hn
                · right
                  refine ⟨q, j2, hc, ?_, by omega⟩
                  rw [hS, if_neg hf, hpp, hpw]
                  show (if p ≠ "" then some (p, rest) else promoScan rest) =
                    some (q, tokens.drop (j2 + 1))
                  rw [if_neg (by simp [hpe]), ← hdrop1]
                  exact hs
              · rw [if_pos hpe]
                right
                refine ⟨p, j, rfl, ?_, Nat.le_refl j⟩
                rw [hS, if_neg hf, hpp, hpw]
                show (if p ≠ "" then some (p, rest) else promoScan rest) =
                  some (p, tokens.drop (j + 1))
                rw [if_pos hpe, hdrop1]
            · rename_i hpw
              rcases ih tokens (j + 1) (by omega) with ⟨hn, hc⟩ | ⟨q, j2, hc, hs, hle⟩
              · left
                refine ⟨?_, hc⟩
                rw [hS, if_neg hf, hpp, hpw]
                show promoScan rest = none
                rw [← hdrop1]
                exact hn
              · right
                refine ⟨q, j2, hc, ?_, by omega⟩
                rw [hS, if_neg hf, hpp, hpw]
                show promoScan rest = some (q, tokens.drop (j2 + 1))
                rw [← hdrop1]
                exact hs

theorem nextTokC_eval {tokens : List String} {i : Nat} {t : String} {r : List String}
    (hD : tokens.drop i = t :: r) : nextTokC tokens i = some r.head? := by
  obtain ⟨hlen, hi⟩ := length_of_drop_cons hD
  have hget1 := get?_succ_of_drop_cons hD
  unfold nextTokC
  by_cases hl1 : i + 1 < tokens.length
  · rw [if_pos hl1, hget1]
    have hrlen : 1 ≤ r.length := by omega
    cases r with
    | nil => simp at hrlen
    | cons a rr => rfl
  · rw [if_neg hl1]
    have hrlen : r.length = 0 := by omega
    cases r with
    | nil => rfl
    | cons a rr => simp at hrlen

/-- The structural promotion scan strictly shrinks its input on success. -/
theorem promoScan_shrinks : ∀ (l : List String) (p : String) (r2 : List String),
    promoScan l = some (p, r2) → r2.length < l.length := by
  intro l
  induction l with
  | nil => intro p r2 h; exact absurd h (by simp [promoScan])
  | cons c rest ih =>
    intro p r2 h
    have hS : promoScan (c :: rest) =
        (if FILLER_WORDS.contains c then promoScan rest
         else
          match dictGet PROMOTION_PIECES c with
          | some q => some (q, rest)
          | none =>
            match dictGet PIECE_WORDS c with
            | some q => if q ≠ "" then some (q, rest) else promoScan rest
            | none => promoScan rest) := rfl
    rw [hS] at h
    by_cases hf : FILLER_WORDS.contains c = true
    · rw [if_pos hf] at h
      have := ih p r2 h
      simp only [List.length_cons]
      omega
    · rw [if_neg hf] at h
      cases hpp : dictGet PROMOTION_PIECES c with
      | some q =>
        rw [hpp] at h
        have h2 : q = p ∧ rest = r2 := by
          have h3 : (some (q, rest) : Option (String × List String)) = some (p, r2) := h
          have h4 := Option.some.inj h3
          exact ⟨congrArg Prod.fst h4, congrArg Prod.snd h4⟩
        rw [← h2.2]
        simp only [List.length_cons]
        omega
      | none =>
        rw [hpp] at h
        cases hpw : dictGet PIECE_WORDS c with
        | some q =>
          rw [hpw] at h
          have h2 : (if q ≠ "" then some (q, rest) else promoScan rest) =
              some (p, r2) := h
          by_cases hqe : q = ""
          · rw [if_neg (by simp [hqe])] at h2
            have := ih p r2 h2
            simp only [List.length_cons]
            omega
          · rw [if_pos hqe] at h2
            have h4 := Option.some.inj h2
            have h5 : rest = r2 := congrArg Prod.snd h4
            rw [← h5]
            simp only [List.length_cons]
            omega
        | none =>
          rw [hpw] at h
          have h2 : promoScan rest = some (p, r2) := h
          have := ih p r2 h2
          simp only [List.length_cons]
          omega

/-- The checked, index-based `_map_tokens` loop computes the structural
mapper on the remaining suffix. -/
theorem mapTokensCGo_eq : ∀ (fuel : Nat) (tokens : List String) (i : Nat)
    (rules : List String), tokens.length - i < fuel →
    mapTokensCGo fuel tokens i rules = some (mapTokensF fuel (tokens.drop i) rules) := by
  intro fuel
  induction fuel with
  | zero => intro tokens i rules h; omega
  | succ f ih =>
    intro tokens i rules hfuel
    by_cases hi : i < tokens.length
    case neg =>
      have hD : tokens.drop i = [] := List.drop_eq_nil_of_le (by omega)
      simp only [mapTokensCGo]
      rw [if_neg hi, hD]
      rfl
    case pos =>
      cases hD : tokens.drop i with
      | nil =>
        exfalso
        have h2 := congrArg List.length hD
        rw [List.length_drop] at h2
        simp only [List.length_nil] at h2
        omega
      | cons t r =>
        obtain ⟨hlen, -⟩ := length_of_drop_cons hD
        have hget : tokens.get? i = some t := get?_of_drop_cons hD
        have hdrop1 : tokens.drop (i + 1) = r := drop_succ_of_drop_cons hD
        have hnext : nextTokC tokens i = some r.head? := nextTokC_eval hD
        simp only [mapTokensCGo]
        rw [if_pos hi]
        split
        · rename_i hnone
          rw [hget] at hnone
          exact absurd hnone (by simp)
        · rename_i token heq
          rw [hget] at heq
          have htok : t = token := Option.some.inj heq
          subst htok
          split
          · rename_i hnn
            rw [hnext] at hnn
            exact absurd hnn (by simp)
          · rename_i next_token heqn
            rw [hnext] at heqn
            have hnt : r.head? = next_token := Option.some.inj heqn
            subst hnt
            by_cases h1 : FILLER_WORDS.contains t = true
            · rw [if_pos h1]
              have hR : mapTokensF (f + 1) (t :: r) rules =
                  mapTokensF f r (rules ++ ["removed filler " ++ quoted t]) := by
                simp only [mapTokensF]
                simp only [if_pos h1]
              rw [hR, ih tokens (i + 1) _ (by omega), hdrop1]
            · rw [if_neg h1]
              by_cases h2 : PROMOTION_CUES.contains t = true
              · rw [if_pos h2]
                rcases promoScanCGo_eq (tokens.length + 1) tokens (i + 1) (by omega) with
                  ⟨hn, hc⟩ | ⟨p, j2, hc, hs, hle⟩
                · rw [hc]
                  have hn2 : promoScan r = none := by rw [← hdrop1]; exact hn
                  show (mapTokensCGo f tokens (i + 1)
                      (rules ++ ["promotion cue without piece"])).map
                      (fun nx => ("=" :: nx.1, nx.2)) =
                    some (mapTokensF (f + 1) (t :: r) rules)
                  rw [ih tokens (i + 1) _ (by omega), hdrop1]
                  have hR : mapTokensF (f + 1) (t :: r) rules =
                      ("=" :: (mapTokensF f r
                          (rules ++ ["promotion cue without piece"])).1,
                       (mapTokensF f r (rules ++ ["promotion cue without piece"])).2) := by
                    simp only [mapTokensF]
                    simp only [if_neg h1, if_pos h2]
                    rw [hn2]
                  rw [hR]
                  rfl
                · rw [hc]
                  have hs2 : promoScan r = some (p, tokens.drop (j2 + 1)) := by
                    rw [← hdrop1]
                    exact hs
                  have hshr := promoScan_shrinks r p (tokens.drop (j2 + 1)) hs2
                  have hjlen : (tokens.drop (j2 + 1)).length = tokens.length - (j2 + 1) :=
                    List.length_drop _ _
                  show (mapTokensCGo f tokens (j2 + 1)
                      (rules ++ ["promotion to " ++ pyUpper p])).map
                      (fun nx => (("=" ++ pyUpper p) :: nx.1, nx.2)) =
                    some (mapTokensF (f + 1) (t :: r) rules)
                  rw [ih tokens (j2 + 1) _ (by omega)]
                  have hR : mapTokensF (f + 1) (t :: r) rules =
                      (("=" ++ pyUpper p) :: (mapTokensF f (tokens.drop (j2 + 1))
                          (rules ++ ["promotion to " ++ pyUpper p])).1,
                       (mapTokensF f (tokens.drop (j2 + 1))
                          (rules ++ ["promotion to " ++ pyUpper p])).2) := by
                    simp only [mapTokensF]
                    simp only [if_neg h1, if_pos h2]
                    rw [hs2]
                  rw [hR]
                  rfl
              · rw [if_neg h2]
                by_cases h3 : (dictGet CHECK_WORDS t).isSome = true
                · rw [if_pos h3]
                  obtain ⟨v, hv⟩ := Option.isSome_iff_exists.mp h3
                  rw [hv]
                  show (mapTokensCGo f tokens (i + 1)
                      (rules ++ ["mapped " ++ quoted t ++ " -> " ++ quoted v])).map
                      (fun nx => (v :: nx.1, nx.2)) =
                    some (mapTokensF (f + 1) (t :: r) rules)
                  rw [ih tokens (i + 1) _ (by omega), hdrop1]
                  have hR : mapTokensF (f + 1) (t :: r) rules =
                      (v :: (mapTokensF f r
                          (rules ++ ["mapped " ++ quoted t ++ " -> " ++ quoted v])).1,
                       (mapTokensF f r
                          (rules ++ ["mapped " ++ quoted t ++ " -> " ++ quoted v])).2) := by
                    simp only [mapTokensF]
                    simp only [if_neg h1, if_neg h2, if_pos h3]
                    rw [hv]
                    simp only [Option.getD_some]
                  rw [hR]
                  rfl
                · rw [if_neg h3]
                  by_cases h4 : (dictGet ACTION_WORDS t).isSome = true
                  · rw [if_pos h4]
                    rw [ih tokens (i + 1) _ (by omega), hdrop1]
                    have hR : mapTokensF (f + 1) (t :: r) rules =
                        ("x" :: (mapTokensF f r (rules ++
                            ["mapped " ++ quoted t ++ " -> " ++ quoted "x"])).1,
                         (mapTokensF f r (rules ++
                            ["mapped " ++ quoted t ++ " -> " ++ quoted "x"])).2) := by
                      simp only [mapTokensF]
                      simp only [if_neg h1, if_neg h2, if_neg h3, if_pos h4]
                    rw [hR]
                    rfl
                  · rw [if_neg h4]
                    by_cases h5 : ((t = "b" || t = "be" || t = "bee") &&
                        optContains SHOP_VARIANTS r.head?) = true
                    · rw [if_pos h5]
                      have hd2t : tokens.drop (i + 2) = r.tail := by
                        have h2t := List.tail_drop tokens (i + 1)
                        rw [hdrop1] at h2t
                        exact h2t.symm
                      rw [ih tokens (i + 2) _ (by omega), hd2t]
                      have hR : mapTokensF (f + 1) (t :: r) rules =
                          ("B" :: (mapTokensF f r.tail
                              (rules ++ ["b + shop -> " ++ quoted "B"])).1,
                           (mapTokensF f r.tail
                              (rules ++ ["b + shop -> " ++ quoted "B"])).2) := by
                        simp only [mapTokensF]
                        simp only [if_neg h1, if_neg h2, if_neg h3, if_neg h4, if_pos h5]
                      rw [hR]
                      rfl
                    · rw [if_neg h5]
                      by_cases h6 : ((t = "king" || t = "queen") &&
                          optContains SIDE_VARIANTS r.head?) = true
                      · rw [if_pos h6]
                        have hd2t : tokens.drop (i + 2) = r.tail := by
                          have h2t := List.tail_drop tokens (i + 1)
                          rw [hdrop1] at h2t
                          exact h2t.symm
                        rw [ih tokens (i + 2) _ (by omega), hd2t]
                        have hR : mapTokensF (f + 1) (t :: r) rules =
                            ((t ++ "side") :: (mapTokensF f r.tail
                                (rules ++ [t ++ " side collapsed"])).1,
                             (mapTokensF f r.tail
                                (rules ++ [t ++ " side collapsed"])).2) := by
                          simp only [mapTokensF]
                          simp only [if_neg h1, if_neg h2, if_neg h3, if_neg h4,
                            if_neg h5, if_pos h6]
                        rw [hR]
                        rfl
                      · rw [if_neg h6]
                        by_cases h7 : (t = "kingside" || t = "shortside") = true
                        · rw [if_pos h7]
                          rw [ih tokens (i + 1) _ (by omega), hdrop1]
                          have hR : mapTokensF (f + 1) (t :: r) rules =
                              ("O-O" :: (mapTokensF f r (rules ++ [t ++ " -> O-O"])).1,
                               (mapTokensF f r (rules ++ [t ++ " -> O-O"])).2) := by
                            simp only [mapTokensF]
                            simp only [if_neg h1, if_neg h2, if_neg h3, if_neg h4,
                              if_neg h5, if_neg h6, if_pos h7]
                          rw [hR]
                          rfl
                        · rw [if_neg h7]
                          by_cases h8 : (t = "queenside" || t = "longside") = true
                          · rw [if_pos h8]
                            rw [ih tokens (i + 1) _ (by omega), hdrop1]
                            have hR : mapTokensF (f + 1) (t :: r) rules =
                                ("O-O-O" :: (mapTokensF f r
                                    (rules ++ [t ++ " -> O-O-O"])).1,
                                 (mapTokensF f r (rules ++ [t ++ " -> O-O-O"])).2) := by
                              simp only [mapTokensF]
                              simp only [if_neg h1, if_neg h2, if_neg h3, if_neg h4,
                                if_neg h5, if_neg h6, if_neg h7, if_pos h8]
                            rw [hR]
                            rfl
                          · rw [if_neg h8]
                            by_cases h9 : (dictGet PIECE_WORDS t).isSome = true
                            · rw [if_pos h9]
                              obtain ⟨v, hv⟩ := Option.isSome_iff_exists.mp h9
                              rw [hv]
                              show (if v ≠ "" then
                                  (mapTokensCGo f tokens (i + 1) (rules ++
                                    ["piece " ++ quoted t ++ " -> " ++
                                      quoted (pyUpper v)])).map
                                    (fun nx => (pyUpper v :: nx.1, nx.2))
                                else mapTokensCGo f tokens (i + 1)
                                  (rules ++ ["dropped pawn token " ++ quoted t])) =
                                some (mapTokensF (f + 1) (t :: r) rules)
                              by_cases hvne : v = ""
                              · rw [if_neg (by simp [hvne])]
                                rw [ih tokens (i + 1) _ (by omega), hdrop1]
                                have hR : mapTokensF (f + 1) (t :: r) rules =
                                    mapTokensF f r
                                      (rules ++ ["dropped pawn token " ++ quoted t]) := by
                                  simp only [mapTokensF]
                                  simp only [if_neg h1, if_neg h2, if_neg h3, if_neg h4,
                                    if_neg h5, if_neg h6, if_neg h7, if_neg h8, if_pos h9]
                                  rw [hv]
                                  simp only [Option.getD_some]
                                  simp only [if_neg (by simp [hvne] :
                                    ¬((v : String) ≠ ""))]
                                rw [hR]
                              · rw [if_pos hvne]
                                rw [ih tokens (i + 1) _ (by omega), hdrop1]
                                have hR : mapTokensF (f + 1) (t :: r) rules =
                                    (pyUpper v :: (mapTokensF f r (rules ++
                                        ["piece " ++ quoted t ++ " -> " ++
                                          quoted (pyUpper v)])).1,
                                     (mapTokensF f r (rules ++
                                        ["piece " ++ quoted t ++ " -> " ++
                                          quoted (pyUpper v)])).2) := by
                                  simp only [mapTokensF]
                                  simp only [if_neg h1, if_neg h2, if_neg h3, if_neg h4,
                                    if_neg h5, if_neg h6, if_neg h7, if_neg h8, if_pos h9]
                                  rw [hv]
                                  simp only [Option.getD_some]
                                  simp only [if_pos hvne]
                                rw [hR]
                                rfl
                            · rw [if_neg h9]
                              by_cases h10 : (dictGet NUMBER_WORDS t).isSome = true
                              · rw [if_pos h10]
                                obtain ⟨v, hv⟩ := Option.isSome_iff_exists.mp h10
                                rw [hv]
                                show (mapTokensCGo f tokens (i + 1) (rules ++
                                    ["number word " ++ quoted t ++ " -> " ++
                                      quoted v])).map
                                    (fun nx => (v :: nx.1, nx.2)) =
                                  some (mapTokensF (f + 1) (t :: r) rules)
                                rw [ih tokens (i + 1) _ (by omega), hdrop1]
                                have hR : mapTokensF (f + 1) (t :: r) rules =
                                    (v :: (mapTokensF f r (rules ++
                                        ["number word " ++ quoted t ++ " -> " ++
                                          quoted v])).1,
                                     (mapTokensF f r (rules ++
                                        ["number word " ++ quoted t ++ " -> " ++
                                          quoted v])).2) := by
                                  simp only [mapTokensF]
                                  simp only [if_neg h1, if_neg h2, if_neg h3, if_neg h4,
                                    if_neg h5, if_neg h6, if_neg h7, if_neg h8,
                                    if_neg h9, if_pos h10]
                                  rw [hv]
                                  simp only [Option.getD_some]
                                rw [hR]
                                rfl
                              · rw [if_neg h10]
                                by_cases h11 : (dictGet LETTER_WORDS t).isSome = true
                                · rw [if_pos h11]
                                  obtain ⟨v, hv⟩ := Option.isSome_iff_exists.mp h11
                                  rw [hv]
                                  show (mapTokensCGo f tokens (i + 1) (rules ++
                                      ["letter word " ++ quoted t ++ " -> " ++
                                        quoted v])).map
                                      (fun nx => (v :: nx.1, nx.2)) =
                                    some (mapTokensF (f + 1) (t :: r) rules)
                                  rw [ih tokens (i + 1) _ (by omega), hdrop1]
                                  have hR : mapTokensF (f + 1) (t :: r) rules =
                                      (v :: (mapTokensF f r (rules ++
                                          ["letter word " ++ quoted t ++ " -> " ++
                                            quoted v])).1,
                                       (mapTokensF f r (rules ++
                                          ["letter word " ++ quoted t ++ " -> " ++
                                            quoted v])).2) := by
                                    simp only [mapTokensF]
                                    simp only [if_neg h1, if_neg h2, if_neg h3, if_neg h4,
                                      if_neg h5, if_neg h6, if_neg h7, if_neg h8,
                                      if_neg h9, if_neg h10, if_pos h11]
                                    rw [hv]
                                    simp only [Option.getD_some]
                                  rw [hR]
                                  rfl
                                · rw [if_neg h11]
                                  rw [ih tokens (i + 1) _ (by omega), hdrop1]
                                  have hR : mapTokensF (f + 1) (t :: r) rules =
                                      (t :: (mapTokensF f r rules).1,
                                       (mapTokensF f r rules).2) := by
                                    simp only [mapTokensF]
                                    simp only [if_neg h1, if_neg h2, if_neg h3, if_neg h4,
                                      if_neg h5, if_neg h6, if_neg h7, if_neg h8,
                                      if_neg h9, if_neg h10, if_neg h11]
                                  rw [hR]
                                  rfl

theorem combineC_eq (l : List String) : combineC l = some (combineLetterDigit l) := by
  have h := combineCGo_eq (l.length + 1) l 0 (by omega)
  rw [List.drop_zero] at h
  exact h

theorem mergeC_eq (l : List String) : mergeC l = some (mergeSquareTokens l) := by
  have h := mergeCGo_eq (l.length + 1) l 0 (by omega)
  rw [List.drop_zero] at h
  exact h

theorem mapTokensC_eq (l : List String) (rules : List String) :
    mapTokensC l rules = some (mapTokens l rules) := by
  have h := mapTokensCGo_eq (l.length + 1) l 0 rules (by omega)
  rw [List.drop_zero] at h
  exact h

theorem sanStepDC_eq (compact : String) (st : DirectState) :
    sanStepDC compact st = some (sanStepD compact st) := by
  unfold sanStepDC sanStepD sanCondC sanVariantC
  by_cases hm : (!st.2.1 && rxFullMatch sanMoveRx compact) = true
  · rw [if_pos hm, if_pos hm]
    by_cases hce : compact = ""
    · subst hce
      rfl
    · rw [if_pos hce]
      cases hdata : compact.data with
      | nil =>
        exfalso
        apply hce
        exact String.ext (by rw [hdata])
      | cons c0 cs =>
        have hhc : headChar compact = c0 := by unfold headChar; rw [hdata]
        have hup : upperFirst compact = ⟨pyUpperChar c0 :: List.drop 1 (c0 :: cs)⟩ := by
          unfold upperFirst
          rw [hdata]
          rfl
        show (if ("kqrbn".data.contains c0) = true then
            some (addDirect (addDirect st.1 compact)
              ⟨pyUpperChar c0 :: List.drop 1 (c0 :: cs)⟩, true,
              st.2.2 ++ ["direct SAN candidate " ++ quoted compact])
          else some (addDirect st.1 compact, true,
            st.2.2 ++ ["direct SAN candidate " ++ quoted compact])) = _
        by_cases hk : ("kqrbn".data.contains c0) = true
        · have hcond : (decide (compact ≠ "") &&
              "kqrbn".data.contains (headChar compact)) = true := by
            rw [hhc, hk]
            simp [hce]
          rw [if_pos hk]
          simp only [if_pos hcond]
          rw [hup]
        · have hk2 : ("kqrbn".data.contains c0) = false := by
            cases hval : ("kqrbn".data.contains c0) with
            | true => exact absurd hval hk
            | false => rfl
          have hcond : ¬ ((decide (compact ≠ "") &&
              "kqrbn".data.contains (headChar compact)) = true) := by
            rw [hhc, hk2]
            simp
          rw [if_neg hk]
          simp only [if_neg hcond]
  · rw [if_neg hm, if_neg hm]

theorem generateDirectCandidatesC_eq (rawText : String) (rules : List String) :
    generateDirectCandidatesC rawText rules =
      some (generateDirectCandidates rawText rules) := by
  unfold generateDirectCandidatesC generateDirectCandidates
  by_cases h0 : rawText = ""
  · rw [if_pos h0, if_pos h0]
  · rw [if_neg h0, if_neg h0]
    by_cases h1 : ((pyStripL rawText.data).filter (fun c => !pyIsSpace c)).isEmpty = true
    · simp only [if_pos h1]
    · simp only [if_neg h1]
      rw [sanStepDC_eq]

theorem promoSuffixC_eq : ∀ l : List String, promoSuffixC l = some (promoSuffix l) := by
  intro l
  induction l with
  | nil => rfl
  | cons t rest ih =>
    unfold promoSuffixC promoSuffix
    by_cases hl : t.length = 2
    · rw [if_pos hl, if_pos hl]
      have hdl : t.data.length = 2 := hl
      cases hdata : t.data with
      | nil => rw [hdata] at hdl; simp at hdl
      | cons a as =>
        cases as with
        | nil => rw [hdata] at hdl; simp at hdl
        | cons b bs =>
          cases bs with
          | cons c cc => rw [hdata] at hdl; simp at hdl
          | nil => rfl
    · rw [if_neg hl, if_neg hl]
      exact ih

theorem upperCondC_eval (base : String) :
    upperCondC base = some (decide (base ≠ "") && isUpperChar (headChar base) &&
      decide (base.length ≥ 2) && decide (headChar base ≠ 'O')) := by
  by_cases hbe : base = ""
  · subst hbe
    rfl
  · cases hdata : base.data with
    | nil =>
      exfalso
      apply hbe
      exact String.ext (by rw [hdata])
    | cons c0 cs =>
      have hhc : headChar base = c0 := by unfold headChar; rw [hdata]
      unfold upperCondC
      rw [if_pos hbe]
      rw [show base.data.get? 0 = some c0 from by rw [hdata]; rfl]
      rw [hhc]
      simp [hbe]

theorem lowerCondC_eval (base : String) :
    lowerCondC base = some (decide (base ≠ "") && isLowerChar (headChar base)) := by
  by_cases hbe : base = ""
  · subst hbe
    rfl
  · cases hdata : base.data with
    | nil =>
      exfalso
      apply hbe
      exact String.ext (by rw [hdata])
    | cons c0 cs =>
      have hhc : headChar base = c0 := by unfold headChar; rw [hdata]
      unfold lowerCondC
      rw [if_pos hbe]
      rw [show base.data.get? 0 = some c0 from by rw [hdata]; rfl]
      rw [hhc]
      simp [hbe]

theorem lowerFirstC_eval (base : String) (h : base ≠ "") :
    lowerFirstC base = some (lowerFirst base) := by
  cases hdata : base.data with
  | nil =>
    exfalso
    apply h
    exact String.ext (by rw [hdata])
  | cons c0 cs =>
    unfold lowerFirstC lowerFirst
    rw [hdata]
    rfl

theorem generateCandidatesC_eq (tokens : List String) (rules : List String) :
    generateCandidatesC tokens rules = some (generateCandidates tokens rules) := by
  unfold generateCandidatesC generateCandidates
  by_cases h0 : tokens.isEmpty = true
  · rw [if_pos h0, if_pos h0]
  · rw [if_neg h0, if_neg h0]
    dsimp only
    generalize List.map formatToken (List.filter (fun t => decide (t ≠ "")) tokens) = fmt
    generalize List.filter (fun t => startsWithEq t) fmt = promos
    generalize List.filter (fun t => !startsWithEq t) fmt = np
    generalize (if (!promos.isEmpty) = true then splicePromos np promos else np) = spl
    generalize String.join spl = base
    generalize List.map pyLower (List.filter (fun t => squareMatch t) spl) = sqs
    rw [upperCondC_eval, lowerCondC_eval, promoSuffixC_eq]
    split
    · rename_i habs
      exact absurd habs (by simp)
    · rename_i bu hbu
      have hb2 := Option.some.inj hbu
      subst hb2
      by_cases hcond : (decide (base ≠ "") && isUpperChar (headChar base) &&
          decide (base.length ≥ 2) && decide (headChar base ≠ 'O')) = true
      · rw [if_pos hcond, if_pos hcond]
        have hbne : base ≠ "" := by
          intro habs
          rw [habs] at hcond
          simp at hcond
        rw [lowerFirstC_eval base hbne]
        cases sqs with
        | nil => rfl
        | cons s0 s1s =>
          cases s1s with
          | nil => rfl
          | cons s1 srest => rfl
      · rw [if_neg hcond, if_neg hcond]
        cases sqs with
        | nil => rfl
        | cons s0 s1s =>
          cases s1s with
          | nil => rfl
          | cons s1 srest => rfl

/-- Claim C9: the checked pipeline — every guarded list/string/dictionary
access of the source modelled by an `Option`-returning access, with `none`
raised exactly where Python would raise `IndexError`/`KeyError` — never
returns `none`: on every input it computes exactly the total pipeline's
`NormalizationResult`.  Every index the source reads is covered by its
guard, so no execution path faults. -/
theorem claim_C9_no_fault (x : Option String) :
    normalizeC x = some (normalize_transcription x) := by
  unfold normalizeC normalize_transcription
  by_cases h0 : x.getD "" = ""
  · rw [if_pos h0, if_pos h0]
  · rw [if_neg h0, if_neg h0]
    dsimp only
    rw [generateDirectCandidatesC_eq]
    split
    · rename_i habs
      exact absurd habs (by simp)
    · rename_i direct hdir
      have h2 := Option.some.inj hdir
      subst h2
      rw [mapTokensC_eq]
      split
      · rename_i habs
        exact absurd habs (by simp)
      · rename_i mapStep hmap
        have h3 := Option.some.inj hmap
        subst h3
        rw [combineC_eq]
        split
        · rename_i habs
          exact absurd habs (by simp)
        · rename_i comb hcomb
          have h4 := Option.some.inj hcomb
          subst h4
          rw [mergeC_eq]
          split
          · rename_i habs
            exact absurd habs (by simp)
          · rename_i merged hmerge
            have h5 := Option.some.inj hmerge
            subst h5
            rw [generateCandidatesC_eq]

/-! # Shape lemmas for the assembled result -/

theorem normalize_empty_shape (x : Option String) (hx : x.getD "" = "") :
    normalize_transcription x =
      { raw_text := "", cleaned_text := "", tokens := [], merged_tokens := [],
        candidates := [], direct_candidates := [], applied_rules := ["empty input"] } := by
  unfold normalize_transcription
  dsimp only
  rw [if_pos hx]

theorem normalize_main_shape (x : Option String) (hx : ¬ x.getD "" = "") :
    ∃ g r1 r2 r3 r4 r5,
      normalize_transcription x =
        { raw_text := r1, cleaned_text := r2, tokens := r3, merged_tokens := r4,
          candidates := combineSources [(generateDirectCandidates (x.getD "") []).1, g],
          direct_candidates := (generateDirectCandidates (x.getD "") []).1,
          applied_rules := r5 } := by
  unfold normalize_transcription
  dsimp only
  rw [if_neg hx]
  exact ⟨_, _, _, _, _, _, rfl⟩

/-! # Claims C1, C2 and C10 -/

/-- Claim C1: for every input (any string or absent input), the candidates
list of the NormalizationResult returned by normalize_transcription contains
no duplicate strings. -/
theorem claim_C1_candidates_nodup (x : Option String) :
    (normalize_transcription x).candidates.Nodup := by
  by_cases hx : x.getD "" = ""
  · rw [normalize_empty_shape x hx]
    simp
  · obtain ⟨g, r1, r2, r3, r4, r5, heq⟩ := normalize_main_shape x hx
    rw [heq]
    exact combineSources_nodup _

/-- Claim C2: normalize_transcription applied to the empty string and to
absent input each return, without error, a result with empty candidates,
empty tokens, empty merged_tokens, and an applied_rules trace of exactly one
entry marking empty input. -/
theorem claim_C2_empty_input :
    (normalize_transcription none).candidates = [] ∧
    (normalize_transcription none).tokens = [] ∧
    (normalize_transcription none).merged_tokens = [] ∧
    (normalize_transcription none).applied_rules = ["empty input"] ∧
    (normalize_transcription (some "")).candidates = [] ∧
    (normalize_transcription (some "")).tokens = [] ∧
    (normalize_transcription (some "")).merged_tokens = [] ∧
    (normalize_transcription (some "")).applied_rules = ["empty input"] := by
  decide

/-- Claim C10: every element of the result's candidates list and of its
direct_candidates list is a non-empty string; the empty string is never
emitted by the direct matcher, the candidate generator, or the result
assembler. -/
theorem claim_C10_no_empty_candidate (x : Option String) (c : String) :
    (c ∈ (normalize_transcription x).candidates → c ≠ "") ∧
    (c ∈ (normalize_transcription x).direct_candidates → c ≠ "") := by
  by_cases hx : x.getD "" = ""
  · rw [normalize_empty_shape x hx]
    constructor
    · intro h; simp at h
    · intro h; simp at h
  · obtain ⟨g, r1, r2, r3, r4, r5, heq⟩ := normalize_main_shape x hx
    rw [heq]
    constructor
    · intro h
      exact combineSources_ne _ _ h
    · intro h
      exact generateDirect_ne _ _ _ h

/-- Witness for C10: the theorem applied at the concrete input "e4" and
candidate "e4", which occurs in both candidate lists of the result. -/
theorem claim_C10_no_empty_candidate_witness :
    ("e4" : String) ≠ "" ∧ ("e4" : String) ≠ "" :=
  ⟨(claim_C10_no_empty_candidate (some "e4") "e4").1 (by decide),
   (claim_C10_no_empty_candidate (some "e4") "e4").2 (by decide)⟩

end ChessNorm
